import Mathlib

/-!
json_generator: a streaming JSON text generator

Shallow embedding of `json_generator.c` and a verification of its documented behaviour.

Modelling conventions.

* A `char *` argument is the list of bytes found at the pointer; the C string it denotes is
  the part before the first NUL (`c_str`), the end of the list standing for the terminator.
* Pointers into the caller's buffer are addresses (`Nat`, `0` is `NULL`).  The caller's array is
  `Machine.mem`; it is the array `jstr.buf` points at, so address `p` is cell `p - jstr.buf`.
* The flush callback is a function of the C string it is handed, the private pointer and the
  state of whatever lies behind the callback (`Machine.world`).  The message that
  `json_add_to_str` prints on the standard output when it cannot flush is left out.
* `int` quantities are `Int`; the lengths of strings are assumed to fit an `int`.
* The `while (1)` loop of `json_add_to_str` takes a fuel argument, which every function that
  appends passes on; running out of fuel, a negative `memmove` size and a store outside the
  caller's array are reported as faults.
* A `float` is represented by the text `%f` renders it to; `%d` is rendered by `Nat.toDigits`.

Layout.

Embedding of the source; invariants and the relations `Emits` (text emitted in full) and
`Stored` (text stored as far as the buffer has room); the texts of the calls according to the
specification; a recogniser of JSON text; then the lemmas and the theorems on the claims.
-/

namespace JsonGenerator

/-- Reasons for which a run of the embedded code yields no result. -/
inductive Fault where
  /-- The loop did not come to an end within the supplied number of iterations. -/
  | fuel
  /-- Undefined behaviour in C: a negative copy size or a store outside the array. -/
  | undefined
  deriving DecidableEq, Repr

/-- The terminator byte. -/
def NUL : Char := Char.ofNat 0

/-- The C string found at a pointer: the bytes before the first NUL. -/
def c_str (p : List Char) : List Char := p.takeWhile (fun c => c != NUL)

/-- Embedding of `strlen`. -/
def strlen (p : List Char) : Int := ((c_str p).length : Int)

/-- Embedding of `json_flush_cb_t`: `void (*)(char *buf, void *priv)`, acting on the state `W`
behind the callback. -/
abbrev json_flush_cb_t (W : Type) : Type := List Char → Nat → W → W

/-- Embedding of `json_str_t`. -/
structure json_str_t (W : Type) where
  buf : Nat
  buf_size : Int
  flush_cb : Option (json_flush_cb_t W)
  priv : Nat
  comma_req : Bool
  free_ptr : Nat

/-- Program state: the writer structure, the caller's array and the state behind the callback. -/
structure Machine (W : Type) where
  jstr : json_str_t W
  mem : List Char
  world : W

/-- Result of `memset(jstr, 0, sizeof(json_str_t))`. -/
def json_str_zero (W : Type) : json_str_t W :=
  { buf := 0, buf_size := 0, flush_cb := none, priv := 0, comma_req := false, free_ptr := 0 }

def MAX_INT_IN_STR : Nat := 24
def MAX_FLOAT_IN_STR : Nat := 30

/-- A `float` argument.  Floating point is kept opaque: the value is represented by the text
that the conversion `%f` renders it to. -/
structure c_float where
  fmt_f : List Char

/-- Text of the conversion `%d`: base 10, no leading zeros, a sign only if negative. -/
def fmt_d (val : Int) : List Char :=
  if val < 0 then '-' :: Nat.toDigits 10 val.natAbs else Nat.toDigits 10 val.natAbs

/-- Embedding of `snprintf(str, size, ...)`: the rendered text cut to `size - 1` bytes. -/
def snprintf (size : Nat) (text : List Char) : List Char := (c_str text).take (size - 1)

/-- Cell of the caller's array that pointer `p` designates. -/
def cell (m : Machine W) (p : Nat) : Nat := p - m.jstr.buf

/-- Store of one byte through a pointer: `*p = c`. -/
def poke (m : Machine W) (p : Nat) (c : Char) : Except Fault (Machine W) :=
  if m.jstr.buf ≤ p ∧ cell m p < m.mem.length then
    .ok { m with mem := m.mem.set (cell m p) c }
  else .error .undefined

/-- Embedding of `memmove(dst, src, n)` with `dst` in the caller's array. -/
def memmove (m : Machine W) (dst : Nat) (src : List Char) (n : Int) : Except Fault (Machine W) :=
  if n < 0 then .error .undefined
  else if m.jstr.buf ≤ dst ∧ cell m dst + n.toNat ≤ m.mem.length ∧ n.toNat ≤ src.length then
    .ok { m with mem := m.mem.take (cell m dst) ++ src.take n.toNat
                          ++ m.mem.drop (cell m dst + n.toNat) }
  else .error .undefined

/-- Embedding of `json_get_empty_len`. -/
def json_get_empty_len (jstr : json_str_t W) : Int :=
  jstr.buf_size - ((jstr.free_ptr : Int) - (jstr.buf : Int)) - 1

/-- How one pass through the body of the loop of `json_add_to_str` leaves it. -/
inductive Ctl (W : Type) where
  /-- `break`. -/
  | brk (m : Machine W)
  /-- `return r`. -/
  | ret (r : Int) (m : Machine W)
  /-- Next iteration, with the values of `cur_ptr` and `len`. -/
  | next (m : Machine W) (cur_ptr : List Char) (len : Int)

/-- Body of the `while (1)` loop of `json_add_to_str`. -/
def json_add_to_str_body (m : Machine W) (cur_ptr : List Char) (len : Int) :
    Except Fault (Ctl W) :=
  let len_remaining := json_get_empty_len m.jstr
  let copy_len := if len_remaining > len then len else len_remaining
  match memmove m m.jstr.free_ptr cur_ptr copy_len with
  | .error e => .error e
  | .ok m =>
    let cur_ptr := cur_ptr.drop copy_len.toNat
    let m := { m with jstr := { m.jstr with free_ptr := m.jstr.free_ptr + copy_len.toNat } }
    let len := len - copy_len
    if len ≠ 0 then
      match poke m m.jstr.free_ptr NUL with
      | .error e => .error e
      | .ok m =>
        match m.jstr.flush_cb with
        | none => .ok (.ret (-1) m)
        | some flush_cb =>
          let m := { m with world := flush_cb (c_str m.mem) m.jstr.priv m.world }
          let m := { m with jstr := { m.jstr with free_ptr := m.jstr.buf } }
          .ok (.next m cur_ptr len)
    else .ok (.brk m)

/-- The `while (1)` loop of `json_add_to_str`, for at most `fuel` iterations. -/
def json_add_to_str_loop : Nat → Machine W → List Char → Int → Except Fault (Int × Machine W)
  | 0, _, _, _ => .error .fuel
  | fuel + 1, m, cur_ptr, len =>
    match json_add_to_str_body m cur_ptr len with
    | .error e => .error e
    | .ok (.brk m) => .ok (0, m)
    | .ok (.ret r m) => .ok (r, m)
    | .ok (.next m cur_ptr len) => json_add_to_str_loop fuel m cur_ptr len

/-- Embedding of `json_add_to_str`. -/
def json_add_to_str (fuel : Nat) (m : Machine W) (str : List Char) :
    Except Fault (Int × Machine W) :=
  json_add_to_str_loop fuel m str (strlen str)

/-- Embedding of `json_str_start`; `mem` is the array that `buf` points at. -/
def json_str_start (m : Machine W) (buf : Nat) (buf_size : Int)
    (flush_cb : Option (json_flush_cb_t W)) (priv : Nat) : Machine W :=
  { m with jstr := { json_str_zero W with
      buf := buf, buf_size := buf_size, flush_cb := flush_cb, free_ptr := buf, priv := priv } }

/-- Embedding of `json_str_end`. -/
def json_str_end (m : Machine W) : Except Fault (Machine W) :=
  match poke m m.jstr.free_ptr NUL with
  | .error e => .error e
  | .ok m =>
    let m := match m.jstr.flush_cb with
      | some flush_cb => { m with world := flush_cb (c_str m.mem) m.jstr.priv m.world }
      | none => m
    .ok { m with jstr := json_str_zero W }

/-- Assignment `jstr->comma_req = b`. -/
def set_comma_req (m : Machine W) (b : Bool) : Machine W :=
  { m with jstr := { m.jstr with comma_req := b } }

/-- Embedding of `json_handle_comma`; the result of `json_add_to_str` is dropped. -/
def json_handle_comma (fuel : Nat) (m : Machine W) : Except Fault (Machine W) :=
  if m.jstr.comma_req then do
    let r ← json_add_to_str fuel m [',']
    pure r.2
  else pure m

/-- Embedding of `json_handle_name`; only the result of the last append is returned. -/
def json_handle_name (fuel : Nat) (m : Machine W) (name : List Char) :
    Except Fault (Int × Machine W) := do
  let r ← json_add_to_str fuel m ['"']
  let r ← json_add_to_str fuel r.2 name
  json_add_to_str fuel r.2 ['"', ':']

def json_start_object (fuel : Nat) (m : Machine W) : Except Fault (Int × Machine W) := do
  let m ← json_handle_comma fuel m
  let m := set_comma_req m false
  json_add_to_str fuel m ['{']

def json_end_object (fuel : Nat) (m : Machine W) : Except Fault (Int × Machine W) :=
  let m := set_comma_req m true
  json_add_to_str fuel m ['}']

def json_start_array (fuel : Nat) (m : Machine W) : Except Fault (Int × Machine W) := do
  let m ← json_handle_comma fuel m
  let m := set_comma_req m false
  json_add_to_str fuel m ['[']

def json_end_array (fuel : Nat) (m : Machine W) : Except Fault (Int × Machine W) :=
  let m := set_comma_req m true
  json_add_to_str fuel m [']']

def json_push_object (fuel : Nat) (m : Machine W) (name : List Char) :
    Except Fault (Int × Machine W) := do
  let m ← json_handle_comma fuel m
  let r ← json_handle_name fuel m name
  let m := set_comma_req r.2 false
  json_add_to_str fuel m ['{']

def json_pop_object (fuel : Nat) (m : Machine W) : Except Fault (Int × Machine W) :=
  let m := set_comma_req m true
  json_add_to_str fuel m ['}']

def json_push_array (fuel : Nat) (m : Machine W) (name : List Char) :
    Except Fault (Int × Machine W) := do
  let m ← json_handle_comma fuel m
  let r ← json_handle_name fuel m name
  let m := set_comma_req r.2 false
  json_add_to_str fuel m ['[']

def json_pop_array (fuel : Nat) (m : Machine W) : Except Fault (Int × Machine W) :=
  let m := set_comma_req m true
  json_add_to_str fuel m [']']

def json_set_bool (fuel : Nat) (m : Machine W) (val : Bool) : Except Fault (Int × Machine W) :=
  let m := set_comma_req m true
  if val then json_add_to_str fuel m ['t', 'r', 'u', 'e']
  else json_add_to_str fuel m ['f', 'a', 'l', 's', 'e']

def json_set_int (fuel : Nat) (m : Machine W) (val : Int) : Except Fault (Int × Machine W) :=
  let m := set_comma_req m true
  let str := snprintf MAX_INT_IN_STR (fmt_d val)
  json_add_to_str fuel m str

def json_set_float (fuel : Nat) (m : Machine W) (val : c_float) :
    Except Fault (Int × Machine W) :=
  let m := set_comma_req m true
  let str := snprintf MAX_FLOAT_IN_STR val.fmt_f
  json_add_to_str fuel m str

def json_set_string (fuel : Nat) (m : Machine W) (val : List Char) :
    Except Fault (Int × Machine W) := do
  let m := set_comma_req m true
  let r ← json_add_to_str fuel m ['"']
  let r ← json_add_to_str fuel r.2 val
  json_add_to_str fuel r.2 ['"']

def json_set_null (fuel : Nat) (m : Machine W) : Except Fault (Int × Machine W) :=
  let m := set_comma_req m true
  json_add_to_str fuel m ['n', 'u', 'l', 'l']

def json_obj_set_bool (fuel : Nat) (m : Machine W) (name : List Char) (val : Bool) :
    Except Fault (Int × Machine W) := do
  let m ← json_handle_comma fuel m
  let r ← json_handle_name fuel m name
  json_set_bool fuel r.2 val

def json_arr_set_bool (fuel : Nat) (m : Machine W) (val : Bool) :
    Except Fault (Int × Machine W) := do
  let m ← json_handle_comma fuel m
  json_set_bool fuel m val

def json_obj_set_int (fuel : Nat) (m : Machine W) (name : List Char) (val : Int) :
    Except Fault (Int × Machine W) := do
  let m ← json_handle_comma fuel m
  let r ← json_handle_name fuel m name
  json_set_int fuel r.2 val

def json_arr_set_int (fuel : Nat) (m : Machine W) (val : Int) :
    Except Fault (Int × Machine W) := do
  let m ← json_handle_comma fuel m
  json_set_int fuel m val

def json_obj_set_float (fuel : Nat) (m : Machine W) (name : List Char) (val : c_float) :
    Except Fault (Int × Machine W) := do
  let m ← json_handle_comma fuel m
  let r ← json_handle_name fuel m name
  json_set_float fuel r.2 val

def json_arr_set_float (fuel : Nat) (m : Machine W) (val : c_float) :
    Except Fault (Int × Machine W) := do
  let m ← json_handle_comma fuel m
  json_set_float fuel m val

def json_obj_set_string (fuel : Nat) (m : Machine W) (name : List Char) (val : List Char) :
    Except Fault (Int × Machine W) := do
  let m ← json_handle_comma fuel m
  let r ← json_handle_name fuel m name
  json_set_string fuel r.2 val

def json_arr_set_string (fuel : Nat) (m : Machine W) (val : List Char) :
    Except Fault (Int × Machine W) := do
  let m ← json_handle_comma fuel m
  json_set_string fuel m val

def json_obj_set_null (fuel : Nat) (m : Machine W) (name : List Char) :
    Except Fault (Int × Machine W) := do
  let m ← json_handle_comma fuel m
  let r ← json_handle_name fuel m name
  json_set_null fuel r.2

def json_arr_set_null (fuel : Nat) (m : Machine W) :
    Except Fault (Int × Machine W) := do
  let m ← json_handle_comma fuel m
  json_set_null fuel m

/-- The cursor: offset of `free_ptr` in the buffer. -/
def cursor (jstr : json_str_t W) : Int := (jstr.free_ptr : Int) - (jstr.buf : Int)

/-- The caller's array has `buf_size` bytes and the cursor lies inside it. -/
def Inv (m : Machine W) : Prop :=
  (m.mem.length : Int) = m.jstr.buf_size ∧ 0 ≤ cursor m.jstr ∧ cursor m.jstr < m.jstr.buf_size

instance (m : Machine W) : Decidable (Inv m) := by unfold Inv; infer_instance

/-- The buffer bytes from offset 0 up to the cursor. -/
def written (m : Machine W) : List Char := m.mem.take (cell m m.jstr.free_ptr)

/-- No terminator byte among the bytes before the cursor. -/
def Clean (m : Machine W) : Prop := ∀ c ∈ written m, c ≠ NUL

instance (m : Machine W) : Decidable (Clean m) := by unfold Clean; infer_instance

/-- Machine after `s` was copied at the cursor and the cursor advanced past it. -/
def put (m : Machine W) (s : List Char) : Machine W :=
  { m with
    mem := written m ++ s ++ m.mem.drop (cell m m.jstr.free_ptr + s.length)
    jstr := { m.jstr with free_ptr := m.jstr.free_ptr + s.length } }

/-- Number of bytes that still fit before the terminator slot. -/
def room (m : Machine W) : Nat := m.mem.length - 1 - cell m m.jstr.free_ptr

/-- Machine after the buffer was filled up with the head of `s` and terminated. -/
def fill (m : Machine W) (s : List Char) : Machine W :=
  { m with
    mem := written m ++ s.take (room m) ++ [NUL]
    jstr := { m.jstr with free_ptr := m.jstr.free_ptr + room m } }

/-- Machine after a flush: the callback has run on the chunk and the cursor is back at the
start. -/
def flushed (m : Machine W) (flush_cb : json_flush_cb_t W) (chunk : List Char) : Machine W :=
  { m with
    world := flush_cb chunk m.jstr.priv m.world
    jstr := { m.jstr with free_ptr := m.jstr.buf } }

/-- State behind the callback after it has been handed the chunks in order. -/
def deliver (flush_cb : Option (json_flush_cb_t W)) (priv : Nat) (chunks : List (List Char))
    (w : W) : W :=
  match flush_cb with
  | none => w
  | some f => chunks.foldl (fun w c => f c priv w) w

/-- The machine `m'` is `m` after the text `s` was emitted in full, `chunks` being the chunks
handed to the callback on the way.  What is said of the contents of the chunks supposes that
no terminator byte lay before the cursor of `m`. -/
structure Emits (m : Machine W) (s : List Char) (chunks : List (List Char)) (m' : Machine W) :
    Prop where
  buf_eq : m'.jstr.buf = m.jstr.buf
  size_eq : m'.jstr.buf_size = m.jstr.buf_size
  cb_eq : m'.jstr.flush_cb = m.jstr.flush_cb
  priv_eq : m'.jstr.priv = m.jstr.priv
  inv : Inv m'
  length_eq : m'.mem.length = m.mem.length
  world_eq : m'.world = deliver m.jstr.flush_cb m.jstr.priv chunks m.world
  no_cb : m.jstr.flush_cb = none → chunks = []
  clean : Clean m → Clean m'
  text_eq : Clean m → chunks.flatten ++ written m' = written m ++ s
  chunk_length : Clean m → ∀ c ∈ chunks, c.length = m.mem.length - 1

/-- A call of the public interface between `json_str_start` and `json_str_end`. -/
inductive Op where
  | start_object
  | end_object
  | start_array
  | end_array
  | push_object (name : List Char)
  | pop_object
  | push_array (name : List Char)
  | pop_array
  | obj_set_bool (name : List Char) (val : Bool)
  | arr_set_bool (val : Bool)
  | obj_set_int (name : List Char) (val : Int)
  | arr_set_int (val : Int)
  | obj_set_float (name : List Char) (val : c_float)
  | arr_set_float (val : c_float)
  | obj_set_string (name : List Char) (val : List Char)
  | arr_set_string (val : List Char)
  | obj_set_null (name : List Char)
  | arr_set_null

/-- The call that an `Op` stands for. -/
def exec (fuel : Nat) (m : Machine W) : Op → Except Fault (Int × Machine W)
  | .start_object => json_start_object fuel m
  | .end_object => json_end_object fuel m
  | .start_array => json_start_array fuel m
  | .end_array => json_end_array fuel m
  | .push_object name => json_push_object fuel m name
  | .pop_object => json_pop_object fuel m
  | .push_array name => json_push_array fuel m name
  | .pop_array => json_pop_array fuel m
  | .obj_set_bool name val => json_obj_set_bool fuel m name val
  | .arr_set_bool val => json_arr_set_bool fuel m val
  | .obj_set_int name val => json_obj_set_int fuel m name val
  | .arr_set_int val => json_arr_set_int fuel m val
  | .obj_set_float name val => json_obj_set_float fuel m name val
  | .arr_set_float val => json_arr_set_float fuel m val
  | .obj_set_string name val => json_obj_set_string fuel m name val
  | .arr_set_string val => json_arr_set_string fuel m val
  | .obj_set_null name => json_obj_set_null fuel m name
  | .arr_set_null => json_arr_set_null fuel m

/-- The calls of a list made in order; the results of the calls are collected. -/
def run (fuel : Nat) (m : Machine W) : List Op → Except Fault (List Int × Machine W)
  | [] => pure ([], m)
  | op :: ops => do
    let r ← exec fuel m op
    let rs ← run fuel r.2 ops
    pure (r.1 :: rs.1, rs.2)

/-- The strings that a call hands to `json_add_to_str` before its last one, in order. -/
def Op.init (comma_req : Bool) (op : Op) : List (List Char) :=
  let comma : List (List Char) := if comma_req then [[',']] else []
  let name (n : List Char) : List (List Char) := [['"'], n, ['"', ':']]
  match op with
  | .start_object | .start_array => comma
  | .end_object | .end_array | .pop_object | .pop_array => []
  | .push_object n | .push_array n => comma ++ name n
  | .obj_set_bool n _ | .obj_set_int n _ | .obj_set_float n _ | .obj_set_null n =>
    comma ++ name n
  | .arr_set_bool _ | .arr_set_int _ | .arr_set_float _ | .arr_set_null => comma
  | .obj_set_string n v => comma ++ name n ++ [['"'], v]
  | .arr_set_string v => comma ++ [['"'], v]

/-- The string of the last `json_add_to_str` of a call, whose result the call returns. -/
def Op.last : Op → List Char
  | .start_object | .push_object _ => ['{']
  | .end_object | .pop_object => ['}']
  | .start_array | .push_array _ => ['[']
  | .end_array | .pop_array => [']']
  | .obj_set_bool _ v | .arr_set_bool v =>
    if v then ['t', 'r', 'u', 'e'] else ['f', 'a', 'l', 's', 'e']
  | .obj_set_int _ v | .arr_set_int v => snprintf MAX_INT_IN_STR (fmt_d v)
  | .obj_set_float _ v | .arr_set_float v => snprintf MAX_FLOAT_IN_STR v.fmt_f
  | .obj_set_string _ _ | .arr_set_string _ => ['"']
  | .obj_set_null _ | .arr_set_null => ['n', 'u', 'l', 'l']

/-- Value of `comma_req` that a call leaves behind. -/
def Op.comma_after : Op → Bool
  | .start_object | .start_array | .push_object _ | .push_array _ => false
  | _ => true

/-- Appends of a list of strings in order, their results dropped. -/
def add_all (fuel : Nat) (m : Machine W) : List (List Char) → Except Fault (Machine W)
  | [] => pure m
  | p :: ps => do
    let r ← json_add_to_str fuel m p
    add_all fuel r.2 ps

/-- A call as a series of appends followed by the assignment to `comma_req`. -/
def exec_flat (fuel : Nat) (m : Machine W) (op : Op) : Except Fault (Int × Machine W) := do
  let m ← add_all fuel m (op.init m.jstr.comma_req)
  let r ← json_add_to_str fuel m op.last
  pure (r.1, set_comma_req r.2 op.comma_after)

/-- Outcome of a loop body with `comma_req` assigned afterwards. -/
def Ctl.set_comma_req (b : Bool) : Ctl W → Ctl W
  | .brk m => .brk (JsonGenerator.set_comma_req m b)
  | .ret r m => .ret r (JsonGenerator.set_comma_req m b)
  | .next m c l => .next (JsonGenerator.set_comma_req m b) c l

/-- Text with length `n` can be emitted in full from `m` with the given fuel: either a flush
callback is there and the buffer has room for a data byte, or the text fits the free space. -/
def CanEmit (fuel : Nat) (m : Machine W) (n : Nat) : Prop :=
  0 < fuel ∧
    ((m.jstr.flush_cb ≠ none ∧ 2 ≤ m.mem.length ∧ n < fuel) ∨
      (m.jstr.flush_cb = none ∧ n ≤ room m))

/-- The bytes that a call hands to `json_add_to_str`, in order. -/
def Op.code_text (comma_req : Bool) (op : Op) : List Char :=
  ((op.init comma_req ++ [op.last]).map c_str).flatten

/-- Separator of the spec: a `,` if one is owed. -/
def separator (owed : Bool) : List Char := if owed then [','] else []

/-- Member-name prefix of the spec: the name between quotes, followed by `:`. -/
def member_name (name : List Char) : List Char := ['"'] ++ c_str name ++ ['"', ':']

/-- Value text of a boolean: the literal `true` or `false`. -/
def bool_text (val : Bool) : List Char :=
  if val then ['t', 'r', 'u', 'e'] else ['f', 'a', 'l', 's', 'e']

/-- Value text of an integer: canonical base 10. -/
def int_text (val : Int) : List Char := fmt_d val

/-- Value text of a float: what `snprintf` leaves of its `%f` rendering, taken as it is. -/
def float_text (val : c_float) : List Char := snprintf MAX_FLOAT_IN_STR val.fmt_f

/-- Value text of a string: the raw value between quotes, not escaped. -/
def string_text (val : List Char) : List Char := ['"'] ++ c_str val ++ ['"']

/-- Value text of null. -/
def null_text : List Char := ['n', 'u', 'l', 'l']

/-- The token of a call according to the spec: the member name, if it takes one, and the
delimiter or value text. -/
def Op.token : Op → List Char
  | .start_object => ['{']
  | .end_object => ['}']
  | .start_array => ['[']
  | .end_array => [']']
  | .push_object name => member_name name ++ ['{']
  | .pop_object => ['}']
  | .push_array name => member_name name ++ ['[']
  | .pop_array => [']']
  | .obj_set_bool name val => member_name name ++ bool_text val
  | .arr_set_bool val => bool_text val
  | .obj_set_int name val => member_name name ++ int_text val
  | .arr_set_int val => int_text val
  | .obj_set_float name val => member_name name ++ float_text val
  | .arr_set_float val => float_text val
  | .obj_set_string name val => member_name name ++ string_text val
  | .arr_set_string val => string_text val
  | .obj_set_null name => member_name name ++ null_text
  | .arr_set_null => null_text

/-- The calls that close a container (`end_*`, `pop_*`). -/
def Op.closes : Op → Bool
  | .end_object | .end_array | .pop_object | .pop_array => true
  | _ => false

/-- The calls that open a container (`start_*`, `push_*`). -/
def Op.opens : Op → Bool
  | .start_object | .start_array | .push_object _ | .push_array _ => true
  | _ => false

/-- `separator_owed` after a call according to the spec: false after an opening delimiter,
true after a value or a closing delimiter. -/
def Op.owed_after (op : Op) : Bool := !op.opens

/-- Text of a call according to the spec: the separator, unless the call closes a container,
then the token. -/
def Op.text (owed : Bool) (op : Op) : List Char :=
  (if op.closes then [] else separator owed) ++ op.token

/-- Text of a series of calls according to the spec: the texts of the calls in call order. -/
def document (owed : Bool) : List Op → List Char
  | [] => []
  | op :: ops => op.text owed ++ document op.owed_after ops

/-- The `int` arguments of a call lie in the range of a 32-bit `int`. -/
def Op.in_range : Op → Prop
  | .obj_set_int _ val | .arr_set_int val => -2147483648 ≤ val ∧ val ≤ 2147483647
  | _ => True

instance (op : Op) : Decidable op.in_range := by
  cases op <;> unfold Op.in_range <;> infer_instance

/-- The flush callback that appends each chunk to an accumulator. -/
def accumulate : json_flush_cb_t (List Char) := fun chunk _ acc => acc ++ chunk

/-- Without a callback: the machine `m'` is `m` after as much of the text `s` was stored as
the buffer has room for. -/
structure Stored (m : Machine W) (s : List Char) (m' : Machine W) : Prop where
  buf_eq : m'.jstr.buf = m.jstr.buf
  size_eq : m'.jstr.buf_size = m.jstr.buf_size
  cb_eq : m'.jstr.flush_cb = m.jstr.flush_cb
  priv_eq : m'.jstr.priv = m.jstr.priv
  inv : Inv m'
  length_eq : m'.mem.length = m.mem.length
  world_eq : m'.world = m.world
  text_eq : written m' = (written m ++ s).take (m.mem.length - 1)
  clean : Clean m → (∀ c ∈ s, c ≠ NUL) → Clean m'

/-- The result of an append without a callback: 0 if the text fits the free space, else -1. -/
def fit_result (m : Machine W) (s : List Char) : Int :=
  if (written m ++ s).length ≤ m.mem.length - 1 then 0 else -1

/-- What `%f` can render a float to: the text is not empty and begins with a sign, a digit or
the first letter of `inf` or `nan`. -/
def c_float.rendered (val : c_float) : Bool :=
  match c_str val.fmt_f with
  | [] => false
  | c :: _ => c == '-' || c.isDigit || c == 'i' || c == 'n'

/-- The `float` arguments of a call are rendered as `%f` renders a float. -/
def Op.rendered : Op → Prop
  | .obj_set_float _ val | .arr_set_float val => val.rendered = true
  | _ => True

instance (op : Op) : Decidable op.rendered := by
  cases op <;> unfold Op.rendered <;> infer_instance

/-- The text produced so far, for a callback that accumulates the chunks (or none): the
accumulated chunks followed by the buffer bytes before the cursor. -/
def output (m : Machine (List Char)) : List Char := m.world ++ written m

/-- A value handed to a setter. -/
inductive Value where
  | bool (val : Bool)
  | int (val : Int)
  | float (val : c_float)
  | string (val : List Char)
  | null

/-- The object-member form of the setter of a value. -/
def Value.obj_set (name : List Char) : Value → Op
  | .bool val => .obj_set_bool name val
  | .int val => .obj_set_int name val
  | .float val => .obj_set_float name val
  | .string val => .obj_set_string name val
  | .null => .obj_set_null name

/-- The array-element form of the setter of a value. -/
def Value.arr_set : Value → Op
  | .bool val => .arr_set_bool val
  | .int val => .arr_set_int val
  | .float val => .arr_set_float val
  | .string val => .arr_set_string val
  | .null => .arr_set_null

/-- The value text of the spec. -/
def Value.text : Value → List Char
  | .bool val => bool_text val
  | .int val => int_text val
  | .float val => float_text val
  | .string val => string_text val
  | .null => null_text

/-! ### JSON text (RFC 8259), as a recogniser

The recogniser works on characters; the well-formedness of multi-byte sequences is not part
of it.  Each function returns what is left of the input after the item it recognises. -/

/-- Insignificant whitespace: space, horizontal tab, line feed, carriage return. -/
def json_ws (c : Char) : Bool := c.toNat == 32 || c.toNat == 9 || c.toNat == 10 || c.toNat == 13

/-- The input without its leading whitespace. -/
def skip_ws (s : List Char) : List Char := s.dropWhile json_ws

def json_digit (c : Char) : Bool := 48 ≤ c.toNat && c.toNat ≤ 57

def json_hex (c : Char) : Bool :=
  json_digit c || (65 ≤ c.toNat && c.toNat ≤ 70) || (97 ≤ c.toNat && c.toNat ≤ 102)

/-- The characters that may follow a backslash on their own: `"`, `\`, `/`, `b`, `f`, `n`,
`r`, `t`. -/
def json_escape (c : Char) : Bool :=
  c.toNat == 34 || c.toNat == 92 || c.toNat == 47 || c.toNat == 98 || c.toNat == 102 ||
    c.toNat == 110 || c.toNat == 114 || c.toNat == 116

/-- A character that may stand unescaped in a string: not a control character, not `"`, not
a backslash. -/
def json_unescaped (c : Char) : Bool := 32 ≤ c.toNat && c.toNat != 34 && c.toNat != 92

/-- The rest of a string after its opening quote, up to and including the closing quote. -/
def json_string_tail : Nat → List Char → Option (List Char)
  | 0, _ => none
  | _, [] => none
  | fuel + 1, c :: cs =>
    if c.toNat == 34 then some cs
    else if c.toNat == 92 then
      match cs with
      | e :: h1 :: h2 :: h3 :: h4 :: r =>
        if json_escape e then json_string_tail fuel (h1 :: h2 :: h3 :: h4 :: r)
        else if e.toNat == 117 && json_hex h1 && json_hex h2 && json_hex h3 && json_hex h4 then
          json_string_tail fuel r
        else none
      | e :: r => if json_escape e then json_string_tail fuel r else none
      | [] => none
    else if json_unescaped c then json_string_tail fuel cs
    else none

/-- One digit at least, then the digits that follow. -/
def json_digits : List Char → Option (List Char)
  | c :: cs => if json_digit c then some (cs.dropWhile json_digit) else none
  | [] => none

/-- The optional fraction and exponent of a number. -/
def json_frac_exp (s : List Char) : Option (List Char) :=
  let after_frac : Option (List Char) :=
    match s with
    | c :: cs => if c.toNat == 46 then json_digits cs else some s
    | [] => some s
  match after_frac with
  | none => none
  | some (c :: cs) =>
    if c.toNat == 101 || c.toNat == 69 then
      match cs with
      | d :: ds => if d.toNat == 43 || d.toNat == 45 then json_digits ds else json_digits cs
      | [] => none
    else some (c :: cs)
  | some [] => some []

/-- A number: an optional minus sign, an integer part without leading zeros, an optional
fraction, an optional exponent. -/
def json_number (s : List Char) : Option (List Char) :=
  let s := match s with
    | c :: cs => if c.toNat == 45 then cs else s
    | [] => s
  match s with
  | c :: cs =>
    if c.toNat == 48 then json_frac_exp cs
    else if json_digit c then json_frac_exp (cs.dropWhile json_digit)
    else none
  | [] => none

/-- A scalar value: a string, a number or one of the literals `true`, `false`, `null`. -/
def json_scalar (s : List Char) : Option (List Char) :=
  match s with
  | [] => none
  | c :: cs =>
    if c.toNat == 34 then json_string_tail (cs.length + 1) cs
    else if ['t', 'r', 'u', 'e'].isPrefixOf s then some (s.drop 4)
    else if ['f', 'a', 'l', 's', 'e'].isPrefixOf s then some (s.drop 5)
    else if ['n', 'u', 'l', 'l'].isPrefixOf s then some (s.drop 4)
    else json_number s

mutual
/-- A value at the head of the input. -/
def json_value : Nat → List Char → Option (List Char)
  | 0, _ => none
  | _, [] => none
  | fuel + 1, c :: cs =>
    if c.toNat == 123 then
      match skip_ws cs with
      | d :: ds => if d.toNat == 125 then some ds else json_members fuel (d :: ds)
      | [] => none
    else if c.toNat == 91 then
      match skip_ws cs with
      | d :: ds => if d.toNat == 93 then some ds else json_elements fuel (d :: ds)
      | [] => none
    else json_scalar (c :: cs)
/-- The members of an object that has one at least, up to and including the closing brace. -/
def json_members : Nat → List Char → Option (List Char)
  | 0, _ => none
  | _, [] => none
  | fuel + 1, c :: cs =>
    if c.toNat == 34 then
      match json_string_tail (cs.length + 1) cs with
      | none => none
      | some r =>
        match skip_ws r with
        | d :: ds =>
          if d.toNat == 58 then
            match json_value fuel (skip_ws ds) with
            | none => none
            | some r =>
              match skip_ws r with
              | e :: es =>
                if e.toNat == 44 then json_members fuel (skip_ws es)
                else if e.toNat == 125 then some es
                else none
              | [] => none
          else none
        | [] => none
    else none
/-- The elements of an array that has one at least, up to and including the closing
bracket. -/
def json_elements : Nat → List Char → Option (List Char)
  | 0, _ => none
  | fuel + 1, s =>
    match json_value fuel s with
    | none => none
    | some r =>
      match skip_ws r with
      | e :: es =>
        if e.toNat == 44 then json_elements fuel (skip_ws es)
        else if e.toNat == 93 then some es
        else none
      | [] => none
end

/-- Syntactically valid JSON text: whitespace, one value, whitespace, and nothing else. -/
def is_json (s : List Char) : Bool :=
  match json_value (s.length + 1) (skip_ws s) with
  | some r => (skip_ws r).isEmpty
  | none => false

/-! ### Series of structural calls -/

/-- The four kinds of opening call. -/
inductive Opener where
  | start_object
  | start_array
  | push_object
  | push_array
  deriving DecidableEq

/-- Balance of a series of structural calls against the stack of the containers that are
open: every `end_*`/`pop_*` closes the container opened last, by the matching call, and none
stays open.  A series that holds another call is not a series of structural calls. -/
def balanced_from : List Opener → List Op → Bool
  | st, [] => st.isEmpty
  | st, .start_object :: ops => balanced_from (.start_object :: st) ops
  | st, .start_array :: ops => balanced_from (.start_array :: st) ops
  | st, .push_object _ :: ops => balanced_from (.push_object :: st) ops
  | st, .push_array _ :: ops => balanced_from (.push_array :: st) ops
  | .start_object :: st, .end_object :: ops => balanced_from st ops
  | .start_array :: st, .end_array :: ops => balanced_from st ops
  | .push_object :: st, .pop_object :: ops => balanced_from st ops
  | .push_array :: st, .pop_array :: ops => balanced_from st ops
  | _, _ => false

/-- A series of structural calls with correctly balanced start/end and push/pop pairs. -/
def balanced (ops : List Op) : Bool := balanced_from [] ops

mutual
/-- A container built by structural calls alone. -/
inductive Node where
  | obj (members : Members)
  | arr (elements : Elements)
/-- The members of an object, each a named container. -/
inductive Members where
  | nil
  | cons (name : List Char) (node : Node) (rest : Members)
/-- The elements of an array, each a container. -/
inductive Elements where
  | nil
  | cons (node : Node) (rest : Elements)
end

mutual
/-- The calls that build a container: `push_*`/`pop_*` with the name if it is a member of an
object, `start_*`/`end_*` if it is the root or an element of an array. -/
def Node.calls (name : Option (List Char)) : Node → List Op
  | .obj ms =>
    (match name with
      | some n => Op.push_object n
      | none => Op.start_object) ::
    (ms.calls ++ [match name with
      | some _ => Op.pop_object
      | none => Op.end_object])
  | .arr es =>
    (match name with
      | some n => Op.push_array n
      | none => Op.start_array) ::
    (es.calls ++ [match name with
      | some _ => Op.pop_array
      | none => Op.end_array])
/-- The calls that build the members of an object, in order. -/
def Members.calls : Members → List Op
  | .nil => []
  | .cons name node rest => node.calls (some name) ++ rest.calls
/-- The calls that build the elements of an array, in order. -/
def Elements.calls : Elements → List Op
  | .nil => []
  | .cons node rest => node.calls none ++ rest.calls
end

/-- A printable ASCII character other than `"` and the backslash. -/
def plain_char (c : Char) : Bool :=
  32 ≤ c.toNat && c.toNat < 127 && c.toNat != 34 && c.toNat != 92

mutual
/-- Every member name in the container is made of plain characters. -/
def Node.plain : Node → Bool
  | .obj ms => ms.plain
  | .arr es => es.plain
def Members.plain : Members → Bool
  | .nil => true
  | .cons name node rest => (c_str name).all plain_char && node.plain && rest.plain
def Elements.plain : Elements → Bool
  | .nil => true
  | .cons node rest => node.plain && rest.plain
end

mutual
/-- The JSON text of a container. -/
def Node.render : Node → List Char
  | .obj ms => '{' :: (ms.render false ++ ['}'])
  | .arr es => '[' :: (es.render false ++ [']'])
/-- The JSON text of the members of an object, after a `,` if one is owed. -/
def Members.render (owed : Bool) : Members → List Char
  | .nil => []
  | .cons name node rest =>
    separator owed ++ (member_name name ++ (node.render ++ rest.render true))
/-- The JSON text of the elements of an array, after a `,` if one is owed. -/
def Elements.render (owed : Bool) : Elements → List Char
  | .nil => []
  | .cons node rest => separator owed ++ (node.render ++ rest.render true)
end

mutual
/-- Number of containers and members in a container. -/
def Node.size : Node → Nat
  | .obj ms => ms.size + 1
  | .arr es => es.size + 1
def Members.size : Members → Nat
  | .nil => 0
  | .cons _ node rest => node.size + rest.size + 1
def Elements.size : Elements → Nat
  | .nil => 0
  | .cons node rest => node.size + rest.size + 1
end

/-- Whether a separator is owed after a series of calls that began with `owed`. -/
def owed_end (owed : Bool) : List Op → Bool
  | [] => owed
  | op :: ops => owed_end op.owed_after ops

/-- The member name that precedes a container, if it has one. -/
def name_text : Option (List Char) → List Char
  | none => []
  | some name => member_name name

/-- A whole session with the accumulating callback on a buffer of the given capacity:
`json_str_start`, the calls, `json_str_end`.  The results of the calls and the text
accumulated by the callback. -/
def session (fuel capacity : Nat) (ops : List Op) : Except Fault (List Int × List Char) := do
  let m0 : Machine (List Char) := ⟨json_str_zero _, List.replicate capacity 'x', []⟩
  let r ← run fuel (json_str_start m0 64 capacity (some accumulate) 0) ops
  let m ← json_str_end r.2
  pure (r.1, m.world)

/-- Without a callback, the buffer is full: no byte fits before the terminator slot. -/
def AtEnd (m : Machine W) : Prop := Inv m ∧ m.jstr.flush_cb = none ∧ room m = 0

/-- Machine after the terminator was stored at the cursor of a full buffer. -/
def capped (m : Machine W) : Machine W := { m with mem := written m ++ [NUL] }

/-- The flush callback that records, in order, the chunks it is handed. -/
def record : json_flush_cb_t (List (List Char)) := fun chunk _ log => log ++ [chunk]

/-- Machine after an iteration at capacity 1: the only cell holds the terminator, the callback
has run on the empty chunk, the writer structure is as before. -/
def stalled (m : Machine W) (flush_cb : json_flush_cb_t W) : Machine W :=
  { m with mem := [NUL], world := flush_cb [] m.jstr.priv m.world }

theorem c_str_ne_nul (p : List Char) : ∀ c ∈ c_str p, c ≠ NUL := by
  intro c hc
  have := List.mem_takeWhile_imp hc
  simpa using this

theorem c_str_of_clean (a : List Char) (h : ∀ c ∈ a, c ≠ NUL) : c_str a = a := by
  unfold c_str
  rw [List.takeWhile_eq_self_iff]
  intro c hc
  simpa using h c hc

theorem c_str_idem (p : List Char) : c_str (c_str p) = c_str p :=
  c_str_of_clean _ (c_str_ne_nul p)

theorem c_str_length_le (p : List Char) : (c_str p).length ≤ p.length := by
  unfold c_str
  exact (List.takeWhile_sublist _).length_le

theorem c_str_append_nul (a b : List Char) (h : ∀ c ∈ a, c ≠ NUL) :
    c_str (a ++ NUL :: b) = a := by
  induction a with
  | nil => simp [c_str]
  | cons x a ih =>
    have hx : x ≠ NUL := h x (by simp)
    have := ih (fun c hc => h c (by simp [hc]))
    simp only [c_str] at this ⊢
    simp [List.takeWhile_cons, hx, this]

theorem take_eq_c_str_take (p : List Char) (d : Nat) (h : d ≤ (c_str p).length) :
    p.take d = (c_str p).take d := by
  induction p generalizing d with
  | nil => simp [c_str]
  | cons x p ih =>
    cases d with
    | zero => simp
    | succ d =>
      by_cases hx : x = NUL
      · simp [c_str, List.takeWhile_cons, hx] at h
      · have h2 : c_str (x :: p) = x :: c_str p := by simp [c_str, List.takeWhile_cons, hx]
        rw [h2] at h ⊢
        simp only [List.length_cons, Nat.add_le_add_iff_right] at h
        simp [ih d h]

theorem c_str_drop (p : List Char) (d : Nat) (h : d ≤ (c_str p).length) :
    c_str (p.drop d) = (c_str p).drop d := by
  induction p generalizing d with
  | nil => simp [c_str]
  | cons x p ih =>
    cases d with
    | zero => simp
    | succ d =>
      by_cases hx : x = NUL
      · simp [c_str, List.takeWhile_cons, hx] at h
      · have h2 : c_str (x :: p) = x :: c_str p := by simp [c_str, List.takeWhile_cons, hx]
        rw [h2] at h ⊢
        simp only [List.length_cons, Nat.add_le_add_iff_right] at h
        simp [ih d h]

theorem body_fits {m : Machine W} {cur : List Char} {len : Int} (hI : Inv m)
    (hl : len = strlen cur) (hfit : len ≤ json_get_empty_len m.jstr) :
    json_add_to_str_body m cur len = .ok (.brk (put m (c_str cur))) := by
  obtain ⟨h1, h2, h3⟩ := hI
  have hle := c_str_length_le cur
  simp only [cursor] at h2 h3
  simp only [json_get_empty_len, strlen] at hfit hl
  have hc : (if json_get_empty_len m.jstr > len then len else json_get_empty_len m.jstr) = len := by
    simp only [json_get_empty_len]; split_ifs <;> omega
  have hn : len.toNat = (c_str cur).length := by omega
  unfold json_add_to_str_body
  simp only [hc, memmove, cell, hn]
  have g1 : ¬ len < 0 := by omega
  have g2 : m.jstr.buf ≤ m.jstr.free_ptr ∧
      m.jstr.free_ptr - m.jstr.buf + (c_str cur).length ≤ m.mem.length ∧
      (c_str cur).length ≤ cur.length := by omega
  simp only [g1, g2, if_false, if_true, and_self, sub_self, ne_eq, not_true_eq_false]
  simp [put, written, cell, take_eq_c_str_take cur _ le_rfl]

theorem drop_last_cell (l : List Char) (h : 0 < l.length) :
    l.drop (l.length - 1) = [l[l.length - 1]] := by
  have hpos : l.length - 1 < l.length := by omega
  rw [List.drop_eq_getElem_cons hpos]
  have : l.length - 1 + 1 = l.length := by omega
  simp [this]

theorem body_full {m : Machine W} {cur : List Char} {len : Int} (hI : Inv m)
    (hl : len = strlen cur) (hbig : json_get_empty_len m.jstr < len) :
    room m < (c_str cur).length ∧
    json_add_to_str_body m cur len =
      match m.jstr.flush_cb with
      | none => .ok (.ret (-1) (fill m (c_str cur)))
      | some flush_cb =>
        .ok (.next (flushed (fill m (c_str cur)) flush_cb (c_str (fill m (c_str cur)).mem))
          (cur.drop (room m)) (len - room m)) := by
  obtain ⟨h1, h2, h3⟩ := hI
  have hle := c_str_length_le cur
  simp only [cursor] at h2 h3
  simp only [json_get_empty_len, strlen] at hbig hl
  have hr' : json_get_empty_len m.jstr = (room m : Int) := by
    simp only [json_get_empty_len, room, cell]; omega
  have hr2 : room m < (c_str cur).length := by
    simp only [room, cell]; omega
  have hr3 : m.jstr.free_ptr - m.jstr.buf + room m = m.mem.length - 1 := by
    simp only [room, cell]; omega
  have hlen : ((c_str cur).take (room m)).length = room m := by
    simp; omega
  have hc : (if json_get_empty_len m.jstr > len then len else json_get_empty_len m.jstr)
      = (room m : Int) := by
    rw [← hr']; simp only [json_get_empty_len]; split_ifs <;> omega
  have hw : (written m).length = m.jstr.free_ptr - m.jstr.buf := by
    simp only [written, cell, List.length_take]; omega
  have hm : memmove m m.jstr.free_ptr cur (room m : Int) = .ok { m with
      mem := written m ++ (c_str cur).take (room m) ++ [m.mem[m.mem.length - 1]] } := by
    have g1 : ¬ (room m : Int) < 0 := by omega
    have g2 : m.jstr.buf ≤ m.jstr.free_ptr ∧
      m.jstr.free_ptr - m.jstr.buf + room m ≤ m.mem.length ∧ room m ≤ cur.length := by omega
    simp only [memmove, cell, Int.toNat_ofNat, g1, if_false]
    rw [if_pos g2]
    simp only [hr3, drop_last_cell m.mem (by omega), take_eq_c_str_take cur _ (le_of_lt hr2),
      written, cell]
  have hp : poke { m with
        mem := written m ++ (c_str cur).take (room m) ++ [m.mem[m.mem.length - 1]]
        jstr := { m.jstr with free_ptr := m.jstr.free_ptr + room m } }
      (m.jstr.free_ptr + room m) NUL = .ok (fill m (c_str cur)) := by
    have g3 : m.jstr.buf ≤ m.jstr.free_ptr + room m ∧
        m.jstr.free_ptr + room m - m.jstr.buf <
          (written m ++ (c_str cur).take (room m) ++ [m.mem[m.mem.length - 1]]).length := by
      simp only [List.length_append, hlen, List.length_singleton, hw]; omega
    have hidx : m.jstr.free_ptr + room m - m.jstr.buf
        = (written m ++ (c_str cur).take (room m)).length := by
      simp only [List.length_append, hlen, hw]; omega
    simp only [poke, cell]
    rw [if_pos g3, hidx, List.set_append_right _ _ le_rfl]
    simp [fill]
  have g4 : ¬ (len - (room m : Int) = 0) := by omega
  refine ⟨hr2, ?_⟩
  unfold json_add_to_str_body
  simp only [hc, hm, Int.toNat_ofNat, ne_eq, g4, not_false_eq_true, if_true, hp]
  cases hcb : m.jstr.flush_cb <;> simp [fill, flushed, hcb]

theorem written_length {m : Machine W} (hI : Inv m) :
    (written m).length = cell m m.jstr.free_ptr ∧ cell m m.jstr.free_ptr + room m = m.mem.length - 1
      ∧ 0 < m.mem.length := by
  obtain ⟨h1, h2, h3⟩ := hI
  simp only [cursor] at h2 h3
  simp only [written, cell, room, List.length_take]
  omega

theorem put_written {m : Machine W} {s : List Char} (hI : Inv m) :
    written (put m s) = written m ++ s := by
  obtain ⟨hw1, hw2, hw3⟩ := written_length hI
  simp only [cell] at hw1 hw2
  obtain ⟨h1, h2, h3⟩ := hI
  simp only [cursor] at h2 h3
  simp only [written, put, cell]
  have : m.jstr.free_ptr + s.length - m.jstr.buf
      = (List.take (m.jstr.free_ptr - m.jstr.buf) m.mem ++ s).length := by
    simp only [List.length_append, List.length_take]; omega
  rw [this, List.take_left']
  rfl

theorem put_spec {m : Machine W} {s : List Char} (hI : Inv m)
    (hs : ∀ c ∈ s, c ≠ NUL) (hfit : s.length ≤ room m) : Emits m s [] (put m s) := by
  have hwr := put_written (s := s) hI
  obtain ⟨hw1, hw2, hw3⟩ := written_length hI
  obtain ⟨h1, h2, h3⟩ := hI
  simp only [cursor] at h2 h3
  simp only [cell] at hw1 hw2
  have hlen : (put m s).mem.length = m.mem.length := by
    simp only [put, List.length_append, hw1, List.length_drop, cell]; omega
  refine ⟨rfl, rfl, rfl, rfl, ⟨?_, ?_, ?_⟩, hlen, ?_, fun _ => rfl, ?_, ?_, ?_⟩
  · rw [hlen]; exact h1
  · simp only [cursor, put]; push_cast; omega
  · simp only [cursor, put]; push_cast; omega
  · cases h : m.jstr.flush_cb <;> simp [deliver, put, h]
  · intro hC c hc
    rw [hwr, List.mem_append] at hc
    rcases hc with hc | hc
    · exact hC c hc
    · exact hs c hc
  · intro _; simp [hwr]
  · intro _; simp

theorem fill_spec {m : Machine W} {s : List Char} (hI : Inv m) (hbig : room m < s.length) :
    (fill m s).mem.length = m.mem.length ∧ Inv (fill m s) ∧
      written (fill m s) = written m ++ s.take (room m) := by
  obtain ⟨hw1, hw2, hw3⟩ := written_length hI
  obtain ⟨h1, h2, h3⟩ := hI
  simp only [cursor] at h2 h3
  simp only [cell] at hw1 hw2
  have hlen : (fill m s).mem.length = m.mem.length := by
    simp only [fill, List.length_append, hw1, List.length_take, List.length_singleton]; omega
  refine ⟨hlen, ⟨?_, ?_, ?_⟩, ?_⟩
  · rw [hlen]; exact h1
  · simp only [cursor, fill]; push_cast; omega
  · simp only [cursor, fill]; push_cast; omega
  · simp only [written, fill, cell]
    have : m.jstr.free_ptr + room m - m.jstr.buf
        = (List.take (m.jstr.free_ptr - m.jstr.buf) m.mem ++ s.take (room m)).length := by
      simp only [List.length_append, List.length_take]; omega
    rw [this, List.take_left']
    rfl

theorem fill_c_str {m : Machine W} {s : List Char} (hC : Clean m) (hs : ∀ c ∈ s, c ≠ NUL) :
    c_str (fill m s).mem = written m ++ s.take (room m) := by
  simp only [fill]
  apply c_str_append_nul
  intro c hc
  rw [List.mem_append] at hc
  rcases hc with hc | hc
  · exact hC c hc
  · exact hs c (List.mem_of_mem_take hc)

theorem flushed_spec {m : Machine W} (f : json_flush_cb_t W) (chunk : List Char) (hI : Inv m) :
    Inv (flushed m f chunk) ∧ Clean (flushed m f chunk) ∧ written (flushed m f chunk) = []
      ∧ cell (flushed m f chunk) (flushed m f chunk).jstr.free_ptr = 0 := by
  obtain ⟨h1, h2, h3⟩ := hI
  simp only [cursor] at h2 h3
  refine ⟨⟨h1, ?_, ?_⟩, ?_, ?_, ?_⟩
  · simp [cursor, flushed]
  · simp only [cursor, flushed]; omega
  · simp [Clean, written, flushed, cell]
  · simp [written, flushed, cell]
  · simp [flushed, cell]

theorem loop_fits {m : Machine W} {cur : List Char} {len : Int} (fuel : Nat) (hI : Inv m)
    (hl : len = strlen cur) (hfit : (c_str cur).length ≤ room m) :
    json_add_to_str_loop (fuel + 1) m cur len = .ok (0, put m (c_str cur)) := by
  have hfit' : len ≤ json_get_empty_len m.jstr := by
    obtain ⟨h1, h2, h3⟩ := hI
    simp only [cursor] at h2 h3
    simp only [json_get_empty_len, hl, strlen]
    simp only [room, cell] at hfit
    omega
  simp only [json_add_to_str_loop, body_fits hI hl hfit']

theorem not_fits {m : Machine W} {cur : List Char} {len : Int} (hI : Inv m)
    (hl : len = strlen cur) (hbig : ¬ (c_str cur).length ≤ room m) :
    json_get_empty_len m.jstr < len := by
  obtain ⟨h1, h2, h3⟩ := hI
  simp only [cursor] at h2 h3
  simp only [json_get_empty_len, hl, strlen]
  simp only [room, cell] at hbig
  omega

theorem loop_no_cb {m : Machine W} {cur : List Char} {len : Int} (fuel : Nat) (hI : Inv m)
    (hl : len = strlen cur) (hcb : m.jstr.flush_cb = none) :
    json_add_to_str_loop (fuel + 1) m cur len =
      if (c_str cur).length ≤ room m then .ok (0, put m (c_str cur))
      else .ok (-1, fill m (c_str cur)) := by
  split_ifs with hfit
  · exact loop_fits fuel hI hl hfit
  · have h := (body_full hI hl (not_fits hI hl hfit)).2
    rw [hcb] at h
    simp only [json_add_to_str_loop, h]

theorem loop_cb (f : json_flush_cb_t W) : ∀ (fuel : Nat) (m : Machine W) (cur : List Char)
    (len : Int), Inv m → m.jstr.flush_cb = some f → 2 ≤ m.mem.length →
    len = strlen cur →
    ((c_str cur).length < fuel ∨
      (cell m m.jstr.free_ptr = 0 ∧ (c_str cur).length ≤ fuel ∧ 1 ≤ fuel)) →
    ∃ m' chunks, json_add_to_str_loop fuel m cur len = .ok (0, m') ∧
      Emits m (c_str cur) chunks m' := by
  intro fuel
  induction fuel with
  | zero => intro m cur len _ _ _ _ hf; omega
  | succ fuel ih =>
    intro m cur len hI hcb hL hl hf
    by_cases hfit : (c_str cur).length ≤ room m
    · exact ⟨_, [], loop_fits fuel hI hl hfit, put_spec hI (c_str_ne_nul cur) hfit⟩
    · obtain ⟨hr, hb⟩ := body_full hI hl (not_fits hI hl hfit)
      rw [hcb] at hb
      simp only [] at hb
      obtain ⟨hw1, hw2, hw3⟩ := written_length hI
      obtain ⟨hfl, hfI, hfw⟩ := fill_spec (s := c_str cur) hI hr
      obtain ⟨gI, gC, gw, gc⟩ := flushed_spec f (c_str (fill m (c_str cur)).mem) hfI
      have hdrop := c_str_drop cur (room m) (le_of_lt hr)
      have hlen' : len - (room m : Int) = strlen (cur.drop (room m)) := by
        simp only [strlen, hdrop, List.length_drop, hl]; omega
      have hfuel : ((c_str (cur.drop (room m))).length < fuel ∨
          (cell (flushed (fill m (c_str cur)) f (c_str (fill m (c_str cur)).mem))
              (flushed (fill m (c_str cur)) f
                (c_str (fill m (c_str cur)).mem)).jstr.free_ptr = 0 ∧
            (c_str (cur.drop (room m))).length ≤ fuel ∧ 1 ≤ fuel)) := by
        right
        refine ⟨gc, ?_, ?_⟩ <;>
        · try simp only [hdrop, List.length_drop]
          rcases hf with hf | ⟨hf0, hf1, _⟩
          · omega
          · rw [hf0] at hw2; omega
      obtain ⟨m', chunks, hrun, hE⟩ := ih _ (cur.drop (room m)) _ gI
        (by simpa [flushed, fill] using hcb) (by simpa [flushed] using hfl ▸ hL) hlen' hfuel
      refine ⟨m', c_str (fill m (c_str cur)).mem :: chunks, ?_, ?_⟩
      · simp only [json_add_to_str_loop, hb, hrun]
      · have hfj : (flushed (fill m (c_str cur)) f (c_str (fill m (c_str cur)).mem)).jstr
              = { m.jstr with free_ptr := m.jstr.buf } := by
          simp [flushed, fill]
        have hml : (flushed (fill m (c_str cur)) f
            (c_str (fill m (c_str cur)).mem)).mem.length = m.mem.length := by
          simpa [flushed] using hfl
        refine ⟨?_, ?_, ?_, ?_, hE.inv, ?_, ?_, ?_, ?_, ?_, ?_⟩
        · rw [hE.buf_eq, hfj]
        · rw [hE.size_eq, hfj]
        · rw [hE.cb_eq, hfj]
        · rw [hE.priv_eq, hfj]
        · rw [hE.length_eq, hml]
        · rw [hE.world_eq, hfj]
          simp [deliver, hcb, flushed, fill]
        · intro h; rw [hcb] at h; cases h
        · intro _; exact hE.clean gC
        · intro hC
          have hchunk := fill_c_str (s := c_str cur) hC (c_str_ne_nul cur)
          have := hE.text_eq gC
          rw [gw, hdrop] at this
          simp only [List.flatten_cons, List.append_assoc, this, List.nil_append, hchunk,
            List.take_append_drop]
        · intro hC c hc
          have hchunk := fill_c_str (s := c_str cur) hC (c_str_ne_nul cur)
          rcases List.mem_cons.mp hc with rfl | hc
          · rw [hchunk]
            simp only [List.length_append, hw1, List.length_take]; omega
          · rw [← hml]; exact hE.chunk_length gC c hc


theorem memmove_set_comma_req (m : Machine W) (b : Bool) (d : Nat) (s : List Char) (n : Int) :
    memmove (set_comma_req m b) d s n =
      match memmove m d s n with
      | .error e => .error e
      | .ok m => .ok (set_comma_req m b) := by
  simp only [memmove, set_comma_req, cell]
  split_ifs <;> rfl

theorem poke_set_comma_req (m : Machine W) (b : Bool) (p : Nat) (c : Char) :
    poke (set_comma_req m b) p c =
      match poke m p c with
      | .error e => .error e
      | .ok m => .ok (set_comma_req m b) := by
  simp only [poke, set_comma_req, cell]
  split_ifs <;> rfl

theorem body_set_comma_req (m : Machine W) (b : Bool) (cur : List Char) (len : Int) :
    json_add_to_str_body (set_comma_req m b) cur len =
      match json_add_to_str_body m cur len with
      | .error e => .error e
      | .ok c => .ok (c.set_comma_req b) := by
  unfold json_add_to_str_body
  simp only [memmove_set_comma_req]
  have hj : json_get_empty_len (set_comma_req m b).jstr = json_get_empty_len m.jstr := rfl
  have hf : (set_comma_req m b).jstr.free_ptr = m.jstr.free_ptr := rfl
  rw [hj, hf]
  generalize (if json_get_empty_len m.jstr > len then len else json_get_empty_len m.jstr) = cl
  cases memmove m m.jstr.free_ptr cur cl with
  | error e => rfl
  | ok m1 =>
    simp only []
    split_ifs with h
    · have hp := poke_set_comma_req
        { m1 with jstr := { m1.jstr with free_ptr := m1.jstr.free_ptr + cl.toNat } }
        b (m1.jstr.free_ptr + cl.toNat) NUL
      simp only [set_comma_req] at hp ⊢
      rw [hp]
      cases poke { m1 with jstr := { m1.jstr with free_ptr := m1.jstr.free_ptr + cl.toNat } }
        (m1.jstr.free_ptr + cl.toNat) NUL with
      | error e => rfl
      | ok m2 =>
        obtain ⟨⟨b1, b2, cb, b4, b5, b6⟩, b7, b8⟩ := m2
        cases cb <;> rfl
    · rfl

theorem loop_set_comma_req (b : Bool) : ∀ (fuel : Nat) (m : Machine W) (cur : List Char)
    (len : Int), json_add_to_str_loop fuel (set_comma_req m b) cur len =
      match json_add_to_str_loop fuel m cur len with
      | .error e => .error e
      | .ok (r, m) => .ok (r, set_comma_req m b) := by
  intro fuel
  induction fuel with
  | zero => intro m cur len; rfl
  | succ fuel ih =>
    intro m cur len
    simp only [json_add_to_str_loop, body_set_comma_req]
    cases h : json_add_to_str_body m cur len with
    | error e => rfl
    | ok c =>
      cases c with
      | brk m' => rfl
      | ret r m' => rfl
      | next m' c l => simp only [Ctl.set_comma_req, ih]

theorem add_set_comma_req (fuel : Nat) (m : Machine W) (b : Bool) (s : List Char) :
    json_add_to_str fuel (set_comma_req m b) s =
      (json_add_to_str fuel m s >>= fun r => pure (r.1, set_comma_req r.2 b)) := by
  have h := loop_set_comma_req b fuel m s (strlen s)
  simp only [json_add_to_str, h]
  cases json_add_to_str_loop fuel m s (strlen s) <;> rfl

theorem exec_eq_flat (fuel : Nat) (m : Machine W) (op : Op) :
    exec fuel m op = exec_flat fuel m op := by
  cases op <;> cases hc : m.jstr.comma_req <;>
    simp only [exec, exec_flat, Op.init, Op.last, Op.comma_after, hc, add_all,
      json_start_object, json_end_object, json_start_array, json_end_array,
      json_push_object, json_pop_object, json_push_array, json_pop_array,
      json_obj_set_bool, json_arr_set_bool, json_set_bool,
      json_obj_set_int, json_arr_set_int, json_set_int,
      json_obj_set_float, json_arr_set_float, json_set_float,
      json_obj_set_string, json_arr_set_string, json_set_string,
      json_obj_set_null, json_arr_set_null, json_set_null,
      json_handle_comma, json_handle_name, add_set_comma_req, if_true, if_false,
      Bool.false_eq_true, List.nil_append, List.cons_append, List.append_nil,
      bind_assoc, pure_bind] <;>
    first | rfl | (rename_i v; cases v <;> rfl)

theorem emits_refl {m : Machine W} (hI : Inv m) : Emits m [] [] m :=
  ⟨rfl, rfl, rfl, rfl, hI, rfl, by cases h : m.jstr.flush_cb <;> simp [deliver],
    fun _ => rfl, fun h => h, by simp, by simp⟩

theorem deliver_append (cb : Option (json_flush_cb_t W)) (priv : Nat)
    (c1 c2 : List (List Char)) (w : W) :
    deliver cb priv (c1 ++ c2) w = deliver cb priv c2 (deliver cb priv c1 w) := by
  cases cb <;> simp [deliver]

theorem emits_trans {m1 m2 m3 : Machine W} {s1 s2 : List Char} {c1 c2 : List (List Char)}
    (h1 : Emits m1 s1 c1 m2) (h2 : Emits m2 s2 c2 m3) : Emits m1 (s1 ++ s2) (c1 ++ c2) m3 := by
  refine ⟨h2.buf_eq.trans h1.buf_eq, h2.size_eq.trans h1.size_eq, h2.cb_eq.trans h1.cb_eq,
    h2.priv_eq.trans h1.priv_eq, h2.inv, h2.length_eq.trans h1.length_eq, ?_, ?_,
    fun hC => h2.clean (h1.clean hC), ?_, ?_⟩
  · rw [h2.world_eq, h1.world_eq, h1.cb_eq, h1.priv_eq, deliver_append]
  · intro h
    rw [h1.no_cb h, h2.no_cb (h1.cb_eq.trans h)]
    rfl
  · intro hC
    have e1 := h1.text_eq hC
    have e2 := h2.text_eq (h1.clean hC)
    rw [List.flatten_append, List.append_assoc, e2, ← List.append_assoc, e1, List.append_assoc]
  · intro hC c hc
    rcases List.mem_append.mp hc with hc | hc
    · exact h1.chunk_length hC c hc
    · rw [← h1.length_eq]; exact h2.chunk_length (h1.clean hC) c hc

theorem emits_set_left {m m' : Machine W} {s : List Char} {c : List (List Char)} (b : Bool)
    (h : Emits m s c m') : Emits (set_comma_req m b) s c m' :=
  ⟨h.buf_eq, h.size_eq, h.cb_eq, h.priv_eq, h.inv, h.length_eq, h.world_eq, h.no_cb, h.clean,
    h.text_eq, h.chunk_length⟩

theorem emits_set_right {m m' : Machine W} {s : List Char} {c : List (List Char)} (b : Bool)
    (h : Emits m s c m') : Emits m s c (set_comma_req m' b) :=
  ⟨h.buf_eq, h.size_eq, h.cb_eq, h.priv_eq, h.inv, h.length_eq, h.world_eq, h.no_cb, h.clean,
    h.text_eq, h.chunk_length⟩

theorem put_room {m : Machine W} {s : List Char} (hI : Inv m) :
    room (put m s) = room m - s.length := by
  obtain ⟨h1, h2, h3⟩ := hI
  simp only [cursor] at h2 h3
  simp only [room, put, cell, List.length_append, List.length_drop, written, List.length_take]
  omega

theorem add_emits {fuel : Nat} {m : Machine W} (s : List Char) (n : Nat) (hI : Inv m)
    (hc : CanEmit fuel m ((c_str s).length + n)) :
    ∃ m' chunks, json_add_to_str fuel m s = .ok (0, m') ∧ Emits m (c_str s) chunks m' ∧
      CanEmit fuel m' n := by
  obtain ⟨hf, hc⟩ := hc
  obtain ⟨fuel, rfl⟩ : ∃ k, fuel = k + 1 := ⟨fuel - 1, by omega⟩
  rcases hc with ⟨h1, h2, h3⟩ | ⟨h1, h2⟩
  · obtain ⟨f, hcb⟩ : ∃ f, m.jstr.flush_cb = some f := by
      cases h : m.jstr.flush_cb with
      | none => exact absurd h h1
      | some f => exact ⟨f, rfl⟩
    obtain ⟨m', chunks, hr, hE⟩ :=
      loop_cb f (fuel + 1) m s (strlen s) hI hcb h2 rfl (Or.inl (by omega))
    exact ⟨m', chunks, hr, hE, hf,
      Or.inl ⟨by rw [hE.cb_eq]; exact h1, by rw [hE.length_eq]; exact h2, by omega⟩⟩
  · have hfit : (c_str s).length ≤ room m := by omega
    have hE := put_spec hI (c_str_ne_nul s) hfit
    refine ⟨put m (c_str s), [], loop_fits fuel hI rfl hfit, hE, hf, Or.inr ⟨h1, ?_⟩⟩
    rw [put_room hI]
    omega

theorem digitChar_ne (d : Nat) (h : d < 10) :
    Nat.digitChar d ≠ NUL ∧ Nat.digitChar d ≠ ',' := by
  interval_cases d <;> decide

theorem toDigitsCore_mem : ∀ (f n : Nat) (acc : List Char),
    ∀ c ∈ Nat.toDigitsCore 10 f n acc, c ∈ acc ∨ ∃ d, d < 10 ∧ c = Nat.digitChar d := by
  intro f
  induction f with
  | zero => intro n acc c hc; left; simpa [Nat.toDigitsCore] using hc
  | succ f ih =>
    intro n acc c hc
    have hd : n % 10 < 10 := Nat.mod_lt _ (by decide)
    simp only [Nat.toDigitsCore] at hc
    split_ifs at hc
    · rcases List.mem_cons.mp hc with rfl | hc
      · exact Or.inr ⟨_, hd, rfl⟩
      · exact Or.inl hc
    · rcases ih _ _ c hc with h | h
      · rcases List.mem_cons.mp h with rfl | h
        · exact Or.inr ⟨_, hd, rfl⟩
        · exact Or.inl h
      · exact Or.inr h

theorem toDigits_mem (n : Nat) : ∀ c ∈ Nat.toDigits 10 n, c ≠ NUL ∧ c ≠ ',' := by
  intro c hc
  rcases toDigitsCore_mem _ _ _ c hc with h | ⟨d, hd, rfl⟩
  · simp at h
  · exact digitChar_ne d hd

theorem toDigits_ne_nil (n : Nat) : Nat.toDigits 10 n ≠ [] := by
  intro h
  have := Nat.toDigitsCore_lens_eq 10 (n + 1) n
  unfold Nat.toDigits at h
  simp only [Nat.toDigitsCore] at h
  split_ifs at h
  have h2 := Nat.toDigitsCore_lens_eq 10 n (n / 10) (Nat.digitChar (n % 10)) []
  rw [h] at h2
  simp at h2

theorem fmt_d_clean (val : Int) : ∀ c ∈ fmt_d val, c ≠ NUL := by
  intro c hc
  unfold fmt_d at hc
  split_ifs at hc
  · rcases List.mem_cons.mp hc with rfl | hc
    · decide
    · exact (toDigits_mem _ c hc).1
  · exact (toDigits_mem _ c hc).1

theorem fmt_d_ne_nil (val : Int) : fmt_d val ≠ [] := by
  unfold fmt_d
  split_ifs
  · simp
  · exact toDigits_ne_nil _

theorem fmt_d_length (val : Int) (h : -2147483648 ≤ val ∧ val ≤ 2147483647) :
    (fmt_d val).length ≤ 11 := by
  have hn : val.natAbs < 10 ^ 10 := by omega
  have := Nat.toDigitsCore_length 10 (by decide) (val.natAbs + 1) val.natAbs 10 hn (by decide)
  unfold fmt_d
  split_ifs <;> simp only [List.length_cons, Nat.toDigits] <;> omega

theorem snprintf_fmt_d (val : Int) (h : -2147483648 ≤ val ∧ val ≤ 2147483647) :
    snprintf MAX_INT_IN_STR (fmt_d val) = fmt_d val := by
  have h1 := c_str_of_clean _ (fmt_d_clean val)
  have h2 := fmt_d_length val h
  simp only [snprintf, h1, MAX_INT_IN_STR]
  exact List.take_of_length_le (by omega)

theorem snprintf_clean (size : Nat) (text : List Char) : ∀ c ∈ snprintf size text, c ≠ NUL :=
  fun c hc => c_str_ne_nul text c (List.mem_of_mem_take hc)

theorem c_str_snprintf (size : Nat) (text : List Char) :
    c_str (snprintf size text) = snprintf size text :=
  c_str_of_clean _ (snprintf_clean size text)

theorem code_text_eq (owed : Bool) (op : Op) (h : op.in_range) :
    op.code_text owed = op.text owed := by
  have e1 : c_str [','] = [','] := by decide
  have e2 : c_str ['"'] = ['"'] := by decide
  have e3 : c_str ['"', ':'] = ['"', ':'] := by decide
  have e4 : c_str ['{'] = ['{'] := by decide
  have e5 : c_str ['}'] = ['}'] := by decide
  have e6 : c_str ['['] = ['['] := by decide
  have e7 : c_str [']'] = [']'] := by decide
  have e8 : c_str ['n', 'u', 'l', 'l'] = ['n', 'u', 'l', 'l'] := by decide
  have e9 : ∀ v : Bool, c_str (if v then ['t', 'r', 'u', 'e'] else ['f', 'a', 'l', 's', 'e'])
      = bool_text v := by
    intro v; cases v <;> decide
  cases op <;> cases owed <;>
    simp only [Op.code_text, Op.init, Op.last, Op.text, Op.token, Op.closes, separator,
      member_name, int_text, float_text, string_text, null_text, List.map_append, List.map_cons,
      List.map_nil, List.flatten_append, List.flatten_cons, List.flatten_nil, List.append_nil,
      List.nil_append, List.append_assoc, List.cons_append, e1, e2, e3, e4, e5, e6, e7, e8, e9,
      c_str_snprintf, if_true, if_false, Bool.false_eq_true] <;>
    first
    | rfl
    | (simp only [Op.in_range] at h; rw [snprintf_fmt_d _ h])

theorem add_all_emits {fuel : Nat} : ∀ (ps : List (List Char)) (n : Nat) (m : Machine W),
    Inv m → CanEmit fuel m ((ps.map c_str).flatten.length + n) →
    ∃ m' chunks, add_all fuel m ps = .ok m' ∧ Emits m (ps.map c_str).flatten chunks m' ∧
      CanEmit fuel m' n := by
  intro ps
  induction ps with
  | nil =>
    intro n m hI hc
    exact ⟨m, [], rfl, emits_refl hI, by simpa using hc⟩
  | cons p ps ih =>
    intro n m hI hc
    simp only [List.map_cons, List.flatten_cons, List.length_append, Nat.add_assoc] at hc ⊢
    obtain ⟨m1, c1, hr1, hE1, hc1⟩ := add_emits p _ hI hc
    obtain ⟨m2, c2, hr2, hE2, hc2⟩ := ih n m1 hE1.inv hc1
    refine ⟨m2, c1 ++ c2, ?_, emits_trans hE1 hE2, hc2⟩
    simp only [add_all, hr1]
    exact hr2

theorem exec_emits {fuel : Nat} {m : Machine W} (op : Op) (n : Nat) (hI : Inv m)
    (hc : CanEmit fuel m ((op.code_text m.jstr.comma_req).length + n)) :
    ∃ m' chunks, exec fuel m op = .ok (0, m') ∧
      Emits m (op.code_text m.jstr.comma_req) chunks m' ∧
      m'.jstr.comma_req = op.comma_after ∧ CanEmit fuel m' n := by
  have ht : op.code_text m.jstr.comma_req
      = ((op.init m.jstr.comma_req).map c_str).flatten ++ c_str op.last := by
    simp [Op.code_text]
  rw [ht] at hc ⊢
  rw [List.length_append, Nat.add_assoc] at hc
  obtain ⟨m1, c1, hr1, hE1, hc1⟩ := add_all_emits (op.init m.jstr.comma_req) _ m hI hc
  obtain ⟨m2, c2, hr2, hE2, hc2⟩ := add_emits op.last n hE1.inv hc1
  refine ⟨set_comma_req m2 op.comma_after, c1 ++ c2, ?_, emits_set_right _ (emits_trans hE1 hE2), rfl,
    hc2⟩
  rw [exec_eq_flat]
  simp only [exec_flat, hr1]
  show (json_add_to_str fuel m1 op.last >>= fun r =>
    pure (r.1, set_comma_req r.2 op.comma_after)) = _
  rw [hr2]
  rfl

theorem comma_after_eq (op : Op) : op.comma_after = op.owed_after := by
  cases op <;> rfl

theorem run_emits {fuel : Nat} : ∀ (ops : List Op) (m : Machine W), Inv m →
    (∀ op ∈ ops, op.in_range) → CanEmit fuel m (document m.jstr.comma_req ops).length →
    ∃ m' chunks, run fuel m ops = .ok (List.replicate ops.length 0, m') ∧
      Emits m (document m.jstr.comma_req ops) chunks m' := by
  intro ops
  induction ops with
  | nil => intro m hI _ _; exact ⟨m, [], rfl, emits_refl hI⟩
  | cons op ops ih =>
    intro m hI hr hc
    have hop : op.in_range := hr op (List.mem_cons_self _ _)
    simp only [document, List.length_append] at hc ⊢
    rw [← code_text_eq _ _ hop] at hc ⊢
    obtain ⟨m1, c1, hr1, hE1, hq1, hc1⟩ := exec_emits op _ hI hc
    rw [comma_after_eq] at hq1
    rw [← hq1] at hc1 ⊢
    obtain ⟨m2, c2, hr2, hE2⟩ := ih m1 hE1.inv
      (fun o ho => hr o (List.mem_cons_of_mem _ ho)) hc1
    refine ⟨m2, c1 ++ c2, ?_, emits_trans hE1 hE2⟩
    simp only [run, hr1]
    show (run fuel m1 ops >>= fun rs => pure ((0 : Int) :: rs.1, rs.2)) = _
    rw [hr2]
    rfl

theorem deliver_accumulate (priv : Nat) (chunks : List (List Char)) (w : List Char) :
    deliver (some accumulate) priv chunks w = w ++ chunks.flatten := by
  induction chunks generalizing w with
  | nil => simp [deliver]
  | cons c cs ih =>
    simp only [deliver, List.foldl_cons, List.flatten_cons] at ih ⊢
    rw [ih]
    simp [accumulate]

theorem json_str_end_eq {m : Machine W} (hI : Inv m) (hC : Clean m) :
    json_str_end m = .ok
      { jstr := json_str_zero W
        mem := m.mem.set (cell m m.jstr.free_ptr) NUL
        world := deliver m.jstr.flush_cb m.jstr.priv [written m] m.world } := by
  obtain ⟨hw1, hw2, hw3⟩ := written_length hI
  obtain ⟨h1, h2, h3⟩ := hI
  simp only [cursor] at h2 h3
  have g : m.jstr.buf ≤ m.jstr.free_ptr ∧ cell m m.jstr.free_ptr < m.mem.length := by
    simp only [cell]; omega
  have hsplit : m.mem.set (cell m m.jstr.free_ptr) NUL
      = written m ++ NUL :: m.mem.drop (cell m m.jstr.free_ptr + 1) := by
    rw [List.set_eq_take_append_cons_drop]
    simp [g.2, written]
  have hcs : c_str (m.mem.set (cell m m.jstr.free_ptr) NUL) = written m := by
    rw [hsplit]; exact c_str_append_nul _ _ hC
  simp only [json_str_end, poke]
  rw [if_pos g]
  cases hcb : m.jstr.flush_cb <;> simp [deliver, hcb, hcs]

theorem take_append_take (a b : List Char) (k : Nat) :
    (a.take k ++ b).take k = (a ++ b).take k := by
  by_cases h : a.length ≤ k
  · rw [List.take_of_length_le h]
  · have h1 : (a.take k).length = k := by simp; omega
    have h2 : k - a.length = 0 := by omega
    rw [List.take_append_eq_append_take, List.take_append_eq_append_take, h1, h2]
    simp

theorem stored_refl {m : Machine W} (hI : Inv m) : Stored m [] m := by
  obtain ⟨hw1, hw2, hw3⟩ := written_length hI
  refine ⟨rfl, rfl, rfl, rfl, hI, rfl, rfl, ?_, fun h _ => h⟩
  rw [List.append_nil, List.take_of_length_le]
  omega

theorem stored_trans {m1 m2 m3 : Machine W} {s1 s2 : List Char}
    (h1 : Stored m1 s1 m2) (h2 : Stored m2 s2 m3) : Stored m1 (s1 ++ s2) m3 := by
  refine ⟨h2.buf_eq.trans h1.buf_eq, h2.size_eq.trans h1.size_eq, h2.cb_eq.trans h1.cb_eq,
    h2.priv_eq.trans h1.priv_eq, h2.inv, h2.length_eq.trans h1.length_eq,
    h2.world_eq.trans h1.world_eq, ?_, ?_⟩
  · rw [h2.text_eq, h1.text_eq, h1.length_eq, take_append_take, List.append_assoc]
  · intro hC hs
    exact h2.clean (h1.clean hC (fun c hc => hs c (List.mem_append_left _ hc)))
      (fun c hc => hs c (List.mem_append_right _ hc))

theorem stored_set_right {m m' : Machine W} {s : List Char} (b : Bool) (h : Stored m s m') :
    Stored m s (set_comma_req m' b) :=
  ⟨h.buf_eq, h.size_eq, h.cb_eq, h.priv_eq, h.inv, h.length_eq, h.world_eq, h.text_eq, h.clean⟩

theorem add_stored {fuel : Nat} {m : Machine W} (s : List Char) (hI : Inv m)
    (hcb : m.jstr.flush_cb = none) (hf : 0 < fuel) :
    ∃ m', json_add_to_str fuel m s = .ok (fit_result m (c_str s), m') ∧
      Stored m (c_str s) m' := by
  obtain ⟨fuel, rfl⟩ : ∃ k, fuel = k + 1 := ⟨fuel - 1, by omega⟩
  obtain ⟨hw1, hw2, hw3⟩ := written_length hI
  have hr : json_add_to_str_loop (fuel + 1) m s (strlen s) = _ :=
    loop_no_cb fuel hI rfl hcb
  by_cases hfit : (c_str s).length ≤ room m
  · rw [if_pos hfit] at hr
    have hE := put_spec hI (c_str_ne_nul s) hfit
    refine ⟨put m (c_str s), ?_, hE.buf_eq, hE.size_eq, hE.cb_eq, hE.priv_eq, hE.inv,
      hE.length_eq, ?_, ?_, fun hC _ => hE.clean hC⟩
    · have : fit_result m (c_str s) = 0 := by
        simp only [fit_result, List.length_append, hw1]; rw [if_pos]; omega
      rw [this]; exact hr
    · rfl
    · rw [put_written hI, List.take_of_length_le]
      simp only [List.length_append, hw1]; omega
  · rw [if_neg hfit] at hr
    obtain ⟨hfl, hfI, hfw⟩ := fill_spec (s := c_str s) hI (by omega)
    refine ⟨fill m (c_str s), ?_, rfl, rfl, rfl, rfl, hfI, hfl, rfl, ?_, ?_⟩
    · have : fit_result m (c_str s) = -1 := by
        simp only [fit_result, List.length_append, hw1]; rw [if_neg]; omega
      rw [this]; exact hr
    · have e1 : (written m).take (m.mem.length - 1) = written m :=
        List.take_of_length_le (by omega)
      have e2 : m.mem.length - 1 - (written m).length = room m := by omega
      rw [hfw, List.take_append_eq_append_take, e1, e2]
    · intro hC hs c hc
      rw [hfw, List.mem_append] at hc
      rcases hc with hc | hc
      · exact hC c hc
      · exact hs c (List.mem_of_mem_take hc)

theorem add_all_stored {fuel : Nat} (hf : 0 < fuel) : ∀ (ps : List (List Char))
    (m : Machine W), Inv m → m.jstr.flush_cb = none →
    ∃ m', add_all fuel m ps = .ok m' ∧ Stored m (ps.map c_str).flatten m' := by
  intro ps
  induction ps with
  | nil => intro m hI _; exact ⟨m, rfl, stored_refl hI⟩
  | cons p ps ih =>
    intro m hI hcb
    obtain ⟨m1, hr1, hS1⟩ := add_stored p hI hcb hf
    obtain ⟨m2, hr2, hS2⟩ := ih m1 hS1.inv (hS1.cb_eq.trans hcb)
    refine ⟨m2, ?_, stored_trans hS1 hS2⟩
    simp only [add_all, hr1]
    exact hr2

theorem fit_result_last {m m1 : Machine W} {s t : List Char} (hS : Stored m s m1)
    (ht : t ≠ []) : fit_result m1 t = fit_result m (s ++ t) := by
  have hl : 0 < t.length := List.length_pos.mpr ht
  simp only [fit_result, hS.text_eq, hS.length_eq, List.length_append, List.length_take]
  by_cases h : (written m).length + s.length ≤ m.mem.length - 1
  · rw [min_eq_right h]
    simp only [Nat.add_assoc]
  · rw [min_eq_left (by omega), if_neg (by omega), if_neg (by omega)]

theorem exec_stored {fuel : Nat} {m : Machine W} (op : Op) (hI : Inv m)
    (hcb : m.jstr.flush_cb = none) (hf : 0 < fuel) :
    ∃ r m', exec fuel m op = .ok (r, m') ∧
      Stored m (op.code_text m.jstr.comma_req) m' ∧
      m'.jstr.comma_req = op.comma_after ∧
      (c_str op.last ≠ [] → r = fit_result m (op.code_text m.jstr.comma_req)) := by
  have ht : op.code_text m.jstr.comma_req
      = ((op.init m.jstr.comma_req).map c_str).flatten ++ c_str op.last := by
    simp [Op.code_text]
  rw [ht]
  obtain ⟨m1, hr1, hS1⟩ := add_all_stored hf (op.init m.jstr.comma_req) m hI hcb
  obtain ⟨m2, hr2, hS2⟩ := add_stored op.last hS1.inv (hS1.cb_eq.trans hcb) hf
  refine ⟨_, set_comma_req m2 op.comma_after, ?_, stored_set_right _ (stored_trans hS1 hS2), rfl,
    fun hne => fit_result_last hS1 hne⟩
  rw [exec_eq_flat]
  simp only [exec_flat, hr1]
  show (json_add_to_str fuel m1 op.last >>= fun r =>
    pure (r.1, set_comma_req r.2 op.comma_after)) = _
  rw [hr2]
  rfl

theorem start_inv (m0 : Machine W) (buf priv : Nat) (cb : Option (json_flush_cb_t W))
    (hcap : 1 ≤ m0.mem.length) :
    Inv (json_str_start m0 buf m0.mem.length cb priv) ∧
      Clean (json_str_start m0 buf m0.mem.length cb priv) ∧
      written (json_str_start m0 buf m0.mem.length cb priv) = [] := by
  refine ⟨⟨rfl, ?_, ?_⟩, ?_, ?_⟩
  · simp [cursor, json_str_start]
  · simp only [cursor, json_str_start]; omega
  · simp [Clean, written, json_str_start, cell]
  · simp [written, json_str_start, cell]

theorem accumulate_run (m0 : Machine (List Char)) (buf priv : Nat) (ops : List Op)
    (fuel : Nat) (hcap : 2 ≤ m0.mem.length) (hr : ∀ op ∈ ops, op.in_range)
    (hf : (document false ops).length < fuel) :
    ∃ m1 m2,
      run fuel (json_str_start m0 buf m0.mem.length (some accumulate) priv) ops
        = .ok (List.replicate ops.length 0, m1) ∧
      json_str_end m1 = .ok m2 ∧
      m2.world = m0.world ++ document false ops := by
  obtain ⟨hI, hC, hw⟩ := start_inv m0 buf priv (some accumulate) (by omega)
  have hc : CanEmit fuel (json_str_start m0 buf m0.mem.length (some accumulate) priv)
      (document false ops).length :=
    ⟨by omega, Or.inl ⟨by simp [json_str_start], hcap, hf⟩⟩
  obtain ⟨m1, chunks, hrun, hE⟩ := run_emits ops _ hI hr hc
  refine ⟨m1, _, hrun, json_str_end_eq hE.inv (hE.clean hC), ?_⟩
  have hcb : m1.jstr.flush_cb = some accumulate := hE.cb_eq
  have ht := hE.text_eq hC
  rw [hw, List.nil_append] at ht
  have hw1 : m1.world = m0.world ++ chunks.flatten := by
    rw [hE.world_eq]; exact deliver_accumulate _ _ _
  show deliver m1.jstr.flush_cb m1.jstr.priv [written m1] m1.world = _
  rw [hcb, deliver_accumulate, hw1, List.append_assoc]
  simp only [List.flatten_cons, List.flatten_nil, List.append_nil]
  rw [ht]
  rfl

theorem take_set_self (l : List Char) (n : Nat) (a : Char) : (l.set n a).take n = l.take n :=
  List.ext_getElem? fun i => by
    rw [List.getElem?_take, List.getElem?_take]
    split
    · next h => rw [List.getElem?_set_ne (by omega)]
    · rfl

theorem buffer_run (m0 : Machine W) (buf priv : Nat) (ops : List Op) (fuel : Nat)
    (hf : 0 < fuel) (hr : ∀ op ∈ ops, op.in_range)
    (hfit : (document false ops).length + 1 ≤ m0.mem.length) :
    ∃ m1 m2,
      run fuel (json_str_start m0 buf m0.mem.length none priv) ops
        = .ok (List.replicate ops.length 0, m1) ∧
      written m1 = document false ops ∧
      cursor m1.jstr = (document false ops).length ∧
      json_str_end m1 = .ok m2 ∧
      m2.mem = m1.mem.set (document false ops).length NUL ∧
      m2.mem.take (document false ops).length = document false ops ∧
      m2.world = m0.world := by
  obtain ⟨hI, hC, hw⟩ := start_inv m0 buf priv none (by omega)
  have hroom : room (json_str_start m0 buf m0.mem.length none priv) = m0.mem.length - 1 := by
    simp [room, json_str_start, cell]
  have hc : CanEmit fuel (json_str_start m0 buf m0.mem.length none priv)
      (document false ops).length :=
    ⟨hf, Or.inr ⟨rfl, by rw [hroom]; omega⟩⟩
  obtain ⟨m1, chunks, hrun, hE'⟩ := run_emits ops _ hI hr hc
  have hE : Emits (json_str_start m0 buf m0.mem.length none priv) (document false ops)
      chunks m1 := hE'
  clear hE'
  have hch : chunks = [] := hE.no_cb rfl
  have ht := hE.text_eq hC
  rw [hw, hch] at ht
  simp only [List.flatten_nil, List.nil_append] at ht
  have hw1 : m1.world = m0.world := by rw [hE.world_eq]; rfl
  have hcb : m1.jstr.flush_cb = none := hE.cb_eq
  obtain ⟨g1, g2, g3⟩ := written_length hE.inv
  rw [ht] at g1
  have hcur : cursor m1.jstr = (document false ops).length := by
    obtain ⟨i1, i2, i3⟩ := hE.inv
    simp only [cursor] at i2 i3 ⊢
    simp only [cell] at g1
    omega
  have hend := json_str_end_eq hE.inv (hE.clean hC)
  rw [← g1] at hend
  refine ⟨m1, _, hrun, ht, hcur, hend, rfl, ?_, ?_⟩
  · show (m1.mem.set (document false ops).length NUL).take (document false ops).length = _
    rw [take_set_self, g1]
    exact ht
  · show deliver m1.jstr.flush_cb m1.jstr.priv [written m1] m1.world = _
    rw [hcb, hw1]
    rfl

/-- C2: without a flush callback, a series of public calls whose whole text has at most
capacity - 1 bytes runs to its end with every call returning 0; the buffer bytes from offset 0
up to the cursor are then the texts of the calls in call order, and `json_str_end` stores the
terminator byte at the cursor and nothing else, the document bytes staying in the caller's
buffer and the state behind the (absent) callback staying as it was. -/
theorem buffer_eq_document (m0 : Machine W) (buf priv : Nat) (ops : List Op) (fuel : Nat)
    (hf : 0 < fuel) (hr : ∀ op ∈ ops, op.in_range)
    (hfit : (document false ops).length + 1 ≤ m0.mem.length) :
    ∃ m1 m2,
      run fuel (json_str_start m0 buf m0.mem.length none priv) ops
        = .ok (List.replicate ops.length 0, m1) ∧
      written m1 = document false ops ∧
      cursor m1.jstr = (document false ops).length ∧
      json_str_end m1 = .ok m2 ∧
      m2.mem = m1.mem.set (document false ops).length NUL ∧
      m2.mem.take (document false ops).length = document false ops ∧
      m2.world = m0.world :=
  buffer_run m0 buf priv ops fuel hf hr hfit

theorem buffer_eq_document_witness :
    ∃ (m1 m2 : Machine Unit),
      run 1 (json_str_start ⟨json_str_zero _, List.replicate 19 'x', ()⟩ 4096
          ((List.replicate 19 'x').length : Int) none 0)
          [.start_object, .obj_set_bool ['o', 'k'] true, .obj_set_int ['n'] 30, .end_object]
        = .ok (List.replicate 4 0, m1) ∧
      written m1 = document false
          [.start_object, .obj_set_bool ['o', 'k'] true, .obj_set_int ['n'] 30, .end_object] ∧
      cursor m1.jstr = (document false
          [.start_object, .obj_set_bool ['o', 'k'] true, .obj_set_int ['n'] 30,
            .end_object]).length ∧
      json_str_end m1 = .ok m2 ∧
      m2.mem = m1.mem.set (document false
          [.start_object, .obj_set_bool ['o', 'k'] true, .obj_set_int ['n'] 30,
            .end_object]).length NUL ∧
      m2.mem.take (document false
          [.start_object, .obj_set_bool ['o', 'k'] true, .obj_set_int ['n'] 30,
            .end_object]).length = document false
          [.start_object, .obj_set_bool ['o', 'k'] true, .obj_set_int ['n'] 30, .end_object] ∧
      m2.world = () :=
  buffer_eq_document ⟨json_str_zero _, List.replicate 19 'x', ()⟩ 4096 0
    [.start_object, .obj_set_bool ['o', 'k'] true, .obj_set_int ['n'] 30, .end_object] 1
    (by decide) (by decide) (by decide)

theorem last_ne_nil (op : Op) (h : op.rendered) : c_str op.last ≠ [] := by
  have hb : ∀ v : Bool,
      c_str (if v then ['t', 'r', 'u', 'e'] else ['f', 'a', 'l', 's', 'e']) ≠ [] := by
    intro v; cases v <;> decide
  have hi : ∀ v : Int, c_str (snprintf MAX_INT_IN_STR (fmt_d v)) ≠ [] := by
    intro v
    rw [c_str_snprintf, snprintf, c_str_of_clean _ (fmt_d_clean v)]
    have := fmt_d_ne_nil v
    cases hfd : fmt_d v with
    | nil => exact absurd hfd this
    | cons c cs => simp [MAX_INT_IN_STR]
  have hfl : ∀ v : c_float, v.rendered = true →
      c_str (snprintf MAX_FLOAT_IN_STR v.fmt_f) ≠ [] := by
    intro v hv
    rw [c_str_snprintf, snprintf]
    unfold c_float.rendered at hv
    cases hfd : c_str v.fmt_f with
    | nil => rw [hfd] at hv; cases hv
    | cons c cs => simp [MAX_FLOAT_IN_STR]
  cases op <;> simp only [Op.last] <;>
    first
    | decide
    | exact hb _
    | exact hi _
    | exact hfl _ h

theorem fit_result_eq {m : Machine W} (hI : Inv m) (s : List Char) :
    (fit_result m s = -1 ↔ m.jstr.buf_size - 1 - cursor m.jstr < (s.length : Int)) ∧
    (fit_result m s = 0 ↔ (s.length : Int) ≤ m.jstr.buf_size - 1 - cursor m.jstr) := by
  obtain ⟨hw1, hw2, hw3⟩ := written_length hI
  obtain ⟨h1, h2, h3⟩ := hI
  simp only [cursor] at h2 h3 ⊢
  simp only [cell] at hw1
  by_cases h : (written m ++ s).length ≤ m.mem.length - 1
  · have e : fit_result m s = 0 := by simp only [fit_result]; rw [if_pos h]
    rw [e]
    simp only [List.length_append, hw1] at h
    constructor
    · constructor
      · intro h0; cases h0
      · intro h0; omega
    · constructor
      · intro _; omega
      · intro _; rfl
  · have e : fit_result m s = -1 := by simp only [fit_result]; rw [if_neg h]
    rw [e]
    simp only [List.length_append, hw1] at h
    constructor
    · constructor
      · intro _; omega
      · intro _; rfl
    · constructor
      · intro h0; cases h0
      · intro h0; omega

/-- C3: without a flush callback, a public call returns -1 exactly when the text it has to
emit (separator, member name, delimiter or value text) is longer than the free space
capacity - 1 - cursor, and 0 otherwise, also when the buffer runs out inside the separator or
the name, whose own results are dropped. -/
theorem exhausted_iff_text_too_long (m : Machine W) (op : Op) (fuel : Nat) (hI : Inv m)
    (hcb : m.jstr.flush_cb = none) (hf : 0 < fuel) (hr : op.in_range) (hd : op.rendered) :
    ∃ r m', exec fuel m op = .ok (r, m') ∧
      (r = -1 ↔
        m.jstr.buf_size - 1 - cursor m.jstr < ((op.text m.jstr.comma_req).length : Int)) ∧
      (r = 0 ↔
        ((op.text m.jstr.comma_req).length : Int) ≤ m.jstr.buf_size - 1 - cursor m.jstr) := by
  obtain ⟨r, m', hrun, _, _, hres⟩ := exec_stored op hI hcb hf
  have hres' := hres (last_ne_nil op hd)
  rw [code_text_eq _ _ hr] at hres'
  subst hres'
  exact ⟨_, m', hrun, fit_result_eq hI _⟩

theorem exhausted_iff_text_too_long_witness :
    ∃ r m', exec 1 (⟨⟨64, 4, none, 0, true, 65⟩, ['{', 'x', 'x', 'x'], ()⟩ : Machine Unit)
        (.obj_set_bool ['l', 'o', 'n', 'g'] true) = .ok (r, m') ∧
      (r = -1 ↔ (4 : Int) - 1 - cursor (⟨64, 4, none, 0, true, 65⟩ : json_str_t Unit)
        < (((Op.obj_set_bool ['l', 'o', 'n', 'g'] true).text true).length : Int)) ∧
      (r = 0 ↔ (((Op.obj_set_bool ['l', 'o', 'n', 'g'] true).text true).length : Int)
        ≤ (4 : Int) - 1 - cursor (⟨64, 4, none, 0, true, 65⟩ : json_str_t Unit)) :=
  exhausted_iff_text_too_long ⟨⟨64, 4, none, 0, true, 65⟩, ['{', 'x', 'x', 'x'], ()⟩
    (.obj_set_bool ['l', 'o', 'n', 'g'] true) 1 (by decide) rfl (by decide) (by decide)
    (by decide)

theorem can_emit_cb {fuel n : Nat} {m : Machine W} (hI : Inv m)
    (hcb : m.jstr.flush_cb ≠ none) (hcap : 2 ≤ m.jstr.buf_size) (hf : n < fuel) :
    CanEmit fuel m n := by
  obtain ⟨h1, _, _⟩ := hI
  exact ⟨by omega, Or.inl ⟨hcb, by omega, hf⟩⟩

theorem exec_inv {fuel : Nat} {m : Machine W} (op : Op) (hI : Inv m)
    (hcap : m.jstr.flush_cb ≠ none → 2 ≤ m.jstr.buf_size)
    (hf : (op.code_text m.jstr.comma_req).length < fuel) :
    ∃ r m', exec fuel m op = .ok (r, m') ∧ Inv m' := by
  cases hcb : m.jstr.flush_cb with
  | none =>
    have hpos : 0 < fuel := by omega
    obtain ⟨r, m', hrun, hS, _⟩ := exec_stored op hI hcb hpos
    exact ⟨r, m', hrun, hS.inv⟩
  | some f =>
    have hne : m.jstr.flush_cb ≠ none := by rw [hcb]; simp
    obtain ⟨m', _, hrun, hE, _⟩ := exec_emits op 0 hI (can_emit_cb hI hne (hcap hne) hf)
    exact ⟨0, m', hrun, hE.inv⟩

theorem json_str_end_ok {m : Machine W} (hI : Inv m) :
    ∃ m', json_str_end m = .ok m' ∧ m'.mem = m.mem.set (cell m m.jstr.free_ptr) NUL := by
  obtain ⟨h1, h2, h3⟩ := hI
  simp only [cursor] at h2 h3
  have g : m.jstr.buf ≤ m.jstr.free_ptr ∧ cell m m.jstr.free_ptr < m.mem.length := by
    simp only [cell]; omega
  simp only [json_str_end, poke]
  rw [if_pos g]
  exact ⟨_, rfl, by cases m.jstr.flush_cb <;> rfl⟩

/-- C6: the cursor invariant `0 ≤ cursor < capacity` (with the caller's array having
`capacity` bytes) holds after `json_str_start` with capacity at least 1; every public call made
in a state where it holds comes to an end, with any result and with or without flushes (with
a callback the capacity being at least 2), in a state where it holds again; and the store of
the terminator byte by `json_str_end` lies inside the buffer. -/
theorem cursor_stays_in_buffer (m0 m : Machine W) (buf priv : Nat)
    (cb : Option (json_flush_cb_t W)) (op : Op) (fuel : Nat) (hcap1 : 1 ≤ m0.mem.length)
    (hI : Inv m) (hcap2 : m.jstr.flush_cb ≠ none → 2 ≤ m.jstr.buf_size)
    (hf : (op.code_text m.jstr.comma_req).length < fuel) :
    (0 ≤ cursor (json_str_start m0 buf m0.mem.length cb priv).jstr ∧
      cursor (json_str_start m0 buf m0.mem.length cb priv).jstr
        < (json_str_start m0 buf m0.mem.length cb priv).jstr.buf_size ∧
      Inv (json_str_start m0 buf m0.mem.length cb priv)) ∧
    (∃ r m', exec fuel m op = .ok (r, m') ∧
      0 ≤ cursor m'.jstr ∧ cursor m'.jstr < m'.jstr.buf_size ∧ Inv m') ∧
    (∃ m', json_str_end m = .ok m' ∧ m'.mem = m.mem.set (cursor m.jstr).toNat NUL ∧
      (cursor m.jstr).toNat < m.mem.length) := by
  have hs := (start_inv m0 buf priv cb hcap1).1
  refine ⟨⟨hs.2.1, hs.2.2, hs⟩, ?_, ?_⟩
  · obtain ⟨r, m', hrun, hI'⟩ := exec_inv op hI hcap2 hf
    exact ⟨r, m', hrun, hI'.2.1, hI'.2.2, hI'⟩
  · obtain ⟨m', hrun, hmem⟩ := json_str_end_ok hI
    obtain ⟨h1, h2, h3⟩ := hI
    simp only [cursor] at h2 h3 ⊢
    have hcell : cell m m.jstr.free_ptr = ((m.jstr.free_ptr : Int) - m.jstr.buf).toNat := by
      simp only [cell]; omega
    rw [hcell] at hmem
    exact ⟨m', hrun, hmem, by omega⟩

theorem cursor_stays_in_buffer_witness :
    (0 ≤ cursor (json_str_start (⟨json_str_zero _, ['x'], []⟩ : Machine (List Char)) 64
        (([ 'x' ] : List Char).length : Int) none 0).jstr ∧
      cursor (json_str_start (⟨json_str_zero _, ['x'], []⟩ : Machine (List Char)) 64
        (([ 'x' ] : List Char).length : Int) none 0).jstr
        < (json_str_start (⟨json_str_zero _, ['x'], []⟩ : Machine (List Char)) 64
          (([ 'x' ] : List Char).length : Int) none 0).jstr.buf_size ∧
      Inv (json_str_start (⟨json_str_zero _, ['x'], []⟩ : Machine (List Char)) 64
        (([ 'x' ] : List Char).length : Int) none 0)) ∧
    (∃ r m', exec 9 (⟨⟨64, 3, some accumulate, 0, true, 66⟩, ['{', '1', 'x'], []⟩ : Machine _)
        (.arr_set_int (-1234)) = .ok (r, m') ∧
      0 ≤ cursor m'.jstr ∧ cursor m'.jstr < m'.jstr.buf_size ∧ Inv m') ∧
    (∃ m', json_str_end
        (⟨⟨64, 3, some accumulate, 0, true, 66⟩, ['{', '1', 'x'], []⟩ : Machine _) = .ok m' ∧
      m'.mem = (['{', '1', 'x'] : List Char).set
        (cursor (⟨64, 3, some accumulate, 0, true, 66⟩ : json_str_t (List Char))).toNat NUL ∧
      (cursor (⟨64, 3, some accumulate, 0, true, 66⟩ : json_str_t (List Char))).toNat
        < (['{', '1', 'x'] : List Char).length) :=
  cursor_stays_in_buffer ⟨json_str_zero _, ['x'], []⟩
    ⟨⟨64, 3, some accumulate, 0, true, 66⟩, ['{', '1', 'x'], []⟩ 64 0 none
    (.arr_set_int (-1234)) 9 (by decide) (by decide) (fun _ => by decide) (by decide)

theorem exec_output {fuel : Nat} {m : Machine (List Char)} (op : Op) (n : Nat) (hI : Inv m)
    (hC : Clean m) (hcb : m.jstr.flush_cb = none ∨ m.jstr.flush_cb = some accumulate)
    (hr : op.in_range) (hc : CanEmit fuel m ((op.text m.jstr.comma_req).length + n)) :
    ∃ m', exec fuel m op = .ok (0, m') ∧ output m' = output m ++ op.text m.jstr.comma_req ∧
      m'.jstr.comma_req = op.owed_after ∧ Inv m' ∧ Clean m' ∧
      m'.jstr.flush_cb = m.jstr.flush_cb ∧ CanEmit fuel m' n := by
  rw [← code_text_eq _ _ hr] at hc ⊢
  obtain ⟨m', chunks, hrun, hE, hq, hc'⟩ := exec_emits op n hI hc
  refine ⟨m', hrun, ?_, by rw [hq, comma_after_eq], hE.inv, hE.clean hC, hE.cb_eq, hc'⟩
  have ht := hE.text_eq hC
  have hw := hE.world_eq
  simp only [output]
  rcases hcb with hcb | hcb
  · rw [hE.no_cb hcb] at ht hw
    rw [hcb] at hw
    simp only [List.flatten_nil, List.nil_append] at ht
    rw [hw, ht]
    simp [deliver]
  · rw [hcb, deliver_accumulate] at hw
    rw [hw, List.append_assoc, ht, List.append_assoc]

theorem token_head (op : Op) (hr : op.rendered) : op.token.head? ≠ some ',' := by
  have hi : ∀ v : Int, (int_text v).head? ≠ some ',' := by
    intro v
    simp only [int_text, fmt_d]
    have h1 := toDigits_mem v.natAbs
    have h2 := toDigits_ne_nil v.natAbs
    split_ifs
    · simp
    · cases hd : Nat.toDigits 10 v.natAbs with
      | nil => exact absurd hd h2
      | cons c cs =>
        rw [hd] at h1
        have := (h1 c (List.mem_cons_self _ _)).2
        simpa using this
  have hf : ∀ v : c_float, v.rendered = true → (float_text v).head? ≠ some ',' := by
    intro v hv
    simp only [float_text, snprintf, MAX_FLOAT_IN_STR]
    unfold c_float.rendered at hv
    cases hd : c_str v.fmt_f with
    | nil => rw [hd] at hv; cases hv
    | cons c cs =>
      rw [hd] at hv
      simp only [Nat.add_one_sub_one, List.take_succ_cons, List.head?_cons, ne_eq,
        Option.some.injEq]
      rintro rfl
      simp only [] at hv
      revert hv
      decide
  have hb : ∀ v : Bool, (bool_text v).head? ≠ some ',' := by
    intro v; cases v <;> decide
  cases op <;>
    simp only [Op.token, member_name, string_text, null_text, List.cons_append,
      List.nil_append, List.head?_cons, ne_eq, Option.some.injEq] <;>
    first
    | decide
    | exact hb _
    | exact hi _
    | exact hf _ hr

theorem closing_token (op : Op) (h : op.closes = true) : ',' ∉ op.token := by
  cases op <;> simp only [Op.closes, Bool.false_eq_true] at h <;>
    simp only [Op.token] <;> decide

theorem code_text_clean (b : Bool) (op : Op) : ∀ c ∈ op.code_text b, c ≠ NUL := by
  intro c hc
  simp only [Op.code_text, List.mem_flatten, List.mem_map] at hc
  obtain ⟨l, ⟨p, _, rfl⟩, hl⟩ := hc
  exact c_str_ne_nul p c hl

theorem exec_effect {fuel : Nat} {m : Machine (List Char)} (op : Op) (hI : Inv m)
    (hC : Clean m) (hcb : m.jstr.flush_cb = none ∨ m.jstr.flush_cb = some accumulate)
    (hcap : m.jstr.flush_cb ≠ none → 2 ≤ m.jstr.buf_size) (hr : op.in_range)
    (hf : (op.text m.jstr.comma_req).length < fuel) :
    ∃ r m', exec fuel m op = .ok (r, m') ∧ m'.jstr.comma_req = op.owed_after ∧ Inv m' ∧
      Clean m' ∧ m'.jstr.flush_cb = m.jstr.flush_cb ∧ m'.jstr.buf_size = m.jstr.buf_size ∧
      m'.mem.length = m.mem.length ∧
      (m.jstr.flush_cb = some accumulate →
        r = 0 ∧ output m' = output m ++ op.text m.jstr.comma_req) ∧
      (m.jstr.flush_cb = none →
        written m' = (written m ++ op.text m.jstr.comma_req).take (m.mem.length - 1) ∧
        m'.world = m.world) := by
  rcases hcb with hn | ha
  · have hpos : 0 < fuel := by omega
    obtain ⟨r, m', hrun, hS, hq, _⟩ := exec_stored op hI hn hpos
    rw [code_text_eq _ _ hr] at hS
    refine ⟨r, m', hrun, by rw [hq, comma_after_eq], hS.inv, ?_, hS.cb_eq, hS.size_eq,
      hS.length_eq, ?_, fun _ => ⟨hS.text_eq, hS.world_eq⟩⟩
    · exact hS.clean hC (by rw [← code_text_eq _ _ hr]; exact code_text_clean _ op)
    · intro h; rw [hn] at h; cases h
  · have hne : m.jstr.flush_cb ≠ none := by rw [ha]; simp
    have hc : CanEmit fuel m ((op.text m.jstr.comma_req).length + 0) :=
      can_emit_cb hI hne (hcap hne) hf
    obtain ⟨m', hrun, ho, hq, hI', hC', hcb', _⟩ :=
      exec_output op 0 hI hC (Or.inr ha) hr hc
    obtain ⟨m'', _, hrun', hE, _⟩ := exec_emits op 0 hI
      (by rw [code_text_eq _ _ hr]; exact hc)
    have hmm : m'' = m' := by
      rw [hrun] at hrun'
      injection hrun' with h
      exact (congrArg Prod.snd h).symm
    subst hmm
    refine ⟨0, m'', hrun, hq, hI', hC', hcb', hE.size_eq, hE.length_eq,
      fun _ => ⟨rfl, ho⟩, ?_⟩
    intro h; rw [ha] at h; cases h

/-- C7: separator placement.  Let `text` be the token of a call, preceded by one `,` when the
call does not close a container and comes right after a value setter or an `end_*`/`pop_*`
call, and by nothing when it closes a container or comes right after a `start_*`/`push_*`
call or right after `json_str_start`.  With the accumulating callback the call adds `text` to
the output; without a callback the buffer receives `text` as far as there is room.  A token
does not begin with a `,`, and a closing token holds none. -/
theorem separator_placement (m0 m : Machine (List Char)) (buf priv : Nat)
    (cb : Option (json_flush_cb_t (List Char))) (prev next : Op) (fuel : Nat)
    (hcap0 : 1 ≤ m0.mem.length) (hcb0 : cb = none ∨ cb = some accumulate)
    (hcap0' : cb ≠ none → 2 ≤ m0.mem.length)
    (hI : Inv m) (hC : Clean m)
    (hcb : m.jstr.flush_cb = none ∨ m.jstr.flush_cb = some accumulate)
    (hcap : m.jstr.flush_cb ≠ none → 2 ≤ m.jstr.buf_size)
    (hp : prev.in_range) (hn : next.in_range) (hfl : next.rendered)
    (hf : (prev.text m.jstr.comma_req).length + next.token.length + 1 < fuel) :
    (∃ r1 m1 r2 m2, exec fuel m prev = .ok (r1, m1) ∧ exec fuel m1 next = .ok (r2, m2) ∧
      (m.jstr.flush_cb = some accumulate →
        output m2 = output m1 ++
          ((if next.closes || prev.opens then [] else [',']) ++ next.token)) ∧
      (m.jstr.flush_cb = none →
        written m2 = (written m1 ++
          ((if next.closes || prev.opens then [] else [',']) ++ next.token)).take
            (m.mem.length - 1))) ∧
    (∃ r2 m2, exec fuel (json_str_start m0 buf m0.mem.length cb priv) next = .ok (r2, m2) ∧
      (cb = some accumulate → output m2 = m0.world ++ next.token) ∧
      (cb = none → written m2 = next.token.take (m0.mem.length - 1))) ∧
    next.token.head? ≠ some ',' ∧ (next.closes = true → ',' ∉ next.token) := by
  have htext : ∀ b : Bool, (next.text b).length ≤ next.token.length + 1 := by
    intro b
    simp only [Op.text, separator, List.length_append]
    split_ifs
    all_goals simp
    all_goals omega
  have hsep : next.text prev.owed_after
      = (if next.closes || prev.opens then [] else [',']) ++ next.token := by
    simp only [Op.text, Op.owed_after, separator]
    by_cases h1 : next.closes = true <;> by_cases h2 : prev.opens = true <;> simp [h1, h2]
  refine ⟨?_, ?_, token_head next hfl, closing_token next⟩
  · have hf1 : (prev.text m.jstr.comma_req).length < fuel := by omega
    obtain ⟨r1, m1, hr1, hq1, hI1, hC1, hcb1, hsz1, hl1, _, _⟩ :=
      exec_effect prev hI hC hcb hcap hp hf1
    have hf2 : (next.text m1.jstr.comma_req).length < fuel := by
      have := htext m1.jstr.comma_req; omega
    obtain ⟨r2, m2, hr2, _, _, _, _, _, _, ha2, hn2⟩ :=
      exec_effect next hI1 hC1 (by rw [hcb1]; exact hcb) (by rw [hcb1, hsz1]; exact hcap) hn
        hf2
    rw [hq1, hsep, hcb1] at ha2
    rw [hq1, hsep, hcb1, hl1] at hn2
    exact ⟨r1, m1, r2, m2, hr1, hr2, fun h => (ha2 h).2, fun h => (hn2 h).1⟩
  · obtain ⟨hI0, hC0, hw0⟩ := start_inv m0 buf priv cb hcap0
    have ht : next.text (json_str_start m0 buf m0.mem.length cb priv).jstr.comma_req
        = next.token := by
      show next.text false = _
      simp only [Op.text, separator]
      by_cases h1 : next.closes = true <;> simp [h1]
    have hf0 : (next.text (json_str_start m0 buf m0.mem.length cb priv).jstr.comma_req).length
        < fuel := by rw [ht]; omega
    obtain ⟨r2, m2, hr2, _, _, _, _, _, _, ha2, hn2⟩ :=
      exec_effect next hI0 hC0 hcb0 (fun h => by
        have := hcap0' h
        show (2 : Int) ≤ (m0.mem.length : Int)
        omega) hn hf0
    rw [ht] at ha2 hn2
    refine ⟨r2, m2, hr2, ?_, ?_⟩
    · intro h
      rw [(ha2 h).2, output, hw0, List.append_nil]
      rfl
    · intro h
      have := (hn2 h).1
      rw [hw0, List.nil_append] at this
      exact this

theorem separator_placement_witness :
    (∃ r1 m1 r2 m2,
      exec 12 (⟨⟨64, 3, none, 0, false, 65⟩, ['[', 'x', 'x'], []⟩ : Machine (List Char))
        (.arr_set_int 7) = .ok (r1, m1) ∧
      exec 12 m1 (.arr_set_string ['a', ',']) = .ok (r2, m2) ∧
      ((none : Option (json_flush_cb_t (List Char))) = some accumulate →
        output m2 = output m1 ++
          ((if (Op.arr_set_string ['a', ',']).closes || (Op.arr_set_int 7).opens then []
            else [',']) ++ (Op.arr_set_string ['a', ',']).token)) ∧
      ((none : Option (json_flush_cb_t (List Char))) = none →
        written m2 = (written m1 ++
          ((if (Op.arr_set_string ['a', ',']).closes || (Op.arr_set_int 7).opens then []
            else [',']) ++ (Op.arr_set_string ['a', ',']).token)).take
            ((['[', 'x', 'x'] : List Char).length - 1))) ∧
    (∃ r2 m2, exec 12 (json_str_start (⟨json_str_zero _, ['x', 'x', 'x', 'x', 'x'], []⟩ :
          Machine (List Char)) 64 ((['x', 'x', 'x', 'x', 'x'] : List Char).length : Int)
          (some accumulate) 0) (.arr_set_string ['a', ',']) = .ok (r2, m2) ∧
      (some accumulate = some accumulate →
        output m2 = [] ++ (Op.arr_set_string ['a', ',']).token) ∧
      (some accumulate = none →
        written m2 = (Op.arr_set_string ['a', ',']).token.take
          ((['x', 'x', 'x', 'x', 'x'] : List Char).length - 1))) ∧
    (Op.arr_set_string ['a', ',']).token.head? ≠ some ',' ∧
    ((Op.arr_set_string ['a', ',']).closes = true →
      ',' ∉ (Op.arr_set_string ['a', ',']).token) :=
  separator_placement ⟨json_str_zero _, ['x', 'x', 'x', 'x', 'x'], []⟩
    ⟨⟨64, 3, none, 0, false, 65⟩, ['[', 'x', 'x'], []⟩ 64 0 (some accumulate)
    (.arr_set_int 7) (.arr_set_string ['a', ',']) 12 (by decide) (Or.inr rfl)
    (fun _ => by decide) (by decide) (by decide) (Or.inl rfl) (fun h => absurd rfl h)
    (by decide) (by decide) (by decide) (by decide)

/-- C9: for a value of each type and every name, from every state with enough room, the
object-member form of the setter emits the separator, the name between quotes with `:`, and
the value text; the array-element form emits the same separator and the same value text; both
leave `comma_req` (separator owed) true. -/
theorem member_and_element_forms (m : Machine (List Char)) (v : Value) (name : List Char)
    (fuel : Nat) (hI : Inv m) (hC : Clean m)
    (hcb : m.jstr.flush_cb = none ∨ m.jstr.flush_cb = some accumulate)
    (hr : v.arr_set.in_range)
    (hc : CanEmit fuel m
      (separator m.jstr.comma_req ++ ['"'] ++ c_str name ++ ['"', ':'] ++ v.text).length) :
    ∃ m1 m2,
      exec fuel m (v.obj_set name) = .ok (0, m1) ∧
      output m1 = output m ++
        (separator m.jstr.comma_req ++ ['"'] ++ c_str name ++ ['"', ':'] ++ v.text) ∧
      m1.jstr.comma_req = true ∧
      exec fuel m v.arr_set = .ok (0, m2) ∧
      output m2 = output m ++ (separator m.jstr.comma_req ++ v.text) ∧
      m2.jstr.comma_req = true := by
  have hro : (v.obj_set name).in_range := by cases v <;> exact hr
  have hto : (v.obj_set name).text m.jstr.comma_req
      = separator m.jstr.comma_req ++ ['"'] ++ c_str name ++ ['"', ':'] ++ v.text := by
    cases v <;> simp [Value.obj_set, Value.text, Op.text, Op.token, Op.closes, member_name]
  have hta : v.arr_set.text m.jstr.comma_req = separator m.jstr.comma_req ++ v.text := by
    cases v <;> simp [Value.arr_set, Value.text, Op.text, Op.token, Op.closes]
  have hco : CanEmit fuel m (((v.obj_set name).text m.jstr.comma_req).length + 0) := by
    rw [hto]; exact hc
  have hca : CanEmit fuel m ((v.arr_set.text m.jstr.comma_req).length + 0) := by
    rw [hta]
    obtain ⟨hf, h⟩ := hc
    simp only [List.length_append] at h ⊢
    refine ⟨hf, ?_⟩
    rcases h with ⟨h1, h2, h3⟩ | ⟨h1, h2⟩
    · exact Or.inl ⟨h1, h2, by omega⟩
    · exact Or.inr ⟨h1, by omega⟩
  obtain ⟨m1, hr1, ho1, hq1, _⟩ := exec_output (v.obj_set name) 0 hI hC hcb hro hco
  obtain ⟨m2, hr2, ho2, hq2, _⟩ := exec_output v.arr_set 0 hI hC hcb hr hca
  refine ⟨m1, m2, hr1, by rw [ho1, hto], ?_, hr2, by rw [ho2, hta], ?_⟩
  · rw [hq1]; cases v <;> rfl
  · rw [hq2]; cases v <;> rfl

theorem member_and_element_forms_witness :
    ∃ m1 m2,
      exec 12 (⟨⟨64, 4, some accumulate, 5, true, 66⟩, ['{', '1', 'x', 'x'], []⟩ : Machine _)
        ((Value.int (-45)).obj_set ['k', 'e', 'y']) = .ok (0, m1) ∧
      output m1
        = output (⟨⟨64, 4, some accumulate, 5, true, 66⟩, ['{', '1', 'x', 'x'], []⟩ : Machine _)
          ++ (separator true ++ ['"'] ++ c_str ['k', 'e', 'y'] ++ ['"', ':']
            ++ (Value.int (-45)).text) ∧
      m1.jstr.comma_req = true ∧
      exec 12 (⟨⟨64, 4, some accumulate, 5, true, 66⟩, ['{', '1', 'x', 'x'], []⟩ : Machine _)
        (Value.int (-45)).arr_set = .ok (0, m2) ∧
      output m2
        = output (⟨⟨64, 4, some accumulate, 5, true, 66⟩, ['{', '1', 'x', 'x'], []⟩ : Machine _)
          ++ (separator true ++ (Value.int (-45)).text) ∧
      m2.jstr.comma_req = true :=
  member_and_element_forms ⟨⟨64, 4, some accumulate, 5, true, 66⟩, ['{', '1', 'x', 'x'], []⟩
    (.int (-45)) ['k', 'e', 'y'] 12 (by decide) (by decide) (Or.inr rfl) (by decide)
    ⟨by decide, Or.inl ⟨by simp, by decide, by decide⟩⟩

/-- C10: `json_pop_object` is `json_end_object` and `json_pop_array` is `json_end_array`: from
every state, with every callback or none, the two calls give the same outcome, that is the
same result, the same writer state, the same buffer contents and the same state behind the
callback (hence the same chunks handed to it). -/
theorem pop_eq_end (W : Type) (fuel : Nat) (m : Machine W) :
    json_pop_object fuel m = json_end_object fuel m ∧
      json_pop_array fuel m = json_end_array fuel m :=
  ⟨rfl, rfl⟩

theorem document_append (xs ys : List Op) : ∀ b : Bool,
    document b (xs ++ ys) = document b xs ++ document (owed_end b xs) ys := by
  induction xs with
  | nil => intro b; rfl
  | cons x xs ih =>
    intro b
    show x.text b ++ document x.owed_after (xs ++ ys) = _
    rw [ih]
    simp only [document, owed_end, List.append_assoc]

theorem owed_end_append (xs ys : List Op) : ∀ b : Bool,
    owed_end b (xs ++ ys) = owed_end (owed_end b xs) ys := by
  induction xs with
  | nil => intro b; rfl
  | cons x xs ih => intro b; exact ih x.owed_after

theorem owed_end_calls (n : Node) (name : Option (List Char)) (b : Bool) :
    owed_end b (n.calls name) = true := by
  cases n <;> cases name <;>
    simp only [Node.calls, owed_end, owed_end_append] <;> rfl

mutual
theorem node_document : ∀ (n : Node) (name : Option (List Char)) (b : Bool),
    document b (n.calls name) = separator b ++ (name_text name ++ n.render)
  | .obj ms, name, b => by
    have h := members_document ms false
    cases name <;>
      simp [Node.calls, document, document_append, h, Node.render, Op.text, Op.closes,
        Op.token, Op.owed_after, Op.opens, name_text]
  | .arr es, name, b => by
    have h := elements_document es false
    cases name <;>
      simp [Node.calls, document, document_append, h, Node.render, Op.text, Op.closes,
        Op.token, Op.owed_after, Op.opens, name_text]
theorem members_document : ∀ (ms : Members) (b : Bool), document b ms.calls = ms.render b
  | .nil, _ => rfl
  | .cons name n rest, b => by
    simp only [Members.calls, Members.render, document_append, owed_end_calls,
      node_document n (some name) b, members_document rest true, name_text,
      List.append_assoc]
theorem elements_document : ∀ (es : Elements) (b : Bool), document b es.calls = es.render b
  | .nil, _ => rfl
  | .cons n rest, b => by
    simp only [Elements.calls, Elements.render, document_append, owed_end_calls,
      node_document n none b, elements_document rest true, name_text, List.nil_append,
      List.append_assoc]
end

mutual
theorem node_balanced : ∀ (n : Node) (name : Option (List Char)) (st : List Opener)
    (more : List Op), balanced_from st (n.calls name ++ more) = balanced_from st more
  | .obj ms, name, st, more => by
    cases name <;>
      simp only [Node.calls, List.cons_append, List.append_assoc, balanced_from,
        members_balanced ms, List.nil_append]
  | .arr es, name, st, more => by
    cases name <;>
      simp only [Node.calls, List.cons_append, List.append_assoc, balanced_from,
        elements_balanced es, List.nil_append]
theorem members_balanced : ∀ (ms : Members) (st : List Opener) (more : List Op),
    balanced_from st (ms.calls ++ more) = balanced_from st more
  | .nil, _, _ => rfl
  | .cons name n rest, st, more => by
    simp only [Members.calls, List.append_assoc, node_balanced n, members_balanced rest]
theorem elements_balanced : ∀ (es : Elements) (st : List Opener) (more : List Op),
    balanced_from st (es.calls ++ more) = balanced_from st more
  | .nil, _, _ => rfl
  | .cons n rest, st, more => by
    simp only [Elements.calls, List.append_assoc, node_balanced n, elements_balanced rest]
end

theorem skip_ws_cons (c : Char) (s : List Char) (h : json_ws c = false) :
    skip_ws (c :: s) = c :: s := by
  simp [skip_ws, List.dropWhile, h]

theorem string_tail_plain (rest : List Char) : ∀ (s : List Char) (k : Nat),
    s.all plain_char = true → s.length < k →
    json_string_tail k (s ++ '"' :: rest) = some rest := by
  intro s
  induction s with
  | nil =>
    intro k _ hk
    obtain ⟨k, rfl⟩ : ∃ j, k = j + 1 := ⟨k - 1, by simp at hk; omega⟩
    simp [json_string_tail]
  | cons c s ih =>
    intro k hs hk
    obtain ⟨k, rfl⟩ : ∃ j, k = j + 1 := ⟨k - 1, by simp at hk; omega⟩
    simp only [List.all_cons, Bool.and_eq_true] at hs
    obtain ⟨hc, hs⟩ := hs
    simp only [plain_char, Bool.and_eq_true, decide_eq_true_eq, bne_iff_ne, ne_eq] at hc
    obtain ⟨⟨⟨h1, h2⟩, h3⟩, h4⟩ := hc
    have e1 : (c.toNat == 34) = false := by simpa using h3
    have e2 : (c.toNat == 92) = false := by simpa using h4
    have e3 : json_unescaped c = true := by
      simp [json_unescaped, h1, h3, h4]
    simp only [List.cons_append, json_string_tail, e1, e2, e3, if_true, Bool.false_eq_true,
      if_false]
    exact ih k hs (by simp at hk; omega)

theorem member_name_tail (name rest : List Char) (h : (c_str name).all plain_char = true) :
    ∃ cs, member_name name ++ rest = '"' :: cs ∧
      json_string_tail (cs.length + 1) cs = some (':' :: rest) := by
  refine ⟨c_str name ++ '"' :: ':' :: rest, by simp [member_name], ?_⟩
  apply string_tail_plain
  · exact h
  · simp; omega

theorem render_head (n : Node) (rest : List Char) :
    ∃ c cs, n.render ++ rest = c :: cs ∧ json_ws c = false ∧ (c.toNat == 93) = false := by
  cases n with
  | obj ms =>
    exact ⟨'{', (ms.render false ++ ['}']) ++ rest, by simp only [Node.render, List.cons_append],
      by decide, by decide⟩
  | arr es =>
    exact ⟨'[', (es.render false ++ [']']) ++ rest, by simp only [Node.render, List.cons_append],
      by decide, by decide⟩

theorem value_empty_object (f : Nat) (rest : List Char) :
    json_value (f + 1) ('{' :: '}' :: rest) = some rest := by
  have w : skip_ws ('}' :: rest) = '}' :: rest := skip_ws_cons _ _ (by decide)
  have q1 : ('{'.toNat == 123) = true := by decide
  have q2 : ('}'.toNat == 125) = true := by decide
  simp only [json_value, w, q1, q2, if_true]

theorem value_object (f : Nat) (cs : List Char) :
    json_value (f + 1) ('{' :: '"' :: cs) = json_members f ('"' :: cs) := by
  have w : skip_ws ('"' :: cs) = '"' :: cs := skip_ws_cons _ _ (by decide)
  have q1 : ('{'.toNat == 123) = true := by decide
  have q2 : ('"'.toNat == 125) = false := by decide
  simp only [json_value, w, q1, q2, if_true, Bool.false_eq_true, if_false]

theorem value_empty_array (f : Nat) (rest : List Char) :
    json_value (f + 1) ('[' :: ']' :: rest) = some rest := by
  have w : skip_ws (']' :: rest) = ']' :: rest := skip_ws_cons _ _ (by decide)
  have q0 : ('['.toNat == 123) = false := by decide
  have q1 : ('['.toNat == 91) = true := by decide
  have q2 : (']'.toNat == 93) = true := by decide
  simp only [json_value, w, q0, q1, q2, if_true, Bool.false_eq_true, if_false]

theorem value_array (f : Nat) (c : Char) (cs : List Char) (hw : json_ws c = false)
    (hc : (c.toNat == 93) = false) :
    json_value (f + 1) ('[' :: c :: cs) = json_elements f (c :: cs) := by
  have w : skip_ws (c :: cs) = c :: cs := skip_ws_cons _ _ hw
  have q0 : ('['.toNat == 123) = false := by decide
  have q1 : ('['.toNat == 91) = true := by decide
  simp only [json_value, w, q0, q1, hc, if_true, Bool.false_eq_true, if_false]

theorem members_step (f : Nat) (cs c_v r : List Char) (c : Char)
    (hs : json_string_tail (cs.length + 1) cs = some (':' :: c :: c_v))
    (hw : json_ws c = false) (hv : json_value f (c :: c_v) = some r) :
    json_members (f + 1) ('"' :: cs) =
      match skip_ws r with
      | e :: es =>
        if e.toNat == 44 then json_members f (skip_ws es)
        else if e.toNat == 125 then some es
        else none
      | [] => none := by
  have w1 : skip_ws (':' :: c :: c_v) = ':' :: c :: c_v := skip_ws_cons _ _ (by decide)
  have w2 : skip_ws (c :: c_v) = c :: c_v := skip_ws_cons _ _ hw
  have q1 : ('"'.toNat == 34) = true := by decide
  have q2 : (':'.toNat == 58) = true := by decide
  simp only [json_members, hs, w1, w2, q1, q2, hv, if_true]

theorem members_more (f : Nat) (ds : List Char) :
    (match skip_ws (',' :: '"' :: ds) with
      | e :: es =>
        if e.toNat == 44 then json_members f (skip_ws es)
        else if e.toNat == 125 then some es
        else none
      | [] => none) = json_members f ('"' :: ds) := by
  have w1 : skip_ws (',' :: '"' :: ds) = ',' :: '"' :: ds := skip_ws_cons _ _ (by decide)
  have w2 : skip_ws ('"' :: ds) = '"' :: ds := skip_ws_cons _ _ (by decide)
  have q1 : (','.toNat == 44) = true := by decide
  simp only [w1, w2, q1, if_true]

theorem members_close (f : Nat) (rest : List Char) :
    (match skip_ws ('}' :: rest) with
      | e :: es =>
        if e.toNat == 44 then json_members f (skip_ws es)
        else if e.toNat == 125 then some es
        else none
      | [] => none) = some rest := by
  have w1 : skip_ws ('}' :: rest) = '}' :: rest := skip_ws_cons _ _ (by decide)
  have q1 : ('}'.toNat == 44) = false := by decide
  have q2 : ('}'.toNat == 125) = true := by decide
  simp only [w1, q1, q2, if_true, Bool.false_eq_true, if_false]

theorem elements_step (f : Nat) (v r : List Char) (hv : json_value f v = some r) :
    json_elements (f + 1) v =
      match skip_ws r with
      | e :: es =>
        if e.toNat == 44 then json_elements f (skip_ws es)
        else if e.toNat == 93 then some es
        else none
      | [] => none := by
  simp only [json_elements, hv]

theorem elements_more (f : Nat) (d : Char) (ds : List Char) (hw : json_ws d = false) :
    (match skip_ws (',' :: d :: ds) with
      | e :: es =>
        if e.toNat == 44 then json_elements f (skip_ws es)
        else if e.toNat == 93 then some es
        else none
      | [] => none) = json_elements f (d :: ds) := by
  have w1 : skip_ws (',' :: d :: ds) = ',' :: d :: ds := skip_ws_cons _ _ (by decide)
  have w2 : skip_ws (d :: ds) = d :: ds := skip_ws_cons _ _ hw
  have q1 : (','.toNat == 44) = true := by decide
  simp only [w1, w2, q1, if_true]

theorem elements_close (f : Nat) (rest : List Char) :
    (match skip_ws (']' :: rest) with
      | e :: es =>
        if e.toNat == 44 then json_elements f (skip_ws es)
        else if e.toNat == 93 then some es
        else none
      | [] => none) = some rest := by
  have w1 : skip_ws (']' :: rest) = ']' :: rest := skip_ws_cons _ _ (by decide)
  have q1 : (']'.toNat == 44) = false := by decide
  have q2 : (']'.toNat == 93) = true := by decide
  simp only [w1, q1, q2, if_true, Bool.false_eq_true, if_false]

theorem members_render_cons (b : Bool) (name : List Char) (n : Node) (ms : Members)
    (rest : List Char) :
    (Members.cons name n ms).render b ++ rest
      = separator b ++ (member_name name ++ (n.render ++ (ms.render true ++ rest))) := by
  simp only [Members.render, List.append_assoc]

theorem elements_render_cons (b : Bool) (n : Node) (es : Elements) (rest : List Char) :
    (Elements.cons n es).render b ++ rest
      = separator b ++ (n.render ++ (es.render true ++ rest)) := by
  simp only [Elements.render, List.append_assoc]

mutual
theorem value_render : ∀ (n : Node) (f : Nat) (rest : List Char), n.plain = true →
    n.size ≤ f → json_value f (n.render ++ rest) = some rest
  | .obj ms, f, rest, hp, hf => by
    obtain ⟨f, rfl⟩ : ∃ j, f = j + 1 := ⟨f - 1, by simp only [Node.size] at hf; omega⟩
    have h := members_render ms f rest (by simpa [Node.plain] using hp)
      (by simp only [Node.size] at hf; omega)
    cases ms with
    | nil => exact value_empty_object f rest
    | cons name n ms =>
      have hp1 : (c_str name).all plain_char = true := by
        simp only [Node.plain, Members.plain, Bool.and_eq_true] at hp; exact hp.1.1
      obtain ⟨cs, hcs, -⟩ := member_name_tail name
        (n.render ++ (ms.render true ++ '}' :: rest)) hp1
      have hr : (Members.cons name n ms).render false ++ '}' :: rest = '"' :: cs := by
        rw [members_render_cons, ← hcs]; rfl
      have e : Node.render (.obj (.cons name n ms)) ++ rest
          = '{' :: ((Members.cons name n ms).render false ++ '}' :: rest) := by
        simp only [Node.render, List.cons_append, List.append_assoc, List.singleton_append,
          List.nil_append]
      have h' := h (by simp)
      rw [hr] at h' e
      rw [e, value_object]
      exact h'
  | .arr es, f, rest, hp, hf => by
    obtain ⟨f, rfl⟩ : ∃ j, f = j + 1 := ⟨f - 1, by simp only [Node.size] at hf; omega⟩
    have h := elements_render es f rest (by simpa [Node.plain] using hp)
      (by simp only [Node.size] at hf; omega)
    cases es with
    | nil => exact value_empty_array f rest
    | cons n es =>
      obtain ⟨c, cs, hcs, hws, hne⟩ := render_head n (es.render true ++ ']' :: rest)
      have hr : (Elements.cons n es).render false ++ ']' :: rest = c :: cs := by
        rw [elements_render_cons, ← hcs]; rfl
      have e : Node.render (.arr (.cons n es)) ++ rest
          = '[' :: ((Elements.cons n es).render false ++ ']' :: rest) := by
        simp only [Node.render, List.cons_append, List.append_assoc, List.singleton_append,
          List.nil_append]
      have h' := h (by simp)
      rw [hr] at h' e
      rw [e, value_array f c cs hws hne]
      exact h'
theorem members_render : ∀ (ms : Members) (f : Nat) (rest : List Char), ms.plain = true →
    ms.size ≤ f → ms ≠ .nil → json_members f (ms.render false ++ '}' :: rest) = some rest
  | .nil, _, _, _, _, hne => absurd rfl hne
  | .cons name n ms, f, rest, hp, hf, _ => by
    obtain ⟨f, rfl⟩ : ∃ j, f = j + 1 := ⟨f - 1, by simp only [Members.size] at hf; omega⟩
    simp only [Members.plain, Bool.and_eq_true] at hp
    have hm := members_render ms f rest hp.2 (by simp only [Members.size] at hf; omega)
    have hval := fun r => value_render n f r hp.1.2 (by simp only [Members.size] at hf; omega)
    cases ms with
    | nil =>
      have hv := hval ('}' :: rest)
      obtain ⟨cs, hcs, hst⟩ := member_name_tail name (n.render ++ '}' :: rest) hp.1.1
      obtain ⟨c, cs', hcs', hws, -⟩ := render_head n ('}' :: rest)
      have hr : (Members.cons name n .nil).render false ++ '}' :: rest = '"' :: cs := by
        rw [members_render_cons, ← hcs]; rfl
      rw [hcs'] at hv hst
      rw [hr, members_step f cs cs' _ c hst hws hv, members_close]
    | cons name' n' ms =>
      simp only [Members.plain, Bool.and_eq_true] at hp
      obtain ⟨ds, hds, -⟩ := member_name_tail name'
        (n'.render ++ (ms.render true ++ '}' :: rest)) hp.2.1.1
      have hnext : (Members.cons name' n' ms).render false ++ '}' :: rest = '"' :: ds := by
        rw [members_render_cons, ← hds]; rfl
      have hnext' : (Members.cons name' n' ms).render true ++ '}' :: rest
          = ',' :: '"' :: ds := by
        rw [members_render_cons, ← hds]; rfl
      have hv := hval (',' :: '"' :: ds)
      obtain ⟨cs, hcs, hst⟩ := member_name_tail name (n.render ++ ',' :: '"' :: ds) hp.1.1
      obtain ⟨c, cs', hcs', hws, -⟩ := render_head n (',' :: '"' :: ds)
      have hr : (Members.cons name n (.cons name' n' ms)).render false ++ '}' :: rest
          = '"' :: cs := by
        rw [members_render_cons, hnext', ← hcs]; rfl
      have hm' := hm (by simp)
      rw [hnext] at hm'
      rw [hcs'] at hv hst
      rw [hr, members_step f cs cs' _ c hst hws hv, members_more]
      exact hm'
theorem elements_render : ∀ (es : Elements) (f : Nat) (rest : List Char), es.plain = true →
    es.size ≤ f → es ≠ .nil → json_elements f (es.render false ++ ']' :: rest) = some rest
  | .nil, _, _, _, _, hne => absurd rfl hne
  | .cons n es, f, rest, hp, hf, _ => by
    obtain ⟨f, rfl⟩ : ∃ j, f = j + 1 := ⟨f - 1, by simp only [Elements.size] at hf; omega⟩
    simp only [Elements.plain, Bool.and_eq_true] at hp
    have hm := elements_render es f rest hp.2 (by simp only [Elements.size] at hf; omega)
    have hval := fun r => value_render n f r hp.1 (by simp only [Elements.size] at hf; omega)
    cases es with
    | nil =>
      have hv := hval (']' :: rest)
      have hr : (Elements.cons n .nil).render false ++ ']' :: rest
          = n.render ++ ']' :: rest := by
        rw [elements_render_cons]; rfl
      rw [hr, elements_step f _ _ hv, elements_close]
    | cons n' es =>
      obtain ⟨d, ds, hds, hdw, -⟩ := render_head n' (es.render true ++ ']' :: rest)
      have hnext : (Elements.cons n' es).render false ++ ']' :: rest = d :: ds := by
        rw [elements_render_cons, ← hds]; rfl
      have hnext' : (Elements.cons n' es).render true ++ ']' :: rest = ',' :: d :: ds := by
        rw [elements_render_cons, ← hds]; rfl
      have hv := hval (',' :: d :: ds)
      have hr : (Elements.cons n (.cons n' es)).render false ++ ']' :: rest
          = n.render ++ ',' :: d :: ds := by
        rw [elements_render_cons, hnext']; rfl
      have hm' := hm (by simp)
      rw [hnext] at hm'
      rw [hr, elements_step f _ _ hv, elements_more f d ds hdw]
      exact hm'
end

mutual
theorem node_size_le : ∀ n : Node, n.size + 1 ≤ n.render.length
  | .obj ms => by
    have := members_size_le ms false
    simp only [Node.size, Node.render, List.length_cons, List.length_append,
      List.length_singleton, List.length_nil]
    omega
  | .arr es => by
    have := elements_size_le es false
    simp only [Node.size, Node.render, List.length_cons, List.length_append,
      List.length_singleton, List.length_nil]
    omega
theorem members_size_le : ∀ (ms : Members) (b : Bool), ms.size ≤ (ms.render b).length
  | .nil, _ => Nat.zero_le _
  | .cons name n ms, b => by
    have h1 := node_size_le n
    have h2 := members_size_le ms true
    simp only [Members.size, Members.render, List.length_append]
    omega
theorem elements_size_le : ∀ (es : Elements) (b : Bool), es.size ≤ (es.render b).length
  | .nil, _ => Nat.zero_le _
  | .cons n es, b => by
    have h1 := node_size_le n
    have h2 := elements_size_le es true
    simp only [Elements.size, Elements.render, List.length_append]
    omega
end

theorem render_is_json (n : Node) (hp : n.plain = true) : is_json n.render = true := by
  obtain ⟨c, cs, hcs, hws, -⟩ := render_head n []
  rw [List.append_nil] at hcs
  have hv := value_render n (n.render.length + 1) [] hp (by have := node_size_le n; omega)
  rw [List.append_nil] at hv
  have hsk : skip_ws n.render = n.render := by rw [hcs]; exact skip_ws_cons _ _ hws
  simp only [is_json, hsk, hv]
  rfl

mutual
theorem node_in_range : ∀ (n : Node) (name : Option (List Char)),
    ∀ op ∈ n.calls name, op.in_range
  | .obj ms, name, op, h => by
    have ih := members_in_range ms op
    cases name <;>
      simp only [Node.calls, List.mem_cons, List.mem_append, List.mem_singleton,
        List.not_mem_nil, or_false] at h <;>
      rcases h with rfl | h | rfl <;> first | trivial | exact ih h
  | .arr es, name, op, h => by
    have ih := elements_in_range es op
    cases name <;>
      simp only [Node.calls, List.mem_cons, List.mem_append, List.mem_singleton,
        List.not_mem_nil, or_false] at h <;>
      rcases h with rfl | h | rfl <;> first | trivial | exact ih h
theorem members_in_range : ∀ (ms : Members), ∀ op ∈ ms.calls, op.in_range
  | .nil, _, h => by simp [Members.calls] at h
  | .cons name n ms, op, h => by
    simp only [Members.calls, List.mem_append] at h
    rcases h with h | h
    · exact node_in_range n (some name) op h
    · exact members_in_range ms op h
theorem elements_in_range : ∀ (es : Elements), ∀ op ∈ es.calls, op.in_range
  | .nil, _, h => by simp [Elements.calls] at h
  | .cons n es, op, h => by
    simp only [Elements.calls, List.mem_append] at h
    rcases h with h | h
    · exact node_in_range n none op h
    · exact elements_in_range es op h
end

/-- C8, as amended: the structural calls that build one container — `start_*`/`end_*` for the
root and for each element of an array, `push_*`/`pop_*` for each member of an object, every
container closed by the call that matches its opener, every member name made of printable
characters other than `"` and the backslash — form a balanced series, and with a buffer of
capacity at least 2 and the accumulating callback the chunks flushed up to and including the
one of `json_str_end`, put together, are syntactically valid JSON text. -/
theorem container_calls_json (m0 : Machine (List Char)) (buf priv : Nat) (t : Node)
    (fuel : Nat) (hcap : 2 ≤ m0.mem.length) (hp : t.plain = true)
    (hf : (document false (t.calls none)).length < fuel) :
    balanced (t.calls none) = true ∧
    ∃ m1 m2 text,
      run fuel (json_str_start m0 buf m0.mem.length (some accumulate) priv) (t.calls none)
        = .ok (List.replicate (t.calls none).length 0, m1) ∧
      json_str_end m1 = .ok m2 ∧
      m2.world = m0.world ++ text ∧
      is_json text = true := by
  constructor
  · have h := node_balanced t none [] []
    rw [List.append_nil] at h
    exact h
  · obtain ⟨m1, m2, hrun, hend, hw⟩ :=
      accumulate_run m0 buf priv (t.calls none) fuel hcap (node_in_range t none) hf
    refine ⟨m1, m2, _, hrun, hend, hw, ?_⟩
    rw [node_document t none false]
    exact render_is_json t hp

theorem container_calls_json_witness :
    balanced ((Node.obj (.cons ['a'] (.arr (.cons (.obj .nil) (.cons (.arr .nil) .nil)))
        (.cons ['b', ' ', 'c'] (.obj .nil) .nil))).calls none) = true ∧
    ∃ m1 m2 text,
      run 40 (json_str_start (⟨json_str_zero _, ['x', 'x', 'x'], []⟩ : Machine (List Char))
          64 ((['x', 'x', 'x'] : List Char).length : Int) (some accumulate) 0)
        ((Node.obj (.cons ['a'] (.arr (.cons (.obj .nil) (.cons (.arr .nil) .nil)))
          (.cons ['b', ' ', 'c'] (.obj .nil) .nil))).calls none)
        = .ok (List.replicate ((Node.obj (.cons ['a']
            (.arr (.cons (.obj .nil) (.cons (.arr .nil) .nil)))
            (.cons ['b', ' ', 'c'] (.obj .nil) .nil))).calls none).length 0, m1) ∧
      json_str_end m1 = .ok m2 ∧
      m2.world = [] ++ text ∧
      is_json text = true :=
  container_calls_json ⟨json_str_zero _, ['x', 'x', 'x'], []⟩ 64 0
    (.obj (.cons ['a'] (.arr (.cons (.obj .nil) (.cons (.arr .nil) .nil)))
      (.cons ['b', ' ', 'c'] (.obj .nil) .nil))) 40 (by decide) (by decide) (by decide)

/-- C8, as stated, fails: each of these series of structural calls is balanced, runs to its
end with every call returning 0, and leaves in the accumulator a text that is not valid JSON:
an array opened by `start_array` inside an object (`{[]}`), two containers one after the other
(`{},{}`), a `push_object`/`pop_object` pair alone (`"a":{}`), and a member whose name holds a
quote (`{"a"b":{}}`). -/
theorem balanced_calls_not_json :
    (balanced [.start_object, .start_array, .end_array, .end_object] = true ∧
      session 9 4 [.start_object, .start_array, .end_array, .end_object]
        = .ok ([0, 0, 0, 0], ['{', '[', ']', '}']) ∧
      is_json ['{', '[', ']', '}'] = false) ∧
    (balanced [.start_object, .end_object, .start_object, .end_object] = true ∧
      session 9 4 [.start_object, .end_object, .start_object, .end_object]
        = .ok ([0, 0, 0, 0], ['{', '}', ',', '{', '}']) ∧
      is_json ['{', '}', ',', '{', '}'] = false) ∧
    (balanced [.push_object ['a'], .pop_object] = true ∧
      session 9 4 [.push_object ['a'], .pop_object]
        = .ok ([0, 0], ['"', 'a', '"', ':', '{', '}']) ∧
      is_json ['"', 'a', '"', ':', '{', '}'] = false) ∧
    (balanced [.start_object, .push_object ['a', '"', 'b'], .pop_object, .end_object] = true ∧
      session 9 4 [.start_object, .push_object ['a', '"', 'b'], .pop_object, .end_object]
        = .ok ([0, 0, 0, 0], ['{', '"', 'a', '"', 'b', '"', ':', '{', '}', '}']) ∧
      is_json ['{', '"', 'a', '"', 'b', '"', ':', '{', '}', '}'] = false) :=
  ⟨⟨by decide, rfl, by decide⟩, ⟨by decide, rfl, by decide⟩, ⟨by decide, rfl, by decide⟩,
    ⟨by decide, rfl, by decide⟩⟩

theorem start_after_name (fuel : Nat) (m : Machine W) :
    json_start_object fuel (set_comma_req m false)
        = json_add_to_str fuel (set_comma_req m false) ['{'] ∧
      json_start_array fuel (set_comma_req m false)
        = json_add_to_str fuel (set_comma_req m false) ['['] := by
  constructor <;> rfl

/-- C11: from every state with enough room, `json_push_object(name)` emits the separator if
one is owed, then the name between quotes copied as it is, then `:{`, and `json_push_array`
the same with `:[`; both leave `comma_req` false.  A push is the separator and the name
followed by the `start_*` call made in a state where no separator is owed. -/
theorem push_emits_name_and_opener (m : Machine (List Char)) (name : List Char) (fuel : Nat)
    (hI : Inv m) (hC : Clean m)
    (hcb : m.jstr.flush_cb = none ∨ m.jstr.flush_cb = some accumulate)
    (hc : CanEmit fuel m
      (separator m.jstr.comma_req ++ ['"'] ++ c_str name ++ ['"', ':', '{']).length) :
    (∃ m1, json_push_object fuel m name = .ok (0, m1) ∧
      output m1 = output m ++
        (separator m.jstr.comma_req ++ ['"'] ++ c_str name ++ ['"', ':', '{']) ∧
      m1.jstr.comma_req = false) ∧
    (∃ m2, json_push_array fuel m name = .ok (0, m2) ∧
      output m2 = output m ++
        (separator m.jstr.comma_req ++ ['"'] ++ c_str name ++ ['"', ':', '[']) ∧
      m2.jstr.comma_req = false) ∧
    json_push_object fuel m name =
      (json_handle_comma fuel m >>= fun m1 => json_handle_name fuel m1 name >>= fun r =>
        json_start_object fuel (set_comma_req r.2 false)) ∧
    json_push_array fuel m name =
      (json_handle_comma fuel m >>= fun m1 => json_handle_name fuel m1 name >>= fun r =>
        json_start_array fuel (set_comma_req r.2 false)) := by
  have hto : (Op.push_object name).text m.jstr.comma_req
      = separator m.jstr.comma_req ++ ['"'] ++ c_str name ++ ['"', ':', '{'] := by
    simp [Op.text, Op.token, Op.closes, member_name]
  have hta : (Op.push_array name).text m.jstr.comma_req
      = separator m.jstr.comma_req ++ ['"'] ++ c_str name ++ ['"', ':', '['] := by
    simp [Op.text, Op.token, Op.closes, member_name]
  have hco : CanEmit fuel m (((Op.push_object name).text m.jstr.comma_req).length + 0) := by
    rw [hto]; exact hc
  have hca : CanEmit fuel m (((Op.push_array name).text m.jstr.comma_req).length + 0) := by
    rw [hta]
    have e : (separator m.jstr.comma_req ++ ['"'] ++ c_str name ++ ['"', ':', '[']).length
        = (separator m.jstr.comma_req ++ ['"'] ++ c_str name ++ ['"', ':', '{']).length := by
      simp
    rw [Nat.add_zero, e]; exact hc
  obtain ⟨m1, hr1, ho1, hq1, _⟩ :=
    exec_output (.push_object name) 0 hI hC hcb trivial hco
  obtain ⟨m2, hr2, ho2, hq2, _⟩ :=
    exec_output (.push_array name) 0 hI hC hcb trivial hca
  refine ⟨⟨m1, hr1, by rw [ho1, hto], hq1⟩, ⟨m2, hr2, by rw [ho2, hta], hq2⟩, ?_, ?_⟩
  · simp only [json_push_object, (start_after_name fuel _).1, bind_assoc]
  · simp only [json_push_array, (start_after_name fuel _).2, bind_assoc]

theorem push_emits_name_and_opener_witness :
    (∃ m1, json_push_object 9
        (⟨⟨64, 3, some accumulate, 0, true, 65⟩, ['{', 'x', 'x'], []⟩ : Machine _)
        ['a', '"', 'b'] = .ok (0, m1) ∧
      output m1
        = output (⟨⟨64, 3, some accumulate, 0, true, 65⟩, ['{', 'x', 'x'], []⟩ : Machine _)
          ++ (separator true ++ ['"'] ++ c_str ['a', '"', 'b'] ++ ['"', ':', '{']) ∧
      m1.jstr.comma_req = false) ∧
    (∃ m2, json_push_array 9
        (⟨⟨64, 3, some accumulate, 0, true, 65⟩, ['{', 'x', 'x'], []⟩ : Machine _)
        ['a', '"', 'b'] = .ok (0, m2) ∧
      output m2
        = output (⟨⟨64, 3, some accumulate, 0, true, 65⟩, ['{', 'x', 'x'], []⟩ : Machine _)
          ++ (separator true ++ ['"'] ++ c_str ['a', '"', 'b'] ++ ['"', ':', '[']) ∧
      m2.jstr.comma_req = false) ∧
    json_push_object 9
        (⟨⟨64, 3, some accumulate, 0, true, 65⟩, ['{', 'x', 'x'], []⟩ : Machine _)
        ['a', '"', 'b'] =
      (json_handle_comma 9
          (⟨⟨64, 3, some accumulate, 0, true, 65⟩, ['{', 'x', 'x'], []⟩ : Machine _)
        >>= fun m1 => json_handle_name 9 m1 ['a', '"', 'b'] >>= fun r =>
          json_start_object 9 (set_comma_req r.2 false)) ∧
    json_push_array 9
        (⟨⟨64, 3, some accumulate, 0, true, 65⟩, ['{', 'x', 'x'], []⟩ : Machine _)
        ['a', '"', 'b'] =
      (json_handle_comma 9
          (⟨⟨64, 3, some accumulate, 0, true, 65⟩, ['{', 'x', 'x'], []⟩ : Machine _)
        >>= fun m1 => json_handle_name 9 m1 ['a', '"', 'b'] >>= fun r =>
          json_start_array 9 (set_comma_req r.2 false)) :=
  push_emits_name_and_opener ⟨⟨64, 3, some accumulate, 0, true, 65⟩, ['{', 'x', 'x'], []⟩
    ['a', '"', 'b'] 9 (by decide) (by decide) (Or.inr rfl)
    ⟨by decide, Or.inl ⟨by simp, by decide, by decide⟩⟩

theorem exec_kept {fuel : Nat} {m : Machine W} (op : Op) (hI : Inv m)
    (hcap : m.jstr.flush_cb ≠ none → 2 ≤ m.jstr.buf_size)
    (hf : (op.code_text m.jstr.comma_req).length < fuel) :
    ∃ r m', exec fuel m op = .ok (r, m') ∧ Inv m' ∧ (Clean m → Clean m') ∧
      m'.jstr.buf = m.jstr.buf ∧ m'.jstr.buf_size = m.jstr.buf_size ∧
      m'.jstr.flush_cb = m.jstr.flush_cb ∧ m'.jstr.priv = m.jstr.priv := by
  cases hcb : m.jstr.flush_cb with
  | none =>
    have hpos : 0 < fuel := by omega
    obtain ⟨r, m', hrun, hS, _⟩ := exec_stored op hI hcb hpos
    exact ⟨r, m', hrun, hS.inv, fun hC => hS.clean hC (code_text_clean _ op), hS.buf_eq,
      hS.size_eq, hS.cb_eq.trans hcb, hS.priv_eq⟩
  | some f =>
    have hne : m.jstr.flush_cb ≠ none := by rw [hcb]; simp
    obtain ⟨m', _, hrun, hE, _⟩ := exec_emits op 0 hI (can_emit_cb hI hne (hcap hne) hf)
    exact ⟨0, m', hrun, hE.inv, hE.clean, hE.buf_eq, hE.size_eq, hE.cb_eq.trans hcb,
      hE.priv_eq⟩

theorem run_kept {fuel : Nat} : ∀ (ops : List Op) (m : Machine W), Inv m →
    (m.jstr.flush_cb ≠ none → 2 ≤ m.jstr.buf_size) →
    (∀ op ∈ ops, ∀ b, (op.code_text b).length < fuel) →
    ∃ rs m', run fuel m ops = .ok (rs, m') ∧ Inv m' ∧ (Clean m → Clean m') ∧
      m'.jstr.buf = m.jstr.buf ∧ m'.jstr.buf_size = m.jstr.buf_size ∧
      m'.jstr.flush_cb = m.jstr.flush_cb ∧ m'.jstr.priv = m.jstr.priv := by
  intro ops
  induction ops with
  | nil => intro m hI _ _; exact ⟨[], m, rfl, hI, fun h => h, rfl, rfl, rfl, rfl⟩
  | cons op ops ih =>
    intro m hI hcap hf
    obtain ⟨r, m1, hr1, hI1, hC1, e1, e2, e3, e4⟩ :=
      exec_kept op hI hcap (hf op (List.mem_cons_self _ _) _)
    obtain ⟨rs, m2, hr2, hI2, hC2, g1, g2, g3, g4⟩ := ih m1 hI1
      (by rw [e3, e2]; exact hcap) (fun o ho => hf o (List.mem_cons_of_mem _ ho))
    refine ⟨r :: rs, m2, ?_, hI2, fun h => hC2 (hC1 h), g1.trans e1, g2.trans e2,
      g3.trans e3, g4.trans e4⟩
    simp only [run, hr1]
    show (run fuel m1 ops >>= fun rs => pure (r :: rs.1, rs.2)) = _
    rw [hr2]
    rfl

/-- C12: `json_str_end`, called after `json_str_start` and any series of public calls, hands
the callback, if there is one, the bytes `buffer[0..cursor)` appended since the last flush
(possibly none) together with the private pointer given to `json_str_start`, in one
invocation; without a callback the state behind it stays as it was; in both cases every field
of the writer is cleared. -/
theorem end_flushes_rest_and_clears (m0 : Machine W) (buf priv : Nat)
    (cb : Option (json_flush_cb_t W)) (ops : List Op) (fuel : Nat)
    (hcap1 : 1 ≤ m0.mem.length) (hcap2 : cb ≠ none → 2 ≤ m0.mem.length)
    (hf : ∀ op ∈ ops, ∀ b, (op.code_text b).length < fuel) :
    ∃ rs m1 m2,
      run fuel (json_str_start m0 buf m0.mem.length cb priv) ops = .ok (rs, m1) ∧
      json_str_end m1 = .ok m2 ∧
      m2.world = (match cb with
        | some f => f (m1.mem.take (cursor m1.jstr).toNat) priv m1.world
        | none => m1.world) ∧
      (cursor m1.jstr).toNat < m0.mem.length ∧
      m2.jstr.buf = 0 ∧ m2.jstr.free_ptr = 0 ∧ m2.jstr.buf_size = 0 ∧
      m2.jstr.comma_req = false ∧ m2.jstr.flush_cb = none ∧ m2.jstr.priv = 0 := by
  obtain ⟨hI, hC, _⟩ := start_inv m0 buf priv cb hcap1
  obtain ⟨rs, m1, hrun, hI1, hC1, _, e2, e3, e4⟩ := run_kept ops _ hI
    (fun h => by
      have := hcap2 h
      show (2 : Int) ≤ (m0.mem.length : Int)
      omega) hf
  have hend := json_str_end_eq hI1 (hC1 hC)
  have hcell : cell m1 m1.jstr.free_ptr = (cursor m1.jstr).toNat := by
    obtain ⟨h1, h2, h3⟩ := hI1
    simp only [cursor, cell] at h2 h3 ⊢
    omega
  have hlt : (cursor m1.jstr).toNat < m0.mem.length := by
    obtain ⟨h1, h2, h3⟩ := hI1
    have e2' : m1.jstr.buf_size = (m0.mem.length : Int) := e2
    omega
  refine ⟨rs, m1, _, hrun, hend, ?_, hlt, rfl, rfl, rfl, rfl, rfl, rfl⟩
  have e3' : m1.jstr.flush_cb = cb := e3
  have e4' : m1.jstr.priv = priv := e4
  show deliver m1.jstr.flush_cb m1.jstr.priv [written m1] m1.world = _
  rw [e3', e4', written, hcell]
  cases cb <;> rfl

theorem end_flushes_rest_and_clears_witness :
    ∃ rs m1 m2,
      run 9 (json_str_start (⟨json_str_zero _, ['x', 'x', 'x', 'x'], ['o', 'l', 'd']⟩ :
          Machine (List Char)) 64 ((['x', 'x', 'x', 'x'] : List Char).length : Int)
          (some accumulate) 7) [.start_array, .arr_set_int 12345, .end_array] = .ok (rs, m1) ∧
      json_str_end m1 = .ok m2 ∧
      m2.world = (match some accumulate with
        | some f => f (m1.mem.take (cursor m1.jstr).toNat) 7 m1.world
        | none => m1.world) ∧
      (cursor m1.jstr).toNat < (['x', 'x', 'x', 'x'] : List Char).length ∧
      m2.jstr.buf = 0 ∧ m2.jstr.free_ptr = 0 ∧ m2.jstr.buf_size = 0 ∧
      m2.jstr.comma_req = false ∧ m2.jstr.flush_cb = none ∧ m2.jstr.priv = 0 :=
  end_flushes_rest_and_clears ⟨json_str_zero _, ['x', 'x', 'x', 'x'], ['o', 'l', 'd']⟩ 64 7
    (some accumulate) [.start_array, .arr_set_int 12345, .end_array] 9 (by decide)
    (fun _ => by decide) (by decide)

theorem exec_flat_inv {fuel : Nat} {m m' : Machine W} {op : Op} {r : Int}
    (h : exec fuel m op = .ok (r, m')) :
    ∃ m1 m2, add_all fuel m (op.init m.jstr.comma_req) = .ok m1 ∧
      json_add_to_str fuel m1 op.last = .ok (r, m2) ∧ m' = set_comma_req m2 op.comma_after := by
  rw [exec_eq_flat] at h
  simp only [exec_flat] at h
  cases h1 : add_all fuel m (op.init m.jstr.comma_req) with
  | error e => rw [h1] at h; cases h
  | ok m1 =>
    rw [h1] at h
    cases h2 : json_add_to_str fuel m1 op.last with
    | error e =>
      have h' : (json_add_to_str fuel m1 op.last >>= fun r =>
        (pure (r.1, set_comma_req r.2 op.comma_after) : Except Fault (Int × Machine W)))
          = .ok (r, m') := h
      rw [h2] at h'; cases h'
    | ok p =>
      obtain ⟨r', m2⟩ := p
      have h' : (json_add_to_str fuel m1 op.last >>= fun r =>
        (pure (r.1, set_comma_req r.2 op.comma_after) : Except Fault (Int × Machine W)))
          = .ok (r, m') := h
      rw [h2] at h'
      have h'' : (Except.ok (r', set_comma_req m2 op.comma_after) :
          Except Fault (Int × Machine W)) = .ok (r, m') := h'
      injection h'' with h''
      injection h'' with e1 e2
      exact ⟨m1, m2, rfl, by rw [← e1]; exact h2, e2.symm⟩

theorem add_no_cb {fuel : Nat} {m : Machine W} (s : List Char) (hI : Inv m)
    (hcb : m.jstr.flush_cb = none) (hf : 0 < fuel) :
    json_add_to_str fuel m s =
      if (c_str s).length ≤ room m then .ok (0, put m (c_str s))
      else .ok (-1, fill m (c_str s)) := by
  obtain ⟨fuel, rfl⟩ : ∃ k, fuel = k + 1 := ⟨fuel - 1, by omega⟩
  exact loop_no_cb fuel hI rfl hcb

theorem put_nil {m : Machine W} : put m [] = m := by
  simp [put, written]

theorem fill_at_end {m : Machine W} (s : List Char) (h : room m = 0) : fill m s = capped m := by
  simp [fill, capped, h]

theorem capped_spec {m : Machine W} (h : AtEnd m) :
    AtEnd (capped m) ∧ written (capped m) = written m ∧ capped (capped m) = capped m := by
  obtain ⟨hI, hcb, hr⟩ := h
  obtain ⟨hw1, hw2, hw3⟩ := written_length hI
  have hw : written (capped m) = written m := by
    show (written m ++ [NUL]).take (cell m m.jstr.free_ptr) = written m
    rw [← hw1, List.take_left' rfl]
  have hl : (capped m).mem.length = m.mem.length := by
    show (written m ++ [NUL]).length = m.mem.length
    simp only [room] at hr
    simp only [List.length_append, hw1, List.length_singleton]; omega
  have hroom : room (capped m) = 0 := by
    show (capped m).mem.length - 1 - cell m m.jstr.free_ptr = 0
    rw [hl]; exact hr
  refine ⟨⟨⟨?_, hI.2.1, hI.2.2⟩, hcb, hroom⟩, hw, ?_⟩
  · show ((capped m).mem.length : Int) = m.jstr.buf_size
    rw [hl]; exact hI.1
  · show ({ capped m with mem := written (capped m) ++ [NUL] } : Machine W) = capped m
    rw [hw]
    rfl

theorem add_at_end {fuel : Nat} {m : Machine W} (s : List Char) (h : AtEnd m)
    (hf : 0 < fuel) :
    json_add_to_str fuel m s =
      if c_str s = [] then .ok (0, m) else .ok (-1, capped m) := by
  obtain ⟨hI, hcb, hr⟩ := h
  rw [add_no_cb s hI hcb hf, hr]
  by_cases hs : c_str s = []
  · rw [hs]; simp [put_nil]
  · have : ¬ (c_str s).length ≤ 0 := by
      intro hle
      exact hs (List.length_eq_zero.mp (Nat.le_zero.mp hle))
    rw [if_neg this, if_neg hs, fill_at_end _ hr]

theorem add_all_at_end {fuel : Nat} (hf : 0 < fuel) : ∀ (ps : List (List Char))
    (m : Machine W), AtEnd m → ∃ m1, add_all fuel m ps = .ok m1 ∧ (m1 = m ∨ m1 = capped m) := by
  intro ps
  induction ps with
  | nil => intro m _; exact ⟨m, rfl, Or.inl rfl⟩
  | cons p ps ih =>
    intro m h
    simp only [add_all, add_at_end p h hf]
    by_cases hp : c_str p = []
    · rw [if_pos hp]
      exact ih m h
    · rw [if_neg hp]
      obtain ⟨m1, hr, hm⟩ := ih (capped m) (capped_spec h).1
      refine ⟨m1, hr, Or.inr ?_⟩
      rcases hm with hm | hm
      · exact hm
      · rw [hm, (capped_spec h).2.2]

theorem exec_at_end {fuel : Nat} {m : Machine W} (op : Op) (h : AtEnd m) (hf : 0 < fuel)
    (hd : op.rendered) :
    exec fuel m op = .ok (-1, set_comma_req (capped m) op.comma_after) := by
  obtain ⟨m1, hr1, hm1⟩ := add_all_at_end hf (op.init m.jstr.comma_req) m h
  have h1 : AtEnd m1 ∧ capped m1 = capped m := by
    rcases hm1 with rfl | rfl
    · exact ⟨h, rfl⟩
    · exact ⟨(capped_spec h).1, (capped_spec h).2.2⟩
  have hl := add_at_end op.last h1.1 hf
  rw [if_neg (last_ne_nil op hd), h1.2] at hl
  rw [exec_eq_flat]
  simp only [exec_flat, hr1]
  show (json_add_to_str fuel m1 op.last >>= fun r =>
    pure (r.1, set_comma_req r.2 op.comma_after)) = _
  rw [hl]
  rfl

theorem at_end_set {m : Machine W} (b : Bool) (h : AtEnd m) : AtEnd (set_comma_req m b) := h

theorem run_at_end {fuel : Nat} (hf : 0 < fuel) : ∀ (ops : List Op) (m : Machine W),
    AtEnd m → (∀ op ∈ ops, op.rendered) →
    ∃ m', run fuel m ops = .ok (List.replicate ops.length (-1), m') ∧ AtEnd m' ∧
      (m'.mem = m.mem ∨ m'.mem = written m ++ [NUL]) ∧
      m'.jstr.free_ptr = m.jstr.free_ptr ∧ m'.jstr.buf = m.jstr.buf ∧
      m'.jstr.buf_size = m.jstr.buf_size ∧ m'.world = m.world ∧ written m' = written m := by
  intro ops
  induction ops with
  | nil => intro m h _; exact ⟨m, rfl, h, Or.inl rfl, rfl, rfl, rfl, rfl, rfl⟩
  | cons op ops ih =>
    intro m h hd
    have hr1 := exec_at_end op h hf (hd op (List.mem_cons_self _ _))
    obtain ⟨hs1, hs2, hs3⟩ := capped_spec h
    obtain ⟨m2, hr2, h2, hmem, e1, e2, e3, e4, e5⟩ :=
      ih (set_comma_req (capped m) op.comma_after) (at_end_set _ hs1)
        (fun o ho => hd o (List.mem_cons_of_mem _ ho))
    have hw' : written (set_comma_req (capped m) op.comma_after) = written m := hs2
    refine ⟨m2, ?_, h2, Or.inr ?_, e1, e2, e3, e4, e5.trans hw'⟩
    · simp only [run, hr1]
      show (run fuel (set_comma_req (capped m) op.comma_after) ops >>= fun rs =>
        pure ((-1 : Int) :: rs.1, rs.2)) = _
      rw [hr2]
      rfl
    · rcases hmem with hmem | hmem
      · rw [hmem]; rfl
      · rw [hmem, hw']

theorem fill_at_end_spec {m : Machine W} {s : List Char} (hI : Inv m)
    (hcb : m.jstr.flush_cb = none) (hbig : room m < s.length) :
    AtEnd (fill m s) ∧ (fill m s).mem = written (fill m s) ++ [NUL] := by
  obtain ⟨hfl, hfI, hfw⟩ := fill_spec hI hbig
  obtain ⟨hw1, hw2, hw3⟩ := written_length hI
  refine ⟨⟨hfI, hcb, ?_⟩, ?_⟩
  · show (fill m s).mem.length - 1 - (m.jstr.free_ptr + room m - m.jstr.buf) = 0
    obtain ⟨h1, h2, h3⟩ := hI
    simp only [cursor] at h2 h3
    simp only [cell] at hw2
    rw [hfl]
    omega
  · rw [hfw]; rfl

theorem exec_fail_at_end {fuel : Nat} {m m' : Machine W} {op : Op} (hI : Inv m)
    (hcb : m.jstr.flush_cb = none) (hf : 0 < fuel) (h : exec fuel m op = .ok (-1, m')) :
    AtEnd m' ∧ m'.mem = written m' ++ [NUL] := by
  obtain ⟨m1, m2, h1, h2, rfl⟩ := exec_flat_inv h
  obtain ⟨m1', h1', hS⟩ := add_all_stored hf (op.init m.jstr.comma_req) m hI hcb
  rw [h1] at h1'
  injection h1' with e
  subst e
  have hcb1 : m1.jstr.flush_cb = none := hS.cb_eq.trans hcb
  rw [add_no_cb op.last hS.inv hcb1 hf] at h2
  by_cases hfit : (c_str op.last).length ≤ room m1
  · rw [if_pos hfit] at h2
    injection h2 with h2
    injection h2 with h2 _
    cases h2
  · rw [if_neg hfit] at h2
    injection h2 with h2
    injection h2 with _ h2
    subst h2
    exact fill_at_end_spec hS.inv hcb1 (by omega)

/-- C13: no rollback on failure.  Without a callback, when a public call returns -1 from a
state with cursor `c`, the cursor is left at capacity - 1 and the buffer holds its former
bytes `[0..c)` followed by the first capacity - 1 - c bytes of the text of the call. -/
theorem failure_keeps_partial_copy (m m' : Machine W) (op : Op) (fuel : Nat) (hI : Inv m)
    (hcb : m.jstr.flush_cb = none) (hf : 0 < fuel) (hr : op.in_range)
    (hrun : exec fuel m op = .ok (-1, m')) :
    cursor m'.jstr = m.jstr.buf_size - 1 ∧
    m'.jstr.buf_size = m.jstr.buf_size ∧
    m'.mem.take (cursor m.jstr).toNat = m.mem.take (cursor m.jstr).toNat ∧
    m'.mem.take (cursor m'.jstr).toNat =
      m.mem.take (cursor m.jstr).toNat ++
        (op.text m.jstr.comma_req).take (m.jstr.buf_size - 1 - cursor m.jstr).toNat := by
  obtain ⟨⟨hI', _, hroom⟩, _⟩ := exec_fail_at_end hI hcb hf hrun
  obtain ⟨r'', m'', hrun', hS, _⟩ := exec_stored op hI hcb hf
  rw [hrun] at hrun'
  injection hrun' with e
  injection e with _ e
  subst e
  rw [code_text_eq _ _ hr] at hS
  obtain ⟨a1, a2, a3⟩ := written_length hI
  obtain ⟨b1, b2, b3⟩ := written_length hI'
  have hl := hS.length_eq
  have hsz := hS.size_eq
  have hc : cell m m.jstr.free_ptr = (cursor m.jstr).toNat := by
    obtain ⟨h1, h2, h3⟩ := hI
    simp only [cursor, cell] at h2 h3 ⊢
    omega
  have hc' : cell m' m'.jstr.free_ptr = (cursor m'.jstr).toNat := by
    obtain ⟨h1, h2, h3⟩ := hI'
    simp only [cursor, cell] at h2 h3 ⊢
    omega
  have hK : cell m' m'.jstr.free_ptr = m.mem.length - 1 := by omega
  have hfree : (m.jstr.buf_size - 1 - cursor m.jstr).toNat
      = m.mem.length - 1 - (written m).length := by
    obtain ⟨h1, h2, h3⟩ := hI
    simp only [cursor, cell] at h2 h3 a1 ⊢
    omega
  have ht := hS.text_eq
  rw [List.take_append_eq_append_take, List.take_of_length_le (by omega)] at ht
  have hcur : cursor m'.jstr = m.jstr.buf_size - 1 := by
    obtain ⟨h1, h2, h3⟩ := hI'
    obtain ⟨g1, g2, g3⟩ := hI
    simp only [cursor, cell] at h2 h3 hK ⊢
    omega
  refine ⟨hcur, hsz, ?_, ?_⟩
  · rw [← hc]
    have : m'.mem.take (cell m m.jstr.free_ptr)
        = (written m').take (cell m m.jstr.free_ptr) := by
      simp only [written, List.take_take]
      congr 1
      omega
    rw [this, ht, ← a1, List.take_left' rfl, a1]
    rfl
  · rw [← hc', ← hc, hfree]
    exact ht

theorem failure_keeps_partial_copy_witness :
    cursor (⟨64, 4, none, 0, true, 67⟩ : json_str_t Unit)
      = (⟨64, 4, none, 0, true, 65⟩ : json_str_t Unit).buf_size - 1 ∧
    (⟨64, 4, none, 0, true, 67⟩ : json_str_t Unit).buf_size
      = (⟨64, 4, none, 0, true, 65⟩ : json_str_t Unit).buf_size ∧
    ([ '{', ',', '"', NUL ] : List Char).take
        (cursor (⟨64, 4, none, 0, true, 65⟩ : json_str_t Unit)).toNat
      = ([ '{', 'x', 'y', 'z' ] : List Char).take
        (cursor (⟨64, 4, none, 0, true, 65⟩ : json_str_t Unit)).toNat ∧
    ([ '{', ',', '"', NUL ] : List Char).take
        (cursor (⟨64, 4, none, 0, true, 67⟩ : json_str_t Unit)).toNat
      = ([ '{', 'x', 'y', 'z' ] : List Char).take
          (cursor (⟨64, 4, none, 0, true, 65⟩ : json_str_t Unit)).toNat ++
        ((Op.obj_set_bool ['l', 'o', 'n', 'g'] true).text true).take
          ((4 : Int) - 1 - cursor (⟨64, 4, none, 0, true, 65⟩ : json_str_t Unit)).toNat :=
  failure_keeps_partial_copy
    (⟨⟨64, 4, none, 0, true, 65⟩, ['{', 'x', 'y', 'z'], ()⟩ : Machine Unit)
    (⟨⟨64, 4, none, 0, true, 67⟩, ['{', ',', '"', NUL], ()⟩ : Machine Unit)
    (.obj_set_bool ['l', 'o', 'n', 'g'] true) 1 (by decide) rfl (by decide) (by decide) rfl

/-- C14: on a writer started with capacity 1 and no flush callback, every public call of any
series, with any argument, returns -1, and no byte is emitted: the cursor stays at 0, no byte
lies before it, and the state behind the callback is untouched. -/
theorem capacity_one_always_fails (m0 : Machine W) (buf priv : Nat) (ops : List Op)
    (fuel : Nat) (hcap : m0.mem.length = 1) (hf : 0 < fuel) (hd : ∀ op ∈ ops, op.rendered) :
    ∃ m1, run fuel (json_str_start m0 buf m0.mem.length none priv) ops
        = .ok (List.replicate ops.length (-1), m1) ∧
      m1.jstr.buf_size = 1 ∧ cursor m1.jstr = 0 ∧ written m1 = [] ∧ m1.world = m0.world := by
  obtain ⟨hI, _, hw⟩ := start_inv m0 buf priv none (by omega)
  have hend : AtEnd (json_str_start m0 buf m0.mem.length none priv) := by
    refine ⟨hI, rfl, ?_⟩
    show m0.mem.length - 1 - (buf - buf) = 0
    omega
  obtain ⟨m1, hrun, _, _, e1, e2, e3, e4, e5⟩ := run_at_end hf ops _ hend hd
  refine ⟨m1, hrun, ?_, ?_, by rw [e5, hw], e4⟩
  · rw [e3]
    show (m0.mem.length : Int) = 1
    omega
  · have g1 : m1.jstr.free_ptr = buf := e1
    have g2 : m1.jstr.buf = buf := e2
    simp only [cursor, g1, g2]
    omega

theorem capacity_one_always_fails_witness :
    ∃ m1, run 3 (json_str_start (⟨json_str_zero _, ['x'], ()⟩ : Machine Unit) 64
          ((['x'] : List Char).length : Int) none 0)
          [.start_array, .arr_set_null, .arr_set_float ⟨['1', '.', '5']⟩, .end_array]
        = .ok (List.replicate 4 (-1), m1) ∧
      m1.jstr.buf_size = 1 ∧ cursor m1.jstr = 0 ∧ written m1 = [] ∧ m1.world = () :=
  capacity_one_always_fails ⟨json_str_zero _, ['x'], ()⟩ 64 0
    [.start_array, .arr_set_null, .arr_set_float ⟨['1', '.', '5']⟩, .end_array] 3
    (by decide) (by decide) (by decide)

/-- C20: failure is sticky.  Without a callback, once a public call has returned -1, every
later call, in any series, returns -1 as well and leaves the cursor, the whole buffer and the
state behind the callback as they were; of the writer only `comma_req` may change. -/
theorem failure_is_sticky (m m1 : Machine W) (first : Op) (later : List Op) (fuel : Nat)
    (hI : Inv m) (hcb : m.jstr.flush_cb = none) (hf : 0 < fuel)
    (hd : ∀ op ∈ later, op.rendered) (hfail : exec fuel m first = .ok (-1, m1)) :
    ∃ m2, run fuel m1 later = .ok (List.replicate later.length (-1), m2) ∧
      m2.mem = m1.mem ∧ cursor m2.jstr = cursor m1.jstr ∧
      m2.jstr.free_ptr = m1.jstr.free_ptr ∧ m2.jstr.buf = m1.jstr.buf ∧
      m2.jstr.buf_size = m1.jstr.buf_size ∧ m2.jstr.flush_cb = none ∧
      m2.world = m1.world := by
  obtain ⟨hend, hmem⟩ := exec_fail_at_end hI hcb hf hfail
  obtain ⟨m2, hrun, h2, hm, e1, e2, e3, e4, _⟩ := run_at_end hf later m1 hend hd
  refine ⟨m2, hrun, ?_, by simp only [cursor, e1, e2], e1, e2, e3, h2.2.1, e4⟩
  rcases hm with hm | hm
  · exact hm
  · rw [hm, ← hmem]

theorem failure_is_sticky_witness :
    ∃ m2, run 1 (⟨⟨64, 4, none, 0, true, 67⟩, ['{', ',', '"', NUL], ()⟩ : Machine Unit)
          [.arr_set_int 5, .end_object, .obj_set_string ['k'] []]
        = .ok (List.replicate 3 (-1), m2) ∧
      m2.mem = ['{', ',', '"', NUL] ∧
      cursor m2.jstr = cursor (⟨64, 4, none, 0, true, 67⟩ : json_str_t Unit) ∧
      m2.jstr.free_ptr = 67 ∧ m2.jstr.buf = 64 ∧ m2.jstr.buf_size = 4 ∧
      m2.jstr.flush_cb = none ∧ m2.world = () :=
  failure_is_sticky (⟨⟨64, 4, none, 0, true, 65⟩, ['{', 'x', 'y', 'z'], ()⟩ : Machine Unit)
    (⟨⟨64, 4, none, 0, true, 67⟩, ['{', ',', '"', NUL], ()⟩ : Machine Unit)
    (.obj_set_bool ['l', 'o', 'n', 'g'] true)
    [.arr_set_int 5, .end_object, .obj_set_string ['k'] []] 1 (by decide) rfl (by decide)
    (by decide) rfl

/-- C15: with a buffer of capacity 4 and the callback that appends the chunks to an (empty)
accumulator, the calls `json_start_array`, `json_arr_set_int(123)`, `json_arr_set_int(456)`,
`json_end_array` between `json_str_start` and `json_str_end` all return 0 and leave the
accumulator holding exactly `[123,456]`. -/
theorem forced_flush_scenario (m0 : Machine (List Char)) (buf priv : Nat) (fuel : Nat)
    (hcap : m0.mem.length = 4) (hw : m0.world = []) (hf : 9 < fuel) :
    ∃ m1 m2,
      run fuel (json_str_start m0 buf 4 (some accumulate) priv)
          [.start_array, .arr_set_int 123, .arr_set_int 456, .end_array]
        = .ok ([0, 0, 0, 0], m1) ∧
      json_str_end m1 = .ok m2 ∧
      m2.world = ['[', '1', '2', '3', ',', '4', '5', '6', ']'] := by
  have hd : document false [.start_array, .arr_set_int 123, .arr_set_int 456, .end_array]
      = ['[', '1', '2', '3', ',', '4', '5', '6', ']'] := by decide
  obtain ⟨m1, m2, hrun, hend, hworld⟩ := accumulate_run m0 buf priv
    [.start_array, .arr_set_int 123, .arr_set_int 456, .end_array] fuel (by omega)
    (by decide) (by rw [hd]; exact hf)
  have e : ((m0.mem.length : Nat) : Int) = 4 := by omega
  rw [e] at hrun
  refine ⟨m1, m2, hrun, hend, ?_⟩
  rw [hworld, hw, hd]
  rfl

theorem forced_flush_scenario_witness :
    ∃ m1 m2,
      run 10 (json_str_start (⟨json_str_zero _, ['a', 'b', 'c', 'd'], []⟩ :
            Machine (List Char)) 64 4 (some accumulate) 0)
          [.start_array, .arr_set_int 123, .arr_set_int 456, .end_array]
        = .ok ([0, 0, 0, 0], m1) ∧
      json_str_end m1 = .ok m2 ∧
      m2.world = ['[', '1', '2', '3', ',', '4', '5', '6', ']'] :=
  forced_flush_scenario ⟨json_str_zero _, ['a', 'b', 'c', 'd'], []⟩ 64 0 10 rfl rfl
    (by decide)

/-- C16: with a buffer large enough (19 bytes or more) and no callback, the calls
`json_start_object`, `json_obj_set_bool("ok", true)`, `json_obj_set_int("n", 30)`,
`json_end_object` made after `json_str_start` all return 0 and leave `{"ok":true,"n":30}` in
the buffer from its start to the cursor. -/
theorem object_scenario (m0 : Machine W) (buf priv : Nat) (fuel : Nat)
    (hcap : 19 ≤ m0.mem.length) (hf : 0 < fuel) :
    ∃ m1,
      run fuel (json_str_start m0 buf m0.mem.length none priv)
          [.start_object, .obj_set_bool ['o', 'k'] true, .obj_set_int ['n'] 30, .end_object]
        = .ok ([0, 0, 0, 0], m1) ∧
      cursor m1.jstr = 18 ∧
      m1.mem.take 18 = ['{', '"', 'o', 'k', '"', ':', 't', 'r', 'u', 'e', ',', '"', 'n', '"',
        ':', '3', '0', '}'] := by
  have hd : document false
      [.start_object, .obj_set_bool ['o', 'k'] true, .obj_set_int ['n'] 30, .end_object]
      = ['{', '"', 'o', 'k', '"', ':', 't', 'r', 'u', 'e', ',', '"', 'n', '"',
        ':', '3', '0', '}'] := by decide
  obtain ⟨m1, m2, hrun, hwr, hcur, _⟩ := buffer_run m0 buf priv
    [.start_object, .obj_set_bool ['o', 'k'] true, .obj_set_int ['n'] 30, .end_object] fuel hf
    (by decide) (by rw [hd]; exact hcap)
  rw [hd] at hwr hcur
  have hcur' : cursor m1.jstr = 18 := hcur
  refine ⟨m1, hrun, hcur', ?_⟩
  have hcell : cell m1 m1.jstr.free_ptr = 18 := by
    simp only [cursor] at hcur'
    simp only [cell]
    omega
  rw [← hwr, written, hcell]

theorem object_scenario_witness :
    ∃ m1,
      run 1 (json_str_start (⟨json_str_zero _, List.replicate 19 'x', ()⟩ : Machine Unit) 64
            ((List.replicate 19 'x').length : Int) none 0)
          [.start_object, .obj_set_bool ['o', 'k'] true, .obj_set_int ['n'] 30, .end_object]
        = .ok ([0, 0, 0, 0], m1) ∧
      cursor m1.jstr = 18 ∧
      m1.mem.take 18 = ['{', '"', 'o', 'k', '"', ':', 't', 'r', 'u', 'e', ',', '"', 'n', '"',
        ':', '3', '0', '}'] :=
  object_scenario ⟨json_str_zero _, List.replicate 19 'x', ()⟩ 64 0 1 (by decide) (by decide)

/-- C17: the calls `json_start_object`, `json_push_array("a")`, `json_arr_set_int(1)`,
`json_arr_set_int(2)`, `json_pop_array`, `json_end_object` all return 0 and yield exactly
`{"a":[1,2]}` — no comma after the `[`, one between the two elements, none before `]` or
`}` — in the accumulator of the accumulating callback for every capacity of at least 2, and
in the buffer without a callback when it has 12 bytes or more. -/
theorem nested_array_scenario (m0 : Machine (List Char)) (buf priv : Nat) (fuel : Nat)
    (hcap : 2 ≤ m0.mem.length) (hw : m0.world = []) (hf : 11 < fuel) :
    (∃ m1 m2,
      run fuel (json_str_start m0 buf m0.mem.length (some accumulate) priv)
          [.start_object, .push_array ['a'], .arr_set_int 1, .arr_set_int 2, .pop_array,
            .end_object]
        = .ok ([0, 0, 0, 0, 0, 0], m1) ∧
      json_str_end m1 = .ok m2 ∧
      m2.world = ['{', '"', 'a', '"', ':', '[', '1', ',', '2', ']', '}']) ∧
    (12 ≤ m0.mem.length →
      ∃ m1,
        run fuel (json_str_start m0 buf m0.mem.length none priv)
            [.start_object, .push_array ['a'], .arr_set_int 1, .arr_set_int 2, .pop_array,
              .end_object]
          = .ok ([0, 0, 0, 0, 0, 0], m1) ∧
        written m1 = ['{', '"', 'a', '"', ':', '[', '1', ',', '2', ']', '}']) := by
  have hd : document false
      [.start_object, .push_array ['a'], .arr_set_int 1, .arr_set_int 2, .pop_array,
        .end_object]
      = ['{', '"', 'a', '"', ':', '[', '1', ',', '2', ']', '}'] := by decide
  constructor
  · obtain ⟨m1, m2, hrun, hend, hworld⟩ := accumulate_run m0 buf priv
      [.start_object, .push_array ['a'], .arr_set_int 1, .arr_set_int 2, .pop_array,
        .end_object] fuel hcap (by decide) (by rw [hd]; exact hf)
    refine ⟨m1, m2, hrun, hend, ?_⟩
    rw [hworld, hw, hd]
    rfl
  · intro h12
    obtain ⟨m1, m2, hrun, hwr, _⟩ := buffer_run m0 buf priv
      [.start_object, .push_array ['a'], .arr_set_int 1, .arr_set_int 2, .pop_array,
        .end_object] fuel (by omega) (by decide) (by rw [hd]; exact h12)
    exact ⟨m1, hrun, by rw [hwr, hd]⟩

theorem nested_array_scenario_witness :
    (∃ m1 m2,
      run 12 (json_str_start (⟨json_str_zero _, List.replicate 12 'x', []⟩ :
            Machine (List Char)) 64 ((List.replicate 12 'x').length : Int)
            (some accumulate) 0)
          [.start_object, .push_array ['a'], .arr_set_int 1, .arr_set_int 2, .pop_array,
            .end_object]
        = .ok ([0, 0, 0, 0, 0, 0], m1) ∧
      json_str_end m1 = .ok m2 ∧
      m2.world = ['{', '"', 'a', '"', ':', '[', '1', ',', '2', ']', '}']) ∧
    (12 ≤ (List.replicate 12 'x').length →
      ∃ m1,
        run 12 (json_str_start (⟨json_str_zero _, List.replicate 12 'x', []⟩ :
              Machine (List Char)) 64 ((List.replicate 12 'x').length : Int) none 0)
            [.start_object, .push_array ['a'], .arr_set_int 1, .arr_set_int 2, .pop_array,
              .end_object]
          = .ok ([0, 0, 0, 0, 0, 0], m1) ∧
        written m1 = ['{', '"', 'a', '"', ':', '[', '1', ',', '2', ']', '}']) :=
  nested_array_scenario ⟨json_str_zero _, List.replicate 12 'x', []⟩ 64 0 12 (by decide) rfl
    (by decide)

theorem deliver_record (priv : Nat) (chunks : List (List Char)) (w : List (List Char)) :
    deliver (some record) priv chunks w = w ++ chunks := by
  induction chunks generalizing w with
  | nil => simp [deliver]
  | cons c cs ih =>
    simp only [deliver, List.foldl_cons] at ih ⊢
    rw [ih]
    simp [record]

/-- C19: with a flush callback (here the one that records the chunks) and capacity at least
2, every chunk handed over from inside an append has exactly capacity - 1 bytes, the chunk
handed over by `json_str_end` has at most capacity - 1 bytes, and the chunks put end to end
are the document: every byte is handed over once, none twice. -/
theorem chunks_partition_document (m0 : Machine (List (List Char))) (buf priv : Nat)
    (ops : List Op) (fuel : Nat) (hcap : 2 ≤ m0.mem.length) (hr : ∀ op ∈ ops, op.in_range)
    (hf : (document false ops).length < fuel) :
    ∃ m1 m2 chunks last,
      run fuel (json_str_start m0 buf m0.mem.length (some record) priv) ops
        = .ok (List.replicate ops.length 0, m1) ∧
      m1.world = m0.world ++ chunks ∧
      (∀ c ∈ chunks, c.length = m0.mem.length - 1) ∧
      json_str_end m1 = .ok m2 ∧
      m2.world = m0.world ++ chunks ++ [last] ∧
      last.length ≤ m0.mem.length - 1 ∧
      chunks.flatten ++ last = document false ops := by
  obtain ⟨hI, hC, hw⟩ := start_inv m0 buf priv (some record) (by omega)
  have hc : CanEmit fuel (json_str_start m0 buf m0.mem.length (some record) priv)
      (document false ops).length :=
    ⟨by omega, Or.inl ⟨by simp [json_str_start], hcap, hf⟩⟩
  obtain ⟨m1, chunks, hrun, hE'⟩ := run_emits ops _ hI hr hc
  have hE : Emits (json_str_start m0 buf m0.mem.length (some record) priv)
      (document false ops) chunks m1 := hE'
  have hcb : m1.jstr.flush_cb = some record := hE.cb_eq
  have ht := hE.text_eq hC
  rw [hw, List.nil_append] at ht
  have hw1 : m1.world = m0.world ++ chunks := by
    rw [hE.world_eq]; exact deliver_record _ _ _
  obtain ⟨g1, g2, g3⟩ := written_length hE.inv
  have hl : m1.mem.length = m0.mem.length := hE.length_eq
  refine ⟨m1, _, chunks, written m1, hrun, hw1, hE.chunk_length hC,
    json_str_end_eq hE.inv (hE.clean hC), ?_, by omega, ht⟩
  show deliver m1.jstr.flush_cb m1.jstr.priv [written m1] m1.world = _
  rw [hcb, deliver_record, hw1]

theorem chunks_partition_document_witness :
    ∃ m1 m2 chunks last,
      run 12 (json_str_start (⟨json_str_zero _, ['x', 'x', 'x', 'x'], []⟩ :
            Machine (List (List Char))) 64 ((['x', 'x', 'x', 'x'] : List Char).length : Int)
            (some record) 0)
          [.start_array, .arr_set_int 123, .arr_set_int 456, .end_array]
        = .ok (List.replicate 4 0, m1) ∧
      m1.world = [] ++ chunks ∧
      (∀ c ∈ chunks, c.length = (['x', 'x', 'x', 'x'] : List Char).length - 1) ∧
      json_str_end m1 = .ok m2 ∧
      m2.world = [] ++ chunks ++ [last] ∧
      last.length ≤ (['x', 'x', 'x', 'x'] : List Char).length - 1 ∧
      chunks.flatten ++ last
        = document false [.start_array, .arr_set_int 123, .arr_set_int 456, .end_array] :=
  chunks_partition_document ⟨json_str_zero _, ['x', 'x', 'x', 'x'], []⟩ 64 0
    [.start_array, .arr_set_int 123, .arr_set_int 456, .end_array] 12 (by decide) (by decide)
    (by decide)

theorem capacity_one_cell {m : Machine W} (hI : Inv m) (hsz : m.jstr.buf_size = 1) :
    m.jstr.free_ptr = m.jstr.buf ∧ ∃ c, m.mem = [c] := by
  obtain ⟨h1, h2, h3⟩ := hI
  simp only [cursor] at h2 h3
  rw [hsz] at h1 h3
  refine ⟨by omega, ?_⟩
  have hl : m.mem.length = 1 := by exact_mod_cast h1
  match hm : m.mem, hl with
  | [c], _ => exact ⟨c, rfl⟩

theorem stalled_spec {m : Machine W} (f : json_flush_cb_t W) (hI : Inv m)
    (hsz : m.jstr.buf_size = 1) :
    Inv (stalled m f) ∧ (stalled m f).jstr = m.jstr := by
  obtain ⟨h1, h2, h3⟩ := hI
  refine ⟨⟨?_, h2, h3⟩, rfl⟩
  show ((([NUL] : List Char).length : Nat) : Int) = m.jstr.buf_size
  rw [hsz]; rfl

theorem body_capacity_one {m : Machine W} (f : json_flush_cb_t W) (cur_ptr : List Char)
    (len : Int) (hI : Inv m) (hsz : m.jstr.buf_size = 1) (hcb : m.jstr.flush_cb = some f)
    (hl : 0 < len) :
    json_add_to_str_body m cur_ptr len = .ok (.next (stalled m f) cur_ptr len) := by
  obtain ⟨hfp, c, hmem⟩ := capacity_one_cell hI hsz
  obtain ⟨⟨buf, buf_size, flush_cb, priv, comma_req, free_ptr⟩, mem, world⟩ := m
  simp only at hfp hmem hsz hcb
  subst hfp hmem hsz hcb
  have hlen : ¬ (0 > len) := by omega
  have hne : len ≠ 0 := by omega
  simp [json_add_to_str_body, json_get_empty_len, memmove, poke, cell, hlen, hne, stalled,
    c_str, NUL]

theorem body_empty_capacity_one {m : Machine W} (cur_ptr : List Char) (hI : Inv m)
    (hsz : m.jstr.buf_size = 1) :
    json_add_to_str_body m cur_ptr 0 = .ok (.brk m) := by
  obtain ⟨hfp, c, hmem⟩ := capacity_one_cell hI hsz
  obtain ⟨⟨buf, buf_size, flush_cb, priv, comma_req, free_ptr⟩, mem, world⟩ := m
  simp only at hfp hmem hsz
  subst hfp hmem hsz
  simp [json_add_to_str_body, json_get_empty_len, memmove, cell]

theorem loop_capacity_one (f : json_flush_cb_t W) (cur_ptr : List Char) (len : Int)
    (hl : 0 < len) : ∀ (fuel : Nat) (m : Machine W), Inv m → m.jstr.buf_size = 1 →
    m.jstr.flush_cb = some f → json_add_to_str_loop fuel m cur_ptr len = .error .fuel := by
  intro fuel
  induction fuel with
  | zero => intro m _ _ _; rfl
  | succ k ih =>
    intro m hI hsz hcb
    simp only [json_add_to_str_loop, body_capacity_one f cur_ptr len hI hsz hcb hl]
    obtain ⟨h1, h2⟩ := stalled_spec f hI hsz
    exact ih (stalled m f) h1 (by rw [h2]; exact hsz) (by rw [h2]; exact hcb)

theorem add_capacity_one {m : Machine W} (f : json_flush_cb_t W) (str : List Char)
    (fuel : Nat) (hI : Inv m) (hsz : m.jstr.buf_size = 1) (hcb : m.jstr.flush_cb = some f) :
    json_add_to_str fuel m str =
      if c_str str = [] then (if fuel = 0 then .error .fuel else .ok (0, m))
      else .error .fuel := by
  by_cases hs : c_str str = []
  · rw [if_pos hs]
    have h0 : strlen str = 0 := by simp [strlen, hs]
    cases fuel with
    | zero => rfl
    | succ k =>
      simp only [json_add_to_str, h0, json_add_to_str_loop,
        body_empty_capacity_one str hI hsz]
      simp
  · rw [if_neg hs]
    have hpos : 0 < strlen str := by
      simp only [strlen]
      have : 0 < (c_str str).length := List.length_pos.mpr hs
      exact_mod_cast this
    exact loop_capacity_one f str _ hpos fuel m hI hsz hcb

theorem add_all_capacity_one (f : json_flush_cb_t W) (fuel : Nat) :
    ∀ (ps : List (List Char)) (m : Machine W), Inv m → m.jstr.buf_size = 1 →
    m.jstr.flush_cb = some f →
    add_all fuel m ps = .error .fuel ∨ add_all fuel m ps = .ok m := by
  intro ps
  induction ps with
  | nil => intro m _ _ _; exact Or.inr rfl
  | cons p ps ih =>
    intro m hI hsz hcb
    simp only [add_all, add_capacity_one f p fuel hI hsz hcb]
    by_cases hp : c_str p = []
    · rw [if_pos hp]
      by_cases h0 : fuel = 0
      · rw [if_pos h0]; exact Or.inl rfl
      · rw [if_neg h0]
        exact ih m hI hsz hcb
    · rw [if_neg hp]; exact Or.inl rfl

theorem exec_capacity_one {m : Machine W} (f : json_flush_cb_t W) (op : Op) (fuel : Nat)
    (hI : Inv m) (hsz : m.jstr.buf_size = 1) (hcb : m.jstr.flush_cb = some f)
    (hd : op.rendered) : exec fuel m op = .error .fuel := by
  rw [exec_eq_flat]
  simp only [exec_flat]
  rcases add_all_capacity_one f fuel (op.init m.jstr.comma_req) m hI hsz hcb with h | h
  · rw [h]; rfl
  · rw [h]
    show (json_add_to_str fuel m op.last >>= fun r =>
      (pure (r.1, set_comma_req r.2 op.comma_after) : Except Fault (Int × Machine W))) = _
    rw [add_capacity_one f op.last fuel hI hsz hcb, if_neg (last_ne_nil op hd)]
    rfl

/-- C21: with a flush callback and capacity 1, appending a non-empty string makes no
progress.  No byte fits (`json_get_empty_len` is 0), so each pass through the loop of
`json_add_to_str` copies nothing, hands the empty chunk to the callback and goes on to the
next iteration with the same writer structure (same cursor), the same `cur_ptr` and the same
remaining length; the state reached is again one of capacity 1 with the callback.  Hence for
no number of iterations does `json_add_to_str` return, and no public call returns either. -/
theorem capacity_one_never_finishes (m : Machine W) (f : json_flush_cb_t W)
    (str : List Char) (hI : Inv m) (hsz : m.jstr.buf_size = 1)
    (hcb : m.jstr.flush_cb = some f) (hs : c_str str ≠ []) :
    json_get_empty_len m.jstr = 0 ∧
    (∀ cur_ptr len, 0 < len →
      json_add_to_str_body m cur_ptr len = .ok (.next (stalled m f) cur_ptr len)) ∧
    (stalled m f).jstr = m.jstr ∧ cursor (stalled m f).jstr = cursor m.jstr ∧
    (stalled m f).world = f [] m.jstr.priv m.world ∧ Inv (stalled m f) ∧
    0 < strlen str ∧
    (∀ fuel, json_add_to_str fuel m str = .error .fuel) ∧
    (∀ op : Op, op.rendered → ∀ fuel, exec fuel m op = .error .fuel) := by
  obtain ⟨h1, h2⟩ := stalled_spec f hI hsz
  have hpos : 0 < strlen str := by
    simp only [strlen]
    have : 0 < (c_str str).length := List.length_pos.mpr hs
    exact_mod_cast this
  refine ⟨?_, fun cur_ptr len hl => body_capacity_one f cur_ptr len hI hsz hcb hl, h2,
    by rw [h2], rfl, h1, hpos, fun fuel => ?_,
    fun op hd fuel => exec_capacity_one f op fuel hI hsz hcb hd⟩
  · obtain ⟨hfp, _⟩ := capacity_one_cell hI hsz
    simp only [json_get_empty_len, hsz, hfp]; omega
  · rw [add_capacity_one f str fuel hI hsz hcb, if_neg hs]

theorem capacity_one_never_finishes_witness :
    json_get_empty_len (⟨⟨64, 1, some accumulate, 0, false, 64⟩, ['x'], []⟩ :
      Machine (List Char)).jstr = 0 ∧
    (∀ cur_ptr len, 0 < len →
      json_add_to_str_body (⟨⟨64, 1, some accumulate, 0, false, 64⟩, ['x'], []⟩ :
        Machine (List Char)) cur_ptr len
        = .ok (.next (stalled ⟨⟨64, 1, some accumulate, 0, false, 64⟩, ['x'], []⟩ accumulate)
            cur_ptr len)) ∧
    (stalled (⟨⟨64, 1, some accumulate, 0, false, 64⟩, ['x'], []⟩ : Machine (List Char))
      accumulate).jstr
      = (⟨⟨64, 1, some accumulate, 0, false, 64⟩, ['x'], []⟩ : Machine (List Char)).jstr ∧
    cursor (stalled (⟨⟨64, 1, some accumulate, 0, false, 64⟩, ['x'], []⟩ :
      Machine (List Char)) accumulate).jstr
      = cursor (⟨⟨64, 1, some accumulate, 0, false, 64⟩, ['x'], []⟩ :
          Machine (List Char)).jstr ∧
    (stalled (⟨⟨64, 1, some accumulate, 0, false, 64⟩, ['x'], []⟩ : Machine (List Char))
      accumulate).world = accumulate [] 0 [] ∧
    Inv (stalled (⟨⟨64, 1, some accumulate, 0, false, 64⟩, ['x'], []⟩ : Machine (List Char))
      accumulate) ∧
    0 < strlen ['{'] ∧
    (∀ fuel, json_add_to_str fuel
      (⟨⟨64, 1, some accumulate, 0, false, 64⟩, ['x'], []⟩ : Machine (List Char)) ['{']
        = .error .fuel) ∧
    (∀ op : Op, op.rendered → ∀ fuel,
      exec fuel (⟨⟨64, 1, some accumulate, 0, false, 64⟩, ['x'], []⟩ : Machine (List Char)) op
        = .error .fuel) :=
  capacity_one_never_finishes ⟨⟨64, 1, some accumulate, 0, false, 64⟩, ['x'], []⟩ accumulate
    ['{'] (by decide) rfl rfl (by decide)

end JsonGenerator
